import Mathlib

/-!
# Verification of the prettytable layout engine

This file gives a shallow embedding, in Lean 4, of the core of the
`prettytable` table-rendering library (`src/prettytable/prettytable.py`)
and proves/refutes a collection of claims about it.

Conventions used throughout:

* Python strings are modelled as `List Char` (`Str` below); Python `len`
  is `List.length` (both count code points).
* Python dictionaries whose exact key set matters are modelled as
  association lists; the `_align`/`_valign` dictionaries, which the
  setters keep populated for every field name, are modelled as total
  maps `Str → String`.
* Fallible operations return `Except`.
* Python computes the shrink/grow scale factors of `_compute_widths`
  in floating point; the model uses exact rational arithmetic,
  represented by unreduced integer fractions (`Frac` below) so that
  everything stays kernel-computable.  Concrete inputs in witnesses and
  counterexamples are chosen so that the floating-point computation of
  the source is exact (powers of two), hence agrees with the model.
-/

set_option linter.unusedVariables false

namespace PTable

/-- Python strings, as lists of code points. -/
abbrev Str := List Char

/-- The escape character ESC (U+001B), which starts an ANSI SGR sequence. -/
def escChar : Char := Char.ofNat 27

/-- Modelled from the spec: the `unicodedata.combining` test from Python's
standard library (library data, not part of this repository): Unicode
combining marks measure 0 columns.  We model the principal combining-mark
ranges; no claim below depends on the exact extension of this predicate
outside ASCII. -/
def isCombining (c : Char) : Bool :=
  let n := c.toNat
  decide ((0x0300 ≤ n ∧ n ≤ 0x036F) ∨ (0x0483 ≤ n ∧ n ≤ 0x0489) ∨
    (0x0591 ≤ n ∧ n ≤ 0x05BD) ∨ (0x0610 ≤ n ∧ n ≤ 0x061A) ∨
    (0x064B ≤ n ∧ n ≤ 0x065F) ∨ (0x1AB0 ≤ n ∧ n ≤ 0x1AFF) ∨
    (0x1DC0 ≤ n ∧ n ≤ 0x1DFF) ∨ (0x20D0 ≤ n ∧ n ≤ 0x20F0) ∨
    (0xFE20 ≤ n ∧ n ≤ 0xFE2F))

/-- `_char_block_width` from the source: the display width of one code
point.  Branch order mirrors the source exactly. -/
def char_block_width (c : Char) : Int :=
  if 0x0021 ≤ c.toNat ∧ c.toNat ≤ 0x007e then 1          -- Basic Latin
  else if 0x4e00 ≤ c.toNat ∧ c.toNat ≤ 0x9fff then 2     -- CJK
  else if 0xac00 ≤ c.toNat ∧ c.toNat ≤ 0xd7af then 2     -- Hangul
  else if isCombining c then 0                           -- combining marks
  else if (0x3040 ≤ c.toNat ∧ c.toNat ≤ 0x309f) ∨ (0x30a0 ≤ c.toNat ∧ c.toNat ≤ 0x30ff) then 2
  else if 0xff01 ≤ c.toNat ∧ c.toNat ≤ 0xff60 then 2     -- full-width Latin
  else if 0x3000 ≤ c.toNat ∧ c.toNat ≤ 0x303e then 2     -- CJK punctuation
  else if c.toNat = 0x0008 ∨ c.toNat = 0x007f then (-1)  -- backspace and delete
  else if c.toNat = 0x0000 ∨ c.toNat = 0x000f ∨ c.toNat = 0x001f then 0
  else 1

/-- Part of the ANSI matcher: after having seen `ESC [`, consume
`[0-9;]*` and then `m`; return the remainder of the string on a full
match.  This is the deterministic reading of the source's regular
expression `\033\[[0-9;]*m`: the starred class cannot contain `m`, so
the greedy match is unambiguous. -/
def sgr_num : Str → Option Str
  | [] => none
  | c :: rest =>
    if c = 'm' then some rest
    else if ('0' ≤ c ∧ c ≤ '9') ∨ c = ';' then sgr_num rest
    else none

/-- Try to match `[ [0-9;]* m` (the part of an SGR sequence after ESC). -/
def sgr_tail : Str → Option Str
  | c :: rest => if c = '[' then sgr_num rest else none
  | [] => none

/-- One left-to-right pass deleting every SGR escape sequence, with
explicit fuel so that the definition is structural (the fuel is always
at least the length of the list, and one code point is consumed per
step, so the fuel never runs out in `strip_ansi`). -/
def strip_ansi_fuel : Nat → Str → Str
  | 0, l => l
  | _ + 1, [] => []
  | f + 1, c :: rest =>
    if c = escChar then
      match sgr_tail rest with
      | some rem => strip_ansi_fuel f rem
      | none => c :: strip_ansi_fuel f rest
    else c :: strip_ansi_fuel f rest

/-- `_re.sub("", val)`: delete every ANSI SGR escape sequence. -/
def strip_ansi (l : Str) : Str := strip_ansi_fuel l.length l

/-- Sum of per-code-point widths (no ANSI stripping). -/
def raw_width (l : Str) : Int := (l.map char_block_width).sum

/-- `_str_block_width` from the source: strip ANSI SGR sequences, then
sum the widths of the remaining code points. -/
def str_block_width (l : Str) : Int := raw_width (strip_ansi l)

/-- `text.split("\n")` (never returns an empty list). -/
def split_nl : Str → List Str
  | [] => [[]]
  | c :: rest =>
    if c = '\n' then [] :: split_nl rest
    else
      match split_nl rest with
      | [] => [[c]]
      | l :: ls => (c :: l) :: ls

/-- Python `max` over a list of integers (the source only applies it to
nonempty lists; we return 0 on `[]`). -/
def list_max : List Int → Int
  | [] => 0
  | x :: xs => xs.foldl max x

/-- `_get_size` from the source: `(max line width, number of lines)`. -/
def get_size (text : Str) : Int × Nat :=
  let lines := split_nl text
  (list_max (lines.map str_block_width), lines.length)

/-- Python `k * " "` (empty for `k ≤ 0`). -/
def spaces (k : Int) : Str := List.replicate k.toNat ' '

/-- `_justify` from the source.  `excess // 2` is Python floor division
(`Int.fdiv`) and `excess % 2` is Python modulo (`Int.emod`). -/
def justify (text : Str) (width : Int) (align : String) : Str :=
  let excess := width - str_block_width text
  if align = "l" then text ++ spaces excess
  else if align = "r" then spaces excess ++ text
  else
    if excess.emod 2 ≠ 0 then
      if (str_block_width text).emod 2 ≠ 0 then
        spaces (excess.fdiv 2) ++ text ++ spaces (excess.fdiv 2 + 1)
      else
        spaces (excess.fdiv 2 + 1) ++ text ++ spaces (excess.fdiv 2)
    else
      spaces (excess.fdiv 2) ++ text ++ spaces (excess.fdiv 2)

end PTable

namespace PTable

/-! ## Basic lemmas about the width measurer -/

theorem sgr_num_suffix : ∀ {l rem : Str}, sgr_num l = some rem → rem.IsSuffix l := by
  intro l
  induction l with
  | nil => intro rem h; simp [sgr_num] at h
  | cons c rest ih =>
    intro rem h
    simp only [sgr_num] at h
    split at h
    · cases h; exact (List.suffix_cons c rest)
    · split at h
      · exact (ih h).trans (List.suffix_cons c rest)
      · cases h

theorem sgr_tail_suffix : ∀ {l rem : Str}, sgr_tail l = some rem → rem.IsSuffix l := by
  intro l rem h
  match l with
  | [] => simp [sgr_tail] at h
  | c :: rest =>
    simp only [sgr_tail] at h
    split at h
    · exact (sgr_num_suffix h).trans (List.suffix_cons c rest)
    · cases h

theorem sgr_tail_length {l rem : Str} (h : sgr_tail l = some rem) : rem.length ≤ l.length :=
  (sgr_tail_suffix h).length_le

theorem strip_fuel_congr : ∀ (f₁ : Nat) (l : Str) (f₂ : Nat), l.length ≤ f₁ → l.length ≤ f₂ →
    strip_ansi_fuel f₁ l = strip_ansi_fuel f₂ l := by
  intro f₁
  induction f₁ with
  | zero =>
    intro l f₂ h₁ _
    have : l = [] := List.eq_nil_of_length_eq_zero (Nat.le_zero.mp h₁)
    subst this
    cases f₂ <;> rfl
  | succ g ih =>
    intro l f₂ h₁ h₂
    cases l with
    | nil => cases f₂ <;> rfl
    | cons c rest =>
      cases f₂ with
      | zero => simp at h₂
      | succ g₂ =>
        simp only [strip_ansi_fuel]
        by_cases hc : c = escChar
        · simp only [hc, if_pos rfl]
          cases hmatch : sgr_tail rest with
          | some rem =>
            have hlen : rem.length ≤ rest.length := sgr_tail_length hmatch
            have hr : rest.length ≤ g := (by simpa using h₁)
            have hr₂ : rest.length ≤ g₂ := (by simpa using h₂)
            exact ih rem g₂ (hlen.trans hr) (hlen.trans hr₂)
          | none =>
            have hr : rest.length ≤ g := (by simpa using h₁)
            have hr₂ : rest.length ≤ g₂ := (by simpa using h₂)
            rw [ih rest g₂ hr hr₂]
        · simp only [if_neg hc]
          have hr : rest.length ≤ g := (by simpa using h₁)
          have hr₂ : rest.length ≤ g₂ := (by simpa using h₂)
          rw [ih rest g₂ hr hr₂]

theorem strip_ansi_nil : strip_ansi [] = [] := rfl

theorem strip_ansi_cons (c : Char) (rest : Str) :
    strip_ansi (c :: rest) =
      if c = escChar then
        match sgr_tail rest with
        | some rem => strip_ansi rem
        | none => c :: strip_ansi rest
      else c :: strip_ansi rest := by
  show strip_ansi_fuel (rest.length + 1) (c :: rest) = _
  simp only [strip_ansi_fuel]
  by_cases hc : c = escChar
  · simp only [if_pos hc]
    cases hmatch : sgr_tail rest with
    | some rem =>
      exact strip_fuel_congr rest.length rem rem.length (sgr_tail_length hmatch) le_rfl
    | none => rfl
  · simp only [if_neg hc]
    rfl

theorem strip_ansi_of_not_esc : ∀ {l : Str}, escChar ∉ l → strip_ansi l = l := by
  intro l
  induction l with
  | nil => intro _; rfl
  | cons c rest ih =>
    intro h
    rw [strip_ansi_cons]
    have hc : c ≠ escChar := fun hceq => h (hceq ▸ List.mem_cons_self c rest)
    rw [if_neg hc, ih (fun hm => h (List.mem_cons_of_mem c hm))]

theorem mem_strip_ansi_aux : ∀ (n : Nat) (l : Str), l.length ≤ n → ∀ a ∈ strip_ansi l, a ∈ l := by
  intro n
  induction n with
  | zero =>
    intro l hl a ha
    have : l = [] := List.eq_nil_of_length_eq_zero (Nat.le_zero.mp hl)
    subst this
    simpa [strip_ansi_nil] using ha
  | succ m ih =>
    intro l hl a ha
    cases l with
    | nil => simpa [strip_ansi_nil] using ha
    | cons c rest =>
      rw [strip_ansi_cons] at ha
      have hrest : rest.length ≤ m := by simpa using hl
      by_cases hc : c = escChar
      · rw [if_pos hc] at ha
        cases hmatch : sgr_tail rest with
        | some rem =>
          rw [hmatch] at ha
          have h₁ : rem.length ≤ m := (sgr_tail_length hmatch).trans hrest
          exact List.mem_cons_of_mem c
            ((sgr_tail_suffix hmatch).subset (ih rem h₁ a ha))
        | none =>
          rw [hmatch] at ha
          rcases List.mem_cons.mp ha with h | h
          · exact h ▸ List.mem_cons_self c rest
          · exact List.mem_cons_of_mem c (ih rest hrest a h)
      · rw [if_neg hc] at ha
        rcases List.mem_cons.mp ha with h | h
        · exact h ▸ List.mem_cons_self c rest
        · exact List.mem_cons_of_mem c (ih rest hrest a h)

theorem mem_strip_ansi (l : Str) : ∀ a ∈ strip_ansi l, a ∈ l :=
  mem_strip_ansi_aux l.length l le_rfl

theorem char_block_width_nonneg {c : Char} (h8 : c.toNat ≠ 0x0008) (h7f : c.toNat ≠ 0x007f) :
    0 ≤ char_block_width c := by
  unfold char_block_width
  split_ifs with h1 h2 h3 h4 h5 h6 h7 hbs hctl
  any_goals norm_num
  rcases hbs with h | h
  · exact absurd h h8
  · exact absurd h h7f

theorem raw_width_nonneg {l : Str} (h : ∀ c ∈ l, c.toNat ≠ 0x0008 ∧ c.toNat ≠ 0x007f) :
    0 ≤ raw_width l := by
  unfold raw_width
  apply List.sum_nonneg
  intro x hx
  rcases List.mem_map.mp hx with ⟨c, hc, rfl⟩
  exact char_block_width_nonneg (h c hc).1 (h c hc).2

theorem strip_ansi_append_of_not_esc :
    ∀ (a t : Str), escChar ∉ a → strip_ansi (a ++ t) = a ++ strip_ansi t := by
  intro a
  induction a with
  | nil => intro t _; rfl
  | cons c rest ih =>
    intro t h
    have hc : c ≠ escChar := fun hceq => h (hceq ▸ List.mem_cons_self c rest)
    rw [List.cons_append, strip_ansi_cons, if_neg hc,
      ih t (fun hm => h (List.mem_cons_of_mem c hm))]
    rfl

theorem sgr_num_of_body (b : Str) :
    ∀ (ds : Str), (∀ c ∈ ds, (('0' ≤ c ∧ c ≤ '9') ∨ c = ';')) →
    sgr_num (ds ++ 'm' :: b) = some b := by
  intro ds
  induction ds with
  | nil => intro _; simp [sgr_num]
  | cons c rest ih =>
    intro h
    have hc := h c (List.mem_cons_self c rest)
    have hcm : c ≠ 'm' := by
      intro hh
      subst hh
      rcases hc with ⟨h1, h2⟩ | h1
      · exact absurd h2 (by decide)
      · exact absurd h1 (by decide)
    simp only [List.cons_append, sgr_num, if_neg hcm, if_pos hc]
    exact ih (fun x hx => h x (List.mem_cons_of_mem c hx))

/-- C6 counterexample: the claim asserts `_str_block_width` is non-negative on
every input, but a lone backspace character (U+0008) measures −1. -/
theorem c6_counterexample : str_block_width [Char.ofNat 0x0008] = -1 ∧
    ¬ (0 ≤ str_block_width [Char.ofNat 0x0008]) := by decide

/-- C6 (amended): for every input string containing neither backspace (U+0008)
nor delete (U+007F) — the two code points the width table maps to −1 —
`_str_block_width` returns a non-negative integer; and ANSI SGR escape
sequences `ESC [ [0-9;]* m` are stripped before measurement, so inserting one
anywhere after the ESC-free prefix of the string contributes zero width. -/
theorem c6_width_nonneg_and_sgr_zero (s a b ds : Str)
    (hs : ∀ c ∈ s, c.toNat ≠ 0x0008 ∧ c.toNat ≠ 0x007f)
    (ha : escChar ∉ a)
    (hds : ∀ c ∈ ds, (('0' ≤ c ∧ c ≤ '9') ∨ c = ';')) :
    0 ≤ str_block_width s ∧
      str_block_width (a ++ (escChar :: '[' :: (ds ++ ['m'])) ++ b) =
        str_block_width (a ++ b) := by
  constructor
  · exact raw_width_nonneg (fun c hc => hs c (mem_strip_ansi s c hc))
  · unfold str_block_width
    have h1 : strip_ansi (a ++ (escChar :: '[' :: (ds ++ ['m'])) ++ b)
        = a ++ strip_ansi ((escChar :: '[' :: (ds ++ ['m'])) ++ b) := by
      rw [List.append_assoc]
      exact strip_ansi_append_of_not_esc a _ ha
    have h2 : strip_ansi ((escChar :: '[' :: (ds ++ ['m'])) ++ b) = strip_ansi b := by
      rw [List.cons_append, strip_ansi_cons, if_pos rfl]
      have : sgr_tail (('[' :: (ds ++ ['m'])) ++ b) = some b := by
        have : ds ++ ['m'] ++ b = ds ++ 'm' :: b := by simp
        simp only [sgr_tail, List.cons_append, if_pos rfl]
        rw [List.append_assoc]
        simpa using sgr_num_of_body b ds hds
      rw [this]
    rw [h1, h2, strip_ansi_append_of_not_esc a b ha]

/-- C6 witness: the amended statement at a concrete input. -/
theorem c6_witness :
    (∀ c ∈ "ab".data, c.toNat ≠ 0x0008 ∧ c.toNat ≠ 0x007f) ∧
    (escChar ∉ "x".data) ∧
    (∀ c ∈ "31".data, (('0' ≤ c ∧ c ≤ '9') ∨ c = ';')) ∧
    (0 ≤ str_block_width "ab".data ∧
      str_block_width ("x".data ++ (escChar :: '[' :: ("31".data ++ ['m'])) ++ "y".data) =
        str_block_width ("x".data ++ "y".data)) :=
  ⟨by decide, by decide, by decide,
    c6_width_nonneg_and_sgr_zero "ab".data "x".data "y".data "31".data
      (by decide) (by decide) (by decide)⟩

/-- C7: `_justify` with center alignment implements the stated tie-break.
With `excess = width − blockwidth(text)`: if `excess` is even the text gets
`excess.fdiv 2` spaces on each side; if `excess` is odd and the text's display
width is odd the extra space goes on the right; if `excess` is odd and the
text's display width is even the extra space goes on the left.  (Stated
unconditionally: for negative padding counts `spaces` is empty, exactly as
Python's `n * " "`.) -/
theorem c7_justify_center_tiebreak (text : Str) (width : Int) :
    justify text width "c" =
      spaces (if (width - str_block_width text).emod 2 ≠ 0 ∧
                 (str_block_width text).emod 2 = 0
              then (width - str_block_width text).fdiv 2 + 1
              else (width - str_block_width text).fdiv 2)
      ++ text ++
      spaces (if (width - str_block_width text).emod 2 ≠ 0 ∧
                 (str_block_width text).emod 2 ≠ 0
              then (width - str_block_width text).fdiv 2 + 1
              else (width - str_block_width text).fdiv 2) := by
  unfold justify
  rw [if_neg (show ¬("c" : String) = "l" by decide), if_neg (show ¬("c" : String) = "r" by decide)]
  by_cases he : (width - str_block_width text).emod 2 ≠ 0
  · by_cases ht : (str_block_width text).emod 2 = 0
    · simp [he, ht]
    · simp [he, ht]
  · simp [he, not_ne_iff.mp he]

end PTable

namespace PTable

/-! ## Sorting and row selection (`_get_rows`)

Python's `list.sort(reverse=r, key=k)` is a stable sort: with `reverse=False`
it sorts ascending by key, with `reverse=True` descending by key, and in both
cases elements with equal keys keep their original relative order.  Any stable
sort produces the same output, so we model it with stable insertion sort. -/

/-- Stable insertion of `x` into `l`: `x` goes in front of the first element
`y` with `le x y` (so, for equal keys, in front of later-inserted equals). -/
def insort (le : α → α → Bool) (x : α) : List α → List α
  | [] => [x]
  | y :: ys => if le x y then x :: y :: ys else y :: insort le x ys

/-- Stable insertion sort. -/
def isort (le : α → α → Bool) : List α → List α
  | [] => []
  | x :: xs => insort le x (isort le xs)

/-- `l.Pairwise` for a boolean comparison. -/
def SortedB (le : α → α → Bool) (l : List α) : Prop :=
  l.Pairwise (fun a b => le a b = true)

theorem insort_perm (le : α → α → Bool) (x : α) :
    ∀ (l : List α), (insort le x l).Perm (x :: l) := by
  intro l
  induction l with
  | nil => rfl
  | cons y ys ih =>
    rw [insort]
    by_cases h : le x y = true
    · rw [if_pos h]
    · rw [if_neg h]
      exact (List.Perm.cons y ih).trans (List.Perm.swap x y ys)

theorem isort_perm (le : α → α → Bool) : ∀ (l : List α), (isort le l).Perm l := by
  intro l
  induction l with
  | nil => rfl
  | cons x xs ih =>
    rw [isort]
    exact (insort_perm le x (isort le xs)).trans (List.Perm.cons x ih)

theorem insort_sorted {le : α → α → Bool}
    (htot : ∀ a b, le a b = true ∨ le b a = true)
    (htrans : ∀ a b c, le a b = true → le b c = true → le a c = true)
    (x : α) : ∀ {l : List α}, SortedB le l → SortedB le (insort le x l) := by
  intro l
  induction l with
  | nil => intro _; simp [insort, SortedB]
  | cons y ys ih =>
    intro h
    rw [SortedB, insort]
    by_cases hxy : le x y = true
    · rw [if_pos hxy]
      refine List.pairwise_cons.mpr ⟨?_, h⟩
      intro b hb
      rcases List.mem_cons.mp hb with rfl | hb
      · exact hxy
      · exact htrans x y b hxy ((List.pairwise_cons.mp h).1 b hb)
    · rw [if_neg hxy]
      have hyx : le y x = true := (htot x y).resolve_left hxy
      refine List.pairwise_cons.mpr ⟨?_, ih (List.pairwise_cons.mp h).2⟩
      intro b hb
      rcases List.mem_cons.mp ((insort_perm le x ys).mem_iff.mp hb) with rfl | hb'
      · exact hyx
      · exact (List.pairwise_cons.mp h).1 b hb'

theorem isort_sorted {le : α → α → Bool}
    (htot : ∀ a b, le a b = true ∨ le b a = true)
    (htrans : ∀ a b c, le a b = true → le b c = true → le a c = true) :
    ∀ (l : List α), SortedB le (isort le l) := by
  intro l
  induction l with
  | nil => exact List.Pairwise.nil
  | cons x xs ih => exact insort_sorted htot htrans x ih

/-- With pairwise-distinct sort keys, the stable descending sort is the exact
reverse of the stable ascending sort. -/
theorem isort_desc_eq_reverse_asc {α : Type _} {κ : Type _} [LinearOrder κ]
    (key : α → κ) (l : List α)
    (hd : (l.map key).Pairwise (· ≠ ·)) :
    isort (fun a b => decide (key b ≤ key a)) l
      = (isort (fun a b => decide (key a ≤ key b)) l).reverse := by
  have hne_l : l.Pairwise (fun a b => key a ≠ key b) := List.pairwise_map.mp hd
  have hsymm : ∀ {x y : α}, key x ≠ key y → key y ≠ key x := fun h => h.symm
  have htotD : ∀ a b : α, decide (key b ≤ key a) = true ∨ decide (key a ≤ key b) = true := by
    intro a b
    rcases le_total (key b) (key a) with h | h
    · exact Or.inl (decide_eq_true h)
    · exact Or.inr (decide_eq_true h)
  have htransD : ∀ a b c : α, decide (key b ≤ key a) = true → decide (key c ≤ key b) = true →
      decide (key c ≤ key a) = true := by
    intro a b c h1 h2
    exact decide_eq_true ((of_decide_eq_true h2).trans (of_decide_eq_true h1))
  have htotA : ∀ a b : α, decide (key a ≤ key b) = true ∨ decide (key b ≤ key a) = true := by
    intro a b
    exact (htotD b a)
  have htransA : ∀ a b c : α, decide (key a ≤ key b) = true → decide (key b ≤ key c) = true →
      decide (key a ≤ key c) = true := by
    intro a b c h1 h2
    exact decide_eq_true ((of_decide_eq_true h1).trans (of_decide_eq_true h2))
  set leD : α → α → Bool := fun a b => decide (key b ≤ key a) with hleD
  set leA : α → α → Bool := fun a b => decide (key a ≤ key b) with hleA
  have hpermD : (isort leD l).Perm l := isort_perm leD l
  have hpermA : (isort leA l).Perm l := isort_perm leA l
  have hperm : (isort leD l).Perm ((isort leA l).reverse) :=
    (hpermD.trans hpermA.symm).trans (List.reverse_perm _).symm
  have hneD : (isort leD l).Pairwise (fun a b => key a ≠ key b) :=
    (hpermD.pairwise_iff hsymm).mpr hne_l
  have hneA : (isort leA l).Pairwise (fun a b => key a ≠ key b) :=
    (hpermA.pairwise_iff hsymm).mpr hne_l
  have hPD : (isort leD l).Pairwise (fun a b => key b ≤ key a) :=
    (isort_sorted htotD htransD l).imp (fun h => of_decide_eq_true h)
  have hPA : (isort leA l).Pairwise (fun a b => key a ≤ key b) :=
    (isort_sorted htotA htransA l).imp (fun h => of_decide_eq_true h)
  have hs₁ : (isort leD l).Pairwise (fun a b => key b < key a) :=
    (hPD.and hneD).imp (fun h => lt_of_le_of_ne h.1 h.2.symm)
  have hs₂ : ((isort leA l).reverse).Pairwise (fun a b => key b < key a) := by
    rw [List.pairwise_reverse]
    exact (hPA.and hneA).imp (fun h => lt_of_le_of_ne h.1 h.2)
  haveI : IsAntisymm α (fun a b => key b < key a) :=
    ⟨fun a b h1 h2 => absurd (h1.trans h2) (lt_irrefl _)⟩
  exact List.eq_of_perm_of_sorted hperm hs₁ hs₂

/-- Python list slice `l[start:end]` for non-negative bounds. -/
def py_slice (l : List α) (start : Nat) (end_ : Option Nat) : List α :=
  match end_ with
  | none => l.drop start
  | some e => (l.take e).drop start

/-- The sort decoration of `_get_rows`: `rows = [[row[sortindex]] + row for row in rows]`
with `sortindex = self._field_names.index(options["sortby"])`. -/
def decorate_rows [Inhabited α] (rows : List (List α)) (field_names : List Str)
    (sb : Str) : List (List α) :=
  rows.map (fun r => r.getD (field_names.indexOf sb) default :: r)

/-- `_get_rows` from the source.  `cmp a b` models `sort_key(a) <= sort_key(b)`
on decorated rows (Python's `sort` with `reverse=True` is the stable descending
sort, i.e. it uses the reversed comparison); an empty-string `sortby` is falsy
in Python and disables sorting, exactly as in the source's
`if options["sortby"]:`. -/
def get_rows [Inhabited α] (rows : List (List α)) (field_names : List Str)
    (cmp : List α → List α → Bool) (sortby : Option Str) (reversesort : Bool)
    (oldsortslice : Bool) (start : Nat) (end_ : Option Nat) : List (List α) :=
  let rows₀ := if oldsortslice then py_slice rows start end_ else rows
  let rows₁ :=
    match sortby with
    | some sb =>
      if sb ≠ [] then
        let dec := decorate_rows rows₀ field_names sb
        let sorted := isort (fun a b => if reversesort then cmp b a else cmp a b) dec
        sorted.map (fun r => r.drop 1)
      else rows₀
    | none => rows₀
  if ¬oldsortslice then py_slice rows₁ start end_ else rows₁

theorem py_slice_zero_none (l : List α) : py_slice l 0 none = l := by
  simp [py_slice]

/-- C5 counterexample: with a constant sort key (`sort_key = lambda x: 0`,
modelled by the constant-true comparison) on the two distinct rows `[1]` and
`[2]`, Python's stable sort returns the rows in original order for **both**
`reversesort=False` and `reversesort=True`, so the two orders are not
reverses of each other. -/
theorem c5_counterexample :
    get_rows [[(1 : Int)], [2]] ["x".data] (fun _ _ => true) (some "x".data) true false 0 none
        = [[1], [2]] ∧
    (get_rows [[(1 : Int)], [2]] ["x".data] (fun _ _ => true) (some "x".data) false false 0 none).reverse
        = [[2], [1]] ∧
    get_rows [[(1 : Int)], [2]] ["x".data] (fun _ _ => true) (some "x".data) true false 0 none
      ≠ (get_rows [[(1 : Int)], [2]] ["x".data] (fun _ _ => true) (some "x".data) false false 0 none).reverse := by
  refine ⟨by decide, by decide, by decide⟩

/-- C5 (amended): when the sort key takes pairwise-distinct values on the
decorated rows and the whole row range is rendered (`start = 0`, no `end`),
the row order produced with `reversesort=True` is the exact reverse of the
order produced with `reversesort=False`.  (The original claim fails both for
tied sort keys — see the counterexample — and for proper slices, which are
taken after sorting.) -/
theorem c5_reversesort_reverses {α : Type _} {κ : Type _} [Inhabited α] [LinearOrder κ]
    (rows : List (List α)) (field_names : List Str) (key : List α → κ)
    (sb : Str) (oldss : Bool)
    (hsb : sb ≠ [])
    (hd : ((decorate_rows rows field_names sb).map key).Pairwise (· ≠ ·)) :
    get_rows rows field_names (fun a b => decide (key a ≤ key b)) (some sb) true oldss 0 none
      = (get_rows rows field_names (fun a b => decide (key a ≤ key b)) (some sb) false oldss 0 none).reverse := by
  have hfull : ∀ (rev : Bool) (cmp : List α → List α → Bool),
      get_rows rows field_names cmp (some sb) rev oldss 0 none =
        (isort (fun a b => if rev then cmp b a else cmp a b)
          (decorate_rows rows field_names sb)).map (fun r => r.drop 1) := by
    intro rev cmp
    unfold get_rows
    cases oldss <;> simp [py_slice_zero_none, hsb]
  rw [hfull true _, hfull false _]
  simp only [if_true, Bool.false_eq_true, if_false, ite_true, ite_false, reduceIte]
  rw [isort_desc_eq_reverse_asc key _ hd, List.map_reverse]

/-- C5 witness: the amended statement at a concrete input (distinct keys). -/
theorem c5_witness :
    ("x".data ≠ ([] : Str)) ∧
    (((decorate_rows [[(3 : Int)], [1]] ["x".data] "x".data).map
        (fun r => r.getD 0 0)).Pairwise (· ≠ ·)) ∧
    get_rows [[(3 : Int)], [1]] ["x".data] (fun a b => decide (a.getD 0 0 ≤ b.getD 0 0))
        (some "x".data) true false 0 none
      = (get_rows [[(3 : Int)], [1]] ["x".data] (fun a b => decide (a.getD 0 0 ≤ b.getD 0 0))
        (some "x".data) false false 0 none).reverse :=
  ⟨by decide, by decide,
    c5_reversesort_reverses [[(3 : Int)], [1]] ["x".data] (fun r => r.getD 0 0) "x".data false
      (by decide) (by decide)⟩

end PTable

namespace PTable

/-! ## Data input methods (`add_row`, `del_row`, `add_column`, `field_names` setter)

For the arity claims only the field-name list and the row store matter; the
per-column bookkeeping dictionaries (`_align`, `_valign`) that these methods
also touch do not influence arity and are modelled separately for the slicing
claim. -/

/-- The exceptions the data input methods can surface: the library's own
`PrettyTableException`, or Python's built-in `IndexError` escaping from
`del self._rows[row_index]`. -/
inductive PyErr where
  | prettyTableException (msg : String)
  | indexError
deriving DecidableEq

instance {ε α : Type _} [DecidableEq ε] [DecidableEq α] : DecidableEq (Except ε α) := fun x y =>
  match x, y with
  | .ok a, .ok b =>
    if h : a = b then isTrue (by rw [h]) else isFalse (by intro hh; cases hh; exact h rfl)
  | .error a, .error b =>
    if h : a = b then isTrue (by rw [h]) else isFalse (by intro hh; cases hh; exact h rfl)
  | .ok _, .error _ => isFalse (by intro hh; cases hh)
  | .error _, .ok _ => isFalse (by intro hh; cases hh)

/-- The data-level state of a table: `_field_names` and `_rows`. -/
structure DTable (α : Type _) where
  field_names : List Str
  rows : List (List α)
deriving DecidableEq

/-- The arity invariant: every row has exactly as many cells as there are
field names. -/
def arity_inv (t : DTable α) : Prop :=
  ∀ r ∈ t.rows, r.length = t.field_names.length

instance (t : DTable α) : Decidable (arity_inv t) := by
  unfold arity_inv
  infer_instance

/-- The `field_names` property setter (`_validate_field_names` followed by the
assignment).  The per-column `_align`/`_valign` re-keying it also performs does
not touch `_rows` or `_field_names` and is omitted here. -/
def set_field_names (t : DTable α) (val : List Str) : Except PyErr (DTable α) :=
  if t.field_names ≠ [] ∧ t.rows.length ≠ 0 ∧ val.length ≠ t.field_names.length then
    .error (.prettyTableException "Field name list has incorrect number of values")
  else if t.rows.length ≠ 0 ∧ val.length ≠ (t.rows.headD []).length then
    .error (.prettyTableException "Field name list has incorrect number of values")
  else if val.dedup.length ≠ val.length then
    .error (.prettyTableException "Field names must be unique")
  else
    .ok { t with field_names := val }

/-- The automatic field names `add_row` generates for a table without any:
`"Field %d" % (n + 1)`. -/
def auto_names (k : Nat) : List Str :=
  (List.range k).map (fun n => ("Field " ++ toString (n + 1)).data)

/-- `add_row` from the source. -/
def add_row (t : DTable α) (row : List α) : Except PyErr (DTable α) :=
  if t.field_names ≠ [] ∧ row.length ≠ t.field_names.length then
    .error (.prettyTableException "Row has incorrect number of values")
  else
    match (if t.field_names = [] then set_field_names t (auto_names row.length) else .ok t) with
    | .error e => .error e
    | .ok t' => .ok { t' with rows := t'.rows ++ [row] }

/-- Python `del l[i]` on a list: negative indices count from the end, and an
out-of-range index raises the built-in `IndexError`. -/
def py_del_item (l : List α) (i : Int) : Except PyErr (List α) :=
  let j := if i < 0 then i + l.length else i
  if 0 ≤ j ∧ j < l.length then .ok (l.eraseIdx j.toNat)
  else .error .indexError

/-- `del_row` from the source: a guard that only rejects `row_index` greater
than `rowcount - 1`, then `del self._rows[row_index]`. -/
def del_row (t : DTable α) (row_index : Int) : Except PyErr (DTable α) :=
  if row_index > (t.rows.length : Int) - 1 then
    .error (.prettyTableException "Cant delete row at index")
  else
    match py_del_item t.rows row_index with
    | .error e => .error e
    | .ok rs => .ok { t with rows := rs }

/-- One iteration of the row-store loop in `add_column`: append a fresh empty
row if the store is shorter than `i + 1`, then append `column[i]` to row `i`. -/
def add_col_step (column : List α) (rs : List (List α)) (i : Nat) : List (List α) :=
  let rs' := if rs.length < i + 1 then rs ++ [[]] else rs
  match column[i]? with
  | some v => rs'.set i (rs'.getD i [] ++ [v])
  | none => rs'

/-- The row-store update of `add_column`:
`for i in range(0, len(column)): ...` from the source. -/
def add_col_rows (rows : List (List α)) (column : List α) : List (List α) :=
  (List.range column.length).foldl (add_col_step column) rows

/-- `add_column` from the source (the `_align`/`_valign` dictionary updates are
omitted as for `set_field_names`; the alignment arguments are validated
exactly as in the source). -/
def add_column (t : DTable α) (fieldname : Str) (column : List α)
    (al va : String) : Except PyErr (DTable α) :=
  if t.rows.length = 0 ∨ t.rows.length = column.length then
    if ¬(al = "l" ∨ al = "c" ∨ al = "r") then
      .error (.prettyTableException "Alignment is invalid")
    else if ¬(va = "t" ∨ va = "m" ∨ va = "b") then
      .error (.prettyTableException "Alignment is invalid")
    else
      .ok { t with field_names := t.field_names ++ [fieldname],
                   rows := add_col_rows t.rows column }
  else
    .error (.prettyTableException "Column length does not match number of rows")

end PTable


namespace PTable

/-! ## C10: `del_row` bounds checking -/

/-- C10: `del_row`'s guard only rejects indices greater than `rowcount - 1`.
For a table with `n ≥ 1` rows, `del_row (-k)` with `1 ≤ k ≤ n` is accepted and
deletes the row at position `n - k` (so `del_row (-1)` removes the last row);
`del_row (-k)` with `k > n` escapes the guard and raises Python's built-in
`IndexError` from the underlying list deletion, not the library's own
exception type; and every index `i > n - 1` raises the library's own
exception. -/
theorem c10_del_row_bounds {α : Type _} (t : DTable α) (k : Nat)
    (hn : 1 ≤ t.rows.length) :
    (1 ≤ k → k ≤ t.rows.length →
      del_row t (-(k : Int)) = .ok { t with rows := t.rows.eraseIdx (t.rows.length - k) }) ∧
    (t.rows.length < k → del_row t (-(k : Int)) = .error .indexError) ∧
    (∀ i : Int, (t.rows.length : Int) - 1 < i →
      del_row t i = .error (.prettyTableException "Cant delete row at index")) := by
  refine ⟨?_, ?_, ?_⟩
  · intro hk1 hkn
    unfold del_row py_del_item
    rw [if_neg (show ¬(-(k : Int) > (t.rows.length : Int) - 1) by omega)]
    simp only [if_pos (show -(k : Int) < 0 by omega)]
    rw [if_pos (show (0:Int) ≤ -(k : Int) + t.rows.length ∧
        -(k : Int) + t.rows.length < t.rows.length from ⟨by omega, by omega⟩)]
    have harg : ((-(k : Int)) + t.rows.length).toNat = t.rows.length - k := by omega
    rw [harg]
  · intro hk
    unfold del_row py_del_item
    rw [if_neg (show ¬(-(k : Int) > (t.rows.length : Int) - 1) by omega)]
    simp only [if_pos (show -(k : Int) < 0 by omega)]
    rw [if_neg (show ¬((0:Int) ≤ -(k : Int) + t.rows.length ∧
        -(k : Int) + t.rows.length < t.rows.length) by push_neg; intro h; omega)]
  · intro i hi
    unfold del_row
    rw [if_pos hi]

/-- C10 witness: the three cases at a concrete 3-row table. -/
theorem c10_witness :
    (1 ≤ ((⟨["a".data], [[1], [2], [3]]⟩ : DTable Nat)).rows.length) ∧
    del_row (⟨["a".data], [[1], [2], [3]]⟩ : DTable Nat) (-((1 : Nat) : Int))
      = .ok ⟨["a".data], [[1], [2]]⟩ ∧
    del_row (⟨["a".data], [[1], [2], [3]]⟩ : DTable Nat) (-((4 : Nat) : Int))
      = .error .indexError ∧
    del_row (⟨["a".data], [[1], [2], [3]]⟩ : DTable Nat) 3
      = .error (.prettyTableException "Cant delete row at index") := by
  have h1 := c10_del_row_bounds (⟨["a".data], [[1], [2], [3]]⟩ : DTable Nat) 1 (by decide)
  have h4 := c10_del_row_bounds (⟨["a".data], [[1], [2], [3]]⟩ : DTable Nat) 4 (by decide)
  exact ⟨by decide, (h1.1 (by decide) (by decide)).trans (by decide),
    h4.2.1 (by decide), h4.2.2 3 (by decide)⟩

/-! ## C4: preservation of the arity invariant -/

/-- Positional characterization of the `add_column` row-store loop after `k`
iterations: the store has length `max |rows| k`; positions below `k` hold the
original row (or a fresh one) extended by the column entry; positions at or
above `k` are untouched. -/
theorem add_col_fold_spec (rows : List (List α)) (column : List α) :
    ∀ k, k ≤ column.length →
      ((List.range k).foldl (add_col_step column) rows).length = max rows.length k ∧
      (∀ j, j < k → ((List.range k).foldl (add_col_step column) rows)[j]?
          = some ((rows.getD j []) ++ (column[j]?).toList)) ∧
      (∀ j, k ≤ j → ((List.range k).foldl (add_col_step column) rows)[j]? = rows[j]?) := by
  intro k
  induction k with
  | zero =>
    intro _
    refine ⟨by simp, ?_, ?_⟩
    · intro j hj; omega
    · intro j _; rfl
  | succ k ih =>
    intro hk
    obtain ⟨ihlen, ihlt, ihge⟩ := ih (Nat.le_of_succ_le hk)
    set F := (List.range k).foldl (add_col_step column) rows with hF
    have hstep : (List.range (k + 1)).foldl (add_col_step column) rows
        = add_col_step column F k := by
      rw [List.range_succ, List.foldl_append]
      rfl
    cases hv : column[k]? with
    | none =>
      rw [List.getElem?_eq_getElem (show k < column.length by omega)] at hv
      cases hv
    | some v =>
      by_cases hr : rows.length ≤ k
      · -- the store is exactly `k` long: a fresh empty row is appended, then set
        have hlen : F.length = k := by omega
        have hrs' : add_col_step column F k = (F ++ [[]]).set k (([] : List α) ++ [v]) := by
          simp only [add_col_step, hv]
          rw [if_pos (by omega)]
          have h1 : (F ++ [([] : List α)]).getD k [] = [] := by
            rw [List.getD_eq_getElem?_getD]
            rw [show k = F.length from hlen.symm, List.getElem?_concat_length]
            rfl
          rw [h1]
        rw [hstep, hrs']
        have hlen' : ((F ++ [[]]).set k (([] : List α) ++ [v])).length = k + 1 := by
          simp [hlen]
        refine ⟨by simp [hlen]; omega, ?_, ?_⟩
        · intro j hj
          rcases Nat.lt_succ_iff_lt_or_eq.mp hj with hj' | rfl
          · rw [List.getElem?_set_ne (by omega), List.getElem?_append, if_pos (by omega)]
            exact ihlt j hj'
          · rw [List.getElem?_set, if_pos rfl, if_pos (by simp [hlen])]
            have hrget : rows.getD j [] = [] := by
              rw [List.getD_eq_getElem?_getD, List.getElem?_eq_none (by omega)]
              rfl
            rw [hrget, hv]
            rfl
        · intro j hj
          rw [List.getElem?_set_ne (by omega)]
          rw [List.getElem?_eq_none (by simp [hlen]; omega),
            List.getElem?_eq_none (by omega)]
      · -- the store is already longer than `k`: set in place
        push_neg at hr
        have hgetk : F[k]? = rows[k]? := ihge k le_rfl
        have hrs' : add_col_step column F k = F.set k ((rows.getD k []) ++ [v]) := by
          simp only [add_col_step, hv]
          rw [if_neg (by omega)]
          rw [List.getD_eq_getElem?_getD, hgetk, ← List.getD_eq_getElem?_getD]
        rw [hstep, hrs']
        refine ⟨by simp [ihlen]; omega, ?_, ?_⟩
        · intro j hj
          rcases Nat.lt_succ_iff_lt_or_eq.mp hj with hj' | rfl
          · rw [List.getElem?_set_ne (by omega)]
            exact ihlt j hj'
          · rw [List.getElem?_set, if_pos rfl, if_pos (by omega), hv]
            have : rows.getD j [] = (rows[j]?).getD [] := List.getD_eq_getElem?_getD _ _ _
            rfl
        · intro j hj
          rw [List.getElem?_set_ne (by omega)]
          exact ihge j (by omega)

end PTable

namespace PTable

theorem add_col_rows_spec (rows : List (List α)) (column : List α) :
    (add_col_rows rows column).length = max rows.length column.length ∧
    (∀ j, j < column.length → (add_col_rows rows column)[j]?
        = some ((rows.getD j []) ++ (column[j]?).toList)) ∧
    (∀ j, column.length ≤ j → (add_col_rows rows column)[j]? = rows[j]?) :=
  add_col_fold_spec rows column column.length le_rfl

theorem auto_names_length (k : Nat) : (auto_names k).length = k := by
  simp [auto_names]

theorem set_field_names_arity {α : Type _} {t t' : DTable α} {val : List Str}
    (hinv : arity_inv t) (h : set_field_names t val = .ok t') : arity_inv t' := by
  unfold set_field_names at h
  split at h
  · cases h
  split at h
  · cases h
  split at h
  · cases h
  cases h
  intro r hr
  rename_i hg1 hg2 _
  push_neg at hg2
  cases hrows : t.rows with
  | nil => rw [hrows] at hr; cases hr
  | cons r0 rest =>
    have hlen0 : val.length = r0.length := by
      have := hg2 (by rw [hrows]; simp)
      rw [hrows] at this
      simpa using this
    have hr0 : r0 ∈ t.rows := by rw [hrows]; exact List.mem_cons_self r0 rest
    have : r.length = t.field_names.length := hinv r hr
    rw [this, ← hinv r0 hr0, ← hlen0]

/-- C4 counterexample: starting from a table satisfying the arity invariant
(one field name, zero rows), `add_column` with a two-entry column succeeds
without raising and leaves every row with 1 cell while there are now 2 field
names — the invariant is broken, and no exception was raised. -/
theorem c4_counterexample :
    arity_inv (⟨["a".data], []⟩ : DTable Nat) ∧
    add_column (⟨["a".data], []⟩ : DTable Nat) "b".data [0, 1] "c" "t"
      = .ok ⟨["a".data, "b".data], [[0], [1]]⟩ ∧
    ¬ arity_inv (⟨["a".data, "b".data], [[0], [1]]⟩ : DTable Nat) := by
  refine ⟨by decide, by decide, by decide⟩

theorem py_del_item_ok {α : Type _} {l : List α} {i : Int} {rs : List α}
    (h : py_del_item l i = .ok rs) : ∃ j, rs = l.eraseIdx j := by
  simp only [py_del_item] at h
  split at h <;> split at h
  · exact ⟨_, (Except.ok.inj h).symm⟩
  · cases h
  · exact ⟨_, (Except.ok.inj h).symm⟩
  · cases h

/-- C4 (amended): `add_row`, `del_row` and the `field_names` setter always
preserve the arity invariant (an operation that would break it raises instead
of mutating), and `add_column` preserves it whenever the table has at least
one row or no field names yet; in the remaining case — field names present
but zero rows, with a nonempty column — `add_column` silently breaks the
invariant (see the counterexample). -/
theorem c4_arity_preservation {α : Type _} (t t' : DTable α) (hinv : arity_inv t) :
    (∀ row, add_row t row = .ok t' → arity_inv t') ∧
    (∀ i, del_row t i = .ok t' → arity_inv t') ∧
    (∀ val, set_field_names t val = .ok t' → arity_inv t') ∧
    (∀ f column al va, (t.rows.length ≠ 0 ∨ t.field_names = []) →
        add_column t f column al va = .ok t' → arity_inv t') := by
  refine ⟨?_, ?_, ?_, ?_⟩
  · -- add_row
    intro row h
    unfold add_row at h
    split at h
    · cases h
    rename_i hg
    push_neg at hg
    by_cases hf : t.field_names = []
    · rw [if_pos hf] at h
      cases hfn : set_field_names t (auto_names row.length) with
      | error e => rw [hfn] at h; cases h
      | ok t'' =>
        rw [hfn] at h
        cases h
        have hinv'' : arity_inv t'' := set_field_names_arity hinv hfn
        have hfields : t''.field_names = auto_names row.length := by
          unfold set_field_names at hfn
          split at hfn
          · cases hfn
          split at hfn
          · cases hfn
          split at hfn
          · cases hfn
          cases hfn
          rfl
        intro r hr
        rcases List.mem_append.mp hr with hr' | hr'
        · exact hinv'' r hr'
        · rw [List.mem_singleton.mp hr', hfields, auto_names_length]
    · rw [if_neg hf] at h
      cases h
      intro r hr
      rcases List.mem_append.mp hr with hr' | hr'
      · exact hinv r hr'
      · rw [List.mem_singleton.mp hr']
        exact hg hf
  · -- del_row
    intro i h
    unfold del_row at h
    split at h
    · cases h
    cases hdel : py_del_item t.rows i with
    | error e => rw [hdel] at h; cases h
    | ok rs =>
      rw [hdel] at h
      cases h
      obtain ⟨j, rfl⟩ := py_del_item_ok hdel
      intro r hr
      exact hinv r ((List.eraseIdx_sublist _ _).subset hr)
  · -- field_names setter
    intro val h
    exact set_field_names_arity hinv h
  · -- add_column
    intro f column al va hside h
    unfold add_column at h
    split at h
    case isFalse => cases h
    case isTrue hguard =>
      split at h
      · cases h
      split at h
      · cases h
      cases h
      intro r hr
      obtain ⟨hlen, hlt, hge⟩ := add_col_rows_spec t.rows column
      obtain ⟨j, hj⟩ := List.mem_iff_getElem?.mp hr
      simp only [List.length_append, List.length_singleton]
      by_cases hjc : j < column.length
      · have hv : column[j]? = some column[j] := List.getElem?_eq_getElem hjc
        have := hlt j hjc
        rw [hj, hv] at this
        have hr_eq : r = t.rows.getD j [] ++ [column[j]] := by
          cases this
          rfl
        by_cases hjr : j < t.rows.length
        · have hmem : t.rows.getD j [] ∈ t.rows := by
            rw [List.getD_eq_getElem?_getD, List.getElem?_eq_getElem hjr]
            exact List.getElem_mem hjr
          rw [hr_eq, List.length_append, hinv _ hmem]
          rfl
        · push_neg at hjr
          have hzero : t.rows.length = 0 := by
            rcases hguard with h0 | hcol
            · exact h0
            · omega
          have hfe : t.field_names = [] := by
            rcases hside with hne | hfe
            · exact absurd hzero hne
            · exact hfe
          have : t.rows.getD j [] = [] := by
            rw [List.getD_eq_getElem?_getD, List.getElem?_eq_none hjr]
            rfl
          rw [hr_eq, this, hfe]
          rfl
      · push_neg at hjc
        exfalso
        have hjlen : j < (add_col_rows t.rows column).length := by
          rw [List.getElem?_eq_some] at hj
          exact hj.1
        rw [hlen] at hjlen
        rcases hguard with h0 | hcol
        · omega
        · omega

end PTable

namespace PTable

/-- C4 witness: the four preserved operations at concrete inputs. -/
theorem c4_witness :
    arity_inv (⟨["a".data], [[1]]⟩ : DTable Nat) ∧
    add_row (⟨["a".data], [[1]]⟩ : DTable Nat) [2] = .ok ⟨["a".data], [[1], [2]]⟩ ∧
    arity_inv (⟨["a".data], [[1], [2]]⟩ : DTable Nat) ∧
    del_row (⟨["a".data], [[1], [2]]⟩ : DTable Nat) 0 = .ok ⟨["a".data], [[2]]⟩ ∧
    arity_inv (⟨["a".data], [[2]]⟩ : DTable Nat) ∧
    set_field_names (⟨["a".data], [[2]]⟩ : DTable Nat) ["b".data] = .ok ⟨["b".data], [[2]]⟩ ∧
    arity_inv (⟨["b".data], [[2]]⟩ : DTable Nat) ∧
    add_column (⟨["b".data], [[2]]⟩ : DTable Nat) "c".data [9] "c" "t"
      = .ok ⟨["b".data, "c".data], [[2, 9]]⟩ ∧
    arity_inv (⟨["b".data, "c".data], [[2, 9]]⟩ : DTable Nat) :=
  ⟨by decide, by decide,
    (c4_arity_preservation (⟨["a".data], [[1]]⟩ : DTable Nat)
      (⟨["a".data], [[1], [2]]⟩ : DTable Nat) (by decide)).1 [2] (by decide),
    by decide,
    (c4_arity_preservation (⟨["a".data], [[1], [2]]⟩ : DTable Nat)
      (⟨["a".data], [[2]]⟩ : DTable Nat) (by decide)).2.1 0 (by decide),
    by decide,
    (c4_arity_preservation (⟨["a".data], [[2]]⟩ : DTable Nat)
      (⟨["b".data], [[2]]⟩ : DTable Nat) (by decide)).2.2.1 ["b".data] (by decide),
    by decide,
    (c4_arity_preservation (⟨["b".data], [[2]]⟩ : DTable Nat)
      (⟨["b".data, "c".data], [[2, 9]]⟩ : DTable Nat) (by decide)).2.2.2
      "c".data [9] "c" "t" (Or.inl (by decide)) (by decide)⟩

end PTable

namespace PTable

/-! ## Slicing (`__getitem__`) and the shared per-column dictionaries

`__getitem__` builds `new = PrettyTable()`, assigns `new.field_names = self.field_names`
(the setter stores a fresh list and, via `self.align = "c"`, populates a fresh
`_align` dictionary), copies the selected rows by value (`add_row` appends
`list(row)`), and then runs `setattr(new, "_" + attr, getattr(self, "_" + attr))`
for every name in `_options`.  Because `_options` contains `"align"` (and the
other per-column dictionaries), this copies the dictionary *references*: the
original and the slice share one mutable `_align` dictionary.  To state this
observable aliasing we model a heap of alignment dictionaries; each table
holds an index into that heap, while the value-copied parts (field names,
rows) live in the table itself. -/

/-- A table as seen by the slicing claim: value-owned field names and rows,
and a reference into the alignment-dictionary heap. -/
structure STable where
  field_names : List Str
  rows : List (List Int)
  align_ref : Nat
deriving DecidableEq

/-- The mutable store of `_align` dictionaries. -/
structure World where
  align_heap : List (List (Str × String))
deriving DecidableEq

def heap_get (w : World) (r : Nat) : List (Str × String) := w.align_heap.getD r []

def heap_set (w : World) (r : Nat) (d : List (Str × String)) : World := ⟨w.align_heap.set r d⟩

/-- Allocate a fresh dictionary, returning its reference. -/
def alloc (w : World) (d : List (Str × String)) : World × Nat :=
  (⟨w.align_heap ++ [d]⟩, w.align_heap.length)

/-- Python dictionary assignment `d[k] = v` on an association list: replace
the (unique) existing binding, or append a new one. -/
def dict_set : List (Str × String) → Str → String → List (Str × String)
  | [], k, v => [(k, v)]
  | p :: ds, k, v => if p.1 = k then (k, v) :: ds else p :: dict_set ds k v

/-- `for field in fields: d[field] = v`. -/
def dict_set_all (d : List (Str × String)) (ks : List Str) (v : String) :
    List (Str × String) :=
  ks.foldl (fun d k => dict_set d k v) d

/-- Reading `self._align[f]` (as an observation; `None` when absent). -/
def read_align (w : World) (t : STable) (f : Str) : Option String :=
  (heap_get w t.align_ref).lookup f

/-- The `align` property setter for a concrete alignment string: with no
field names the source rebinds `_align` to a fresh empty dictionary;
otherwise it validates the value and writes it for every field into the
(possibly shared) dictionary. -/
def set_align (w : World) (t : STable) (val : String) : Except PyErr (World × STable) :=
  if t.field_names = [] then
    .ok ((alloc w []).1, { t with align_ref := (alloc w []).2 })
  else if ¬(val = "l" ∨ val = "c" ∨ val = "r") then
    .error (.prettyTableException "Alignment is invalid")
  else
    .ok (heap_set w t.align_ref (dict_set_all (heap_get w t.align_ref) t.field_names val), t)

/-- `table[i]` for an in-range integer index: fresh `_align` allocated and
populated with `"c"` by the `field_names` setter, the selected row copied by
value, and finally the `setattr` loop overwrites the new table's `_align`
reference with the original's. -/
def getitem_int (w : World) (t : STable) (i : Nat) : World × STable :=
  let wr := alloc w []
  let w₂ := if t.field_names = [] then wr.1
            else heap_set wr.1 wr.2 (dict_set_all [] t.field_names "c")
  (w₂, ⟨t.field_names, (t.rows[i]?).toList, t.align_ref⟩)

/-- `table[i:j]`: as `getitem_int`, but with the sliced rows copied. -/
def getitem_slice (w : World) (t : STable) (start stop : Nat) : World × STable :=
  let wr := alloc w []
  let w₂ := if t.field_names = [] then wr.1
            else heap_set wr.1 wr.2 (dict_set_all [] t.field_names "c")
  (w₂, ⟨t.field_names, py_slice t.rows start (some stop), t.align_ref⟩)

theorem dict_set_lookup_self (d : List (Str × String)) (k : Str) (v : String) :
    (dict_set d k v).lookup k = some v := by
  induction d with
  | nil => simp [dict_set, List.lookup]
  | cons p ds ih =>
    rw [dict_set]
    by_cases hpk : p.1 = k
    · rw [if_pos hpk]
      simp [List.lookup]
    · rw [if_neg hpk]
      have hne : (k == p.1) = false := by
        simp only [beq_eq_false_iff_ne]
        exact fun hh => hpk hh.symm
      simp only [List.lookup, hne]
      exact ih

theorem dict_set_lookup_ne (d : List (Str × String)) (k k' : Str) (v : String)
    (h : k' ≠ k) : (dict_set d k v).lookup k' = d.lookup k' := by
  induction d with
  | nil =>
    simp [dict_set, List.lookup, beq_eq_false_iff_ne.mpr h]
  | cons p ds ih =>
    rw [dict_set]
    by_cases hpk : p.1 = k
    · rw [if_pos hpk]
      have hne : (k' == k) = false := beq_eq_false_iff_ne.mpr h
      have hne' : (k' == p.1) = false := by rw [hpk]; exact hne
      simp [List.lookup, hne, hne']
    · rw [if_neg hpk]
      simp only [List.lookup]
      split
      · rfl
      · exact ih

theorem dict_set_all_lookup_not_mem (d : List (Str × String)) (v : String) :
    ∀ (ks : List Str) (f : Str), f ∉ ks →
      (dict_set_all d ks v).lookup f = d.lookup f := by
  intro ks
  induction ks generalizing d with
  | nil => intro f _; rfl
  | cons k ks' ih =>
    intro f hf
    have hfk : f ≠ k := fun hh => hf (hh ▸ List.mem_cons_self k ks')
    have hfks : f ∉ ks' := fun hh => hf (List.mem_cons_of_mem k hh)
    show (dict_set_all (dict_set d k v) ks' v).lookup f = d.lookup f
    rw [ih (dict_set d k v) f hfks, dict_set_lookup_ne d k f v hfk]

theorem dict_set_all_lookup_mem (d : List (Str × String)) (v : String) :
    ∀ (ks : List Str) (f : Str), f ∈ ks →
      (dict_set_all d ks v).lookup f = some v := by
  intro ks
  induction ks generalizing d with
  | nil => intro f hf; cases hf
  | cons k ks' ih =>
    intro f hf
    show (dict_set_all (dict_set d k v) ks' v).lookup f = some v
    by_cases hf' : f ∈ ks'
    · exact ih (dict_set d k v) f hf'
    · have hfk : f = k := by
        rcases List.mem_cons.mp hf with h | h
        · exact h
        · exact absurd h hf'
      rw [dict_set_all_lookup_not_mem (dict_set d k v) v ks' f hf', hfk,
        dict_set_lookup_self d k v]

end PTable

namespace PTable

theorem heap_get_set_ne (w : World) (r₁ r₂ : Nat) (d : List (Str × String)) (h : r₁ ≠ r₂) :
    heap_get (heap_set w r₁ d) r₂ = heap_get w r₂ := by
  unfold heap_get heap_set
  rw [List.getD_eq_getElem?_getD, List.getD_eq_getElem?_getD, List.getElem?_set_ne h]

theorem heap_get_set_self (w : World) (r : Nat) (d : List (Str × String))
    (h : r < w.align_heap.length) : heap_get (heap_set w r d) r = d := by
  unfold heap_get heap_set
  rw [List.getD_eq_getElem?_getD, List.getElem?_set, if_pos rfl, if_pos h]
  rfl

theorem heap_get_alloc (w : World) (d : List (Str × String)) (r : Nat)
    (h : r < w.align_heap.length) : heap_get (alloc w d).1 r = heap_get w r := by
  unfold heap_get alloc
  rw [List.getD_eq_getElem?_getD, List.getD_eq_getElem?_getD,
    List.getElem?_append, if_pos h]

/-- C8 counterexample: slicing `t[0]` and then setting the slice's alignment
to `"l"` changes the alignment observed through the *original* table from
`"c"` to `"l"` — the per-column configuration is shared by reference, not
value-copied. -/
theorem c8_counterexample :
    getitem_int ⟨[[("a".data, "c")]]⟩ ⟨["a".data], [[1], [2]], 0⟩ 0
      = (⟨[[("a".data, "c")], [("a".data, "c")]]⟩, ⟨["a".data], [[1]], 0⟩) ∧
    set_align ⟨[[("a".data, "c")], [("a".data, "c")]]⟩ ⟨["a".data], [[1]], 0⟩ "l"
      = .ok (⟨[[("a".data, "l")], [("a".data, "c")]]⟩, ⟨["a".data], [[1]], 0⟩) ∧
    read_align ⟨[[("a".data, "c")]]⟩ ⟨["a".data], [[1], [2]], 0⟩ "a".data = some "c" ∧
    read_align ⟨[[("a".data, "l")], [("a".data, "c")]]⟩ ⟨["a".data], [[1], [2]], 0⟩ "a".data
      = some "l" := by
  refine ⟨by decide, by decide, by decide, by decide⟩

/-- C8 (amended): `table[i]` and `table[i:j]` copy the field-name list and the
selected rows by value and the construction itself leaves the original's
alignment dictionary untouched, but the per-column configuration dictionaries
are shared by reference (`_options` contains `"align"` etc., so the `setattr`
loop copies the references): the slice's `align_ref` equals the original's,
and assigning an alignment through the slice is observable in the original
table. -/
theorem c8_slice_value_copy_except_dicts (w : World) (t : STable) (i start stop : Nat)
    (hi : i < t.rows.length) (hf : t.field_names ≠ [])
    (href : t.align_ref < w.align_heap.length) (val : String)
    (hval : val = "l" ∨ val = "c" ∨ val = "r") :
    ((getitem_int w t i).2.rows = [t.rows.getD i []]) ∧
    ((getitem_int w t i).2.field_names = t.field_names) ∧
    ((getitem_int w t i).2.align_ref = t.align_ref) ∧
    ((getitem_slice w t start stop).2.rows = py_slice t.rows start (some stop)) ∧
    ((getitem_slice w t start stop).2.align_ref = t.align_ref) ∧
    (∀ f, read_align (getitem_int w t i).1 t f = read_align w t f) ∧
    (∀ f ∈ t.field_names, ∀ w' t'',
      set_align (getitem_int w t i).1 (getitem_int w t i).2 val = .ok (w', t'') →
        read_align w' t f = some val) := by
  refine ⟨?_, rfl, rfl, rfl, rfl, ?_, ?_⟩
  · show ((t.rows[i]?).toList = [t.rows.getD i []])
    rw [List.getElem?_eq_getElem hi, List.getD_eq_getElem?_getD,
      List.getElem?_eq_getElem hi]
    rfl
  · intro f
    unfold read_align
    simp only [getitem_int]
    rw [if_neg hf]
    have h₁ : w.align_heap.length ≠ t.align_ref := by omega
    have halloc : (alloc w ([] : List (Str × String))).2 = w.align_heap.length := rfl
    rw [halloc, heap_get_set_ne _ _ _ _ h₁, heap_get_alloc _ _ _ href]
  · intro f hfmem w' t'' hset
    unfold set_align at hset
    rw [if_neg (show ¬(getitem_int w t i).2.field_names = [] from hf)] at hset
    rw [if_neg (show ¬¬(val = "l" ∨ val = "c" ∨ val = "r") from not_not.mpr hval)] at hset
    have hw' : w' = heap_set (getitem_int w t i).1 t.align_ref
        (dict_set_all (heap_get (getitem_int w t i).1 t.align_ref) t.field_names val) := by
      cases hset
      rfl
    rw [hw']
    unfold read_align
    have hlen : t.align_ref < ((getitem_int w t i).1).align_heap.length := by
      simp only [getitem_int]
      rw [if_neg hf]
      unfold heap_set alloc
      simp only [List.length_set, List.length_append, List.length_singleton]
      omega
    rw [heap_get_set_self _ _ _ hlen]
    exact dict_set_all_lookup_mem _ val t.field_names f hfmem

/-- C8 witness: the amended statement at a concrete world and table. -/
theorem c8_witness :
    (0 < ((⟨["a".data], [[1], [2]], 0⟩ : STable)).rows.length) ∧
    ((⟨["a".data], [[1], [2]], 0⟩ : STable)).field_names ≠ [] ∧
    ((⟨["a".data], [[1], [2]], 0⟩ : STable)).align_ref
      < (⟨[[("a".data, "c")]]⟩ : World).align_heap.length ∧
    (("l" : String) = "l" ∨ ("l" : String) = "c" ∨ ("l" : String) = "r") ∧
    (((getitem_int ⟨[[("a".data, "c")]]⟩ ⟨["a".data], [[1], [2]], 0⟩ 0).2.rows
        = [(⟨["a".data], [[1], [2]], 0⟩ : STable).rows.getD 0 []]) ∧
     ((getitem_int ⟨[[("a".data, "c")]]⟩ ⟨["a".data], [[1], [2]], 0⟩ 0).2.field_names
        = (⟨["a".data], [[1], [2]], 0⟩ : STable).field_names) ∧
     ((getitem_int ⟨[[("a".data, "c")]]⟩ ⟨["a".data], [[1], [2]], 0⟩ 0).2.align_ref
        = (⟨["a".data], [[1], [2]], 0⟩ : STable).align_ref) ∧
     ((getitem_slice ⟨[[("a".data, "c")]]⟩ ⟨["a".data], [[1], [2]], 0⟩ 0 1).2.rows
        = py_slice (⟨["a".data], [[1], [2]], 0⟩ : STable).rows 0 (some 1)) ∧
     ((getitem_slice ⟨[[("a".data, "c")]]⟩ ⟨["a".data], [[1], [2]], 0⟩ 0 1).2.align_ref
        = (⟨["a".data], [[1], [2]], 0⟩ : STable).align_ref) ∧
     (∀ f, read_align (getitem_int ⟨[[("a".data, "c")]]⟩ ⟨["a".data], [[1], [2]], 0⟩ 0).1
        ⟨["a".data], [[1], [2]], 0⟩ f
          = read_align ⟨[[("a".data, "c")]]⟩ ⟨["a".data], [[1], [2]], 0⟩ f) ∧
     (∀ f ∈ (⟨["a".data], [[1], [2]], 0⟩ : STable).field_names, ∀ w' t'',
        set_align (getitem_int ⟨[[("a".data, "c")]]⟩ ⟨["a".data], [[1], [2]], 0⟩ 0).1
          (getitem_int ⟨[[("a".data, "c")]]⟩ ⟨["a".data], [[1], [2]], 0⟩ 0).2 "l"
            = .ok (w', t'') →
          read_align w' ⟨["a".data], [[1], [2]], 0⟩ f = some "l")) :=
  ⟨by decide, by decide, by decide, by decide,
    c8_slice_value_copy_except_dicts ⟨[[("a".data, "c")]]⟩ ⟨["a".data], [[1], [2]], 0⟩
      0 0 1 (by decide) (by decide) (by decide) "l" (by decide)⟩

end PTable

namespace PTable

/-! ## The render pipeline: options, table state, width resolution

Cells are modelled as display strings: for string-valued cells the source's
`_format_value` is the identity (its `int`/`float` branches do not apply), so
`_format_rows` drops out.  Fields of `RTable` named `..._attr` model the
places where the source reads a persisted attribute (`self.foo`) rather than
the per-render `options` dictionary. -/

/-- `RuleStyle` from the source. -/
inductive Rules where
  | NONE | FRAME | HEADER | ALL
deriving DecidableEq

/-- The per-render option set (the `options` dictionary produced by
`_get_options`). -/
structure Options where
  title : Option Str
  start : Nat
  end_idx : Option Nat
  fields : Option (List Str)
  header : Bool
  border : Bool
  hrules : Rules
  vrules : Rules
  sortby : Option Str
  reversesort : Bool
  oldsortslice : Bool
  header_style : Option String
  min_table_width : Option Nat
  max_table_width : Option Nat
  padding_width : Nat
  left_padding_width : Option Nat
  right_padding_width : Option Nat
  vertical_char : Str
  horizontal_char : Str
  junction_char : Str
  print_empty : Bool

/-- The table state consumed by a render. -/
structure RTable where
  field_names : List Str
  rows : List (List Str)
  align : Str → String
  valign : Str → String
  max_width_dict : List (Str × Nat)
  min_width_dict : List (Str × Nat)
  header_attr : Bool
  header_style_attr : Option String
  padding_width_attr : Nat
  vertical_char_attr : Str

/-- Python truthiness of `options["max_table_width"]` etc. (None and 0 are
falsy). -/
def truthy_nat : Option Nat → Bool
  | none => false
  | some n => decide (n ≠ 0)

/-- Python truthiness of `options["title"]` (None and "" are falsy). -/
def truthy_str : Option Str → Bool
  | none => false
  | some s => decide (s ≠ [])

/-- `if options["fields"] and field not in options["fields"]: continue`. -/
def field_skip (o : Options) (f : Str) : Bool :=
  match o.fields with
  | none => false
  | some fs => decide (fs ≠ [] ∧ f ∉ fs)

/-- `_get_padding_widths`. -/
def get_padding_widths (o : Options) : Nat × Nat :=
  (o.left_padding_width.getD o.padding_width, o.right_padding_width.getD o.padding_width)

/-- The computed `min_width` property: per field, the maximum of the zipped
name's display width and `self._min_width.get(name, 0)`; the names zipped in
are the field names when `self.header` is set, else the first row. -/
def min_width_prop (t : RTable) : List (Str × Int) :=
  (t.field_names.zip
      (if t.header_attr then t.field_names
       else match t.rows with | [] => [] | r :: _ => r)).map
    (fun p => (p.1, max (str_block_width p.2) (((t.min_width_dict.lookup p.2).getD 0 : Nat) : Int)))

/-- `_compute_table_width` from the source. -/
def compute_table_width (t : RTable) (o : Options) (widths : List Int) : Int :=
  let pads := get_padding_widths o
  let title_width : Int :=
    if truthy_str o.title then ((o.title.getD []).length : Int) + (pads.1 : Int) + (pads.2 : Int)
    else 0
  let base : Int :=
    (if o.vrules = Rules.FRAME ∨ o.vrules = Rules.ALL then 2 else 0) +
      max ((t.field_names.length : Int) - 1) 0 * (if o.vrules = Rules.ALL then 1 else 0)
  let tw := (t.field_names.zip widths).foldl
    (fun acc p => if field_skip o p.1 then acc else acc + p.2 + (pads.1 : Int) + (pads.2 : Int))
    base
  max tw title_width

/-- The update of `widths[index]` for one cell in `_compute_widths`. -/
def upd_cell_width (t : RTable) (widths : List Int) (i : Nat) (value : Str) : List Int :=
  let fieldname := t.field_names.getD i []
  let w0 := widths.getD i 0
  let w1 :=
    match t.max_width_dict.lookup fieldname with
    | some m => max w0 (min ((get_size value).1) (m : Int))
    | none => max w0 ((get_size value).1)
  let w2 :=
    match (min_width_prop t).lookup fieldname with
    | some m => max w1 m
    | none => w1
  widths.set i w2

/-- The first phase of `_compute_widths`: header-seeded widths maximised over
all cells, respecting per-column `max_width`/`min_width`. -/
def base_widths (t : RTable) (o : Options) (rows : List (List Str)) : List Int :=
  let init := if o.header then t.field_names.map (fun f => (get_size f).1)
              else List.replicate t.field_names.length 0
  rows.foldl (fun ws row => row.enum.foldl (fun ws p => upd_cell_width t ws p.1 p.2) ws) init

/-- An exact, unreduced fraction.  The source computes the shrink and grow
scale factors with floating-point division; the model computes them exactly.
Witness and counterexample inputs below are chosen so that the source's
floating-point results are exact as well, hence identical. -/
structure Frac where
  num : Int
  den : Int
deriving DecidableEq

def Frac.one : Frac := ⟨1, 1⟩

/-- Exact `min(1., num/den)`. -/
def frac_min_one (s : Frac) : Frac :=
  if (if 0 ≤ s.den then s.num ≤ s.den else s.den ≤ s.num) then s else Frac.one

/-- Exact `int(w * s)`: truncation toward zero (`Int.tdiv`). -/
def int_mul_frac (w : Int) (s : Frac) : Int := Int.tdiv (w * s.num) s.den

/-- Exact `int(math.ceil(w * s))`. -/
def ceil_mul_frac (w : Int) (s : Frac) : Int := -(Int.fdiv (-(w * s.num)) s.den)

/-- The `vrules_count` overhead of `_compute_widths` (border columns plus
internal separators). -/
def vrules_count (t : RTable) (o : Options) : Int :=
  (if o.vrules = Rules.ALL ∨ o.vrules = Rules.FRAME then 2 else 0) +
    max ((t.field_names.length : Int) - 1) 0 * (if o.vrules = Rules.ALL then 1 else 0)

/-- The padding overhead estimate of `_compute_widths`
(`self.padding_width * len(self.field_names) * (2 if vrules is ALL else 1)`). -/
def padding_est (t : RTable) (o : Options) : Int :=
  (t.padding_width_attr : Int) * t.field_names.length * (if o.vrules = Rules.ALL then 2 else 1)

/-- The shrink phase of `_compute_widths` (the `max_table_width` block),
including the local relaxation of the ceiling to `overhead + len(rows)` when
the requested maximum is below the non-shrinkable overhead. -/
def shrink_widths (t : RTable) (o : Options) (rows : List (List Str))
    (widths : List Int) : List Int :=
  if truthy_nat o.max_table_width then
    let mtw : Int := (o.max_table_width.getD 0 : Nat)
    let table_width := compute_table_width t o widths
    if table_width > mtw then
      let vc := vrules_count t o
      let pw := padding_est t o
      let data_width := table_width - pw - vc
      let mtw' := if mtw < vc + pw then vc + pw + rows.length else mtw
      let scale : Frac :=
        if data_width = 0 then Frac.one else frac_min_one ⟨mtw' - pw - vc, data_width⟩
      widths.map (fun w => int_mul_frac w scale)
    else widths
  else widths

/-- The grow phase of `_compute_widths` (the `min_table_width`/`title`
block). -/
def grow_widths (t : RTable) (o : Options) (widths : List Int) : List Int :=
  if truthy_nat o.min_table_width ∨ truthy_str o.title then
    let pads := get_padding_widths o
    let title_width : Int :=
      if truthy_str o.title then ((o.title.getD []).length : Int) + (pads.1 : Int) + (pads.2 : Int)
      else 0
    let min_width := max title_width ((o.min_table_width.getD 0 : Nat) : Int)
    let table_width := compute_table_width t o widths
    if table_width < min_width then
      let vc := vrules_count t o
      let pw := padding_est t o
      let data_width := table_width - pw - vc
      let scale : Frac := if data_width = 0 then Frac.one else ⟨min_width - pw - vc, data_width⟩
      widths.map (fun w => ceil_mul_frac w scale)
    else widths
  else widths

/-- `_compute_widths` from the source: base widths, then shrink, then grow. -/
def compute_widths (t : RTable) (o : Options) (rows : List (List Str)) : List Int :=
  grow_widths t o (shrink_widths t o rows (base_widths t o rows))

end PTable

namespace PTable

/-! ## The render pipeline: line construction -/

/-- Python string repetition `k * s` (empty for `k ≤ 0`). -/
def str_repeat (s : Str) (k : Int) : Str := (List.replicate k.toNat s).flatten

/-- `_stringify_hrule` from the source. -/
def stringify_hrule (t : RTable) (o : Options) (widths : List Int) : Str :=
  if ¬o.border then [] else
  let pads := get_padding_widths o
  let first := if o.vrules = Rules.ALL ∨ o.vrules = Rules.FRAME then o.junction_char
               else o.horizontal_char
  if t.field_names.isEmpty then
    first ++ (if o.vrules = Rules.ALL ∨ o.vrules = Rules.FRAME then o.junction_char
              else o.horizontal_char)
  else
    let bits := [first] ++ (t.field_names.zip widths).flatMap (fun p =>
      if field_skip o p.1 then [] else
      [str_repeat o.horizontal_char (p.2 + (pads.1 : Int) + (pads.2 : Int)),
       if o.vrules = Rules.ALL then o.junction_char else o.horizontal_char])
    let bits := if o.vrules = Rules.FRAME then bits.dropLast ++ [o.junction_char] else bits
    bits.flatten

/-- `_stringify_title` from the source, as the list of physical lines (the
source embeds a newline and `get_string` splits again).  The `vrules = ALL`
case temporarily renders the rule with `vrules = FRAME`. -/
def stringify_title (t : RTable) (title : Str) (o : Options) (widths : List Int)
    (hrule : Str) : List Str :=
  let pads := get_padding_widths o
  let pre : List Str :=
    if o.border ∧ o.hrules ≠ Rules.NONE then
      if o.vrules = Rules.ALL then [stringify_hrule t { o with vrules := Rules.FRAME } widths]
      else [stringify_hrule t o widths]
    else []
  let endpoint := if o.vrules = Rules.ALL ∨ o.vrules = Rules.FRAME then o.vertical_char else [' ']
  let padded := List.replicate pads.1 ' ' ++ title ++ List.replicate pads.2 ' '
  pre ++ [endpoint ++ justify padded ((hrule.length : Int) - 2) "c" ++ endpoint]

/-- Python `str.capitalize` for the ASCII range. -/
def py_capitalize (s : Str) : Str :=
  match s with
  | [] => []
  | c :: rest => c.toUpper :: rest.map Char.toLower

/-- Python `str.title` for the ASCII range (uppercase after a non-letter). -/
def py_title_aux : Bool → Str → Str
  | _, [] => []
  | prev_alpha, c :: rest =>
    (if prev_alpha then c.toLower else c.toUpper) :: py_title_aux c.isAlpha rest

def py_title (s : Str) : Str := py_title_aux false s

/-- The `header_style` transform applied by `_stringify_header` (reading the
persisted `self._header_style`). -/
def header_transform (style : Option String) (f : Str) : Str :=
  match style with
  | some st =>
    if st = "cap" then py_capitalize f
    else if st = "title" then py_title f
    else if st = "upper" then f.map Char.toUpper
    else if st = "lower" then f.map Char.toLower
    else f
  | none => f

/-- `_stringify_header` from the source, as the list of physical lines
(leading/trailing rules included when the source embeds them). -/
def stringify_header (t : RTable) (o : Options) (widths : List Int) (hrule : Str) :
    List Str :=
  let pads := get_padding_widths o
  let pre : List Str :=
    if o.border ∧ (o.hrules = Rules.ALL ∨ o.hrules = Rules.FRAME) then [hrule] else []
  let start_bits : List Str :=
    if o.border then
      [if o.vrules = Rules.ALL ∨ o.vrules = Rules.FRAME then o.vertical_char else [' ']]
    else []
  let empty_bits : List Str :=
    if t.field_names.isEmpty then
      [if o.vrules = Rules.ALL ∨ o.vrules = Rules.FRAME then o.vertical_char else [' ']]
    else []
  let segs : List Str := (t.field_names.zip widths).flatMap (fun p =>
    if field_skip o p.1 then [] else
    [List.replicate pads.1 ' ' ++
        justify (header_transform t.header_style_attr p.1) p.2 (t.align p.1) ++
        List.replicate pads.2 ' '] ++
      (if o.border then [if o.vrules = Rules.ALL then o.vertical_char else [' ']] else []))
  let bits := start_bits ++ empty_bits ++ segs
  let bits := if o.border ∧ o.vrules = Rules.FRAME then bits.dropLast ++ [o.vertical_char]
              else bits
  let post : List Str := if o.border ∧ o.hrules ≠ Rules.NONE then [hrule] else []
  pre ++ [bits.flatten] ++ post

/-- The vertical-alignment padding of `_stringify_row`. -/
def valign_pad (va : String) (row_height : Nat) (lines : List Str) : List Str :=
  let dH := row_height - lines.length
  if dH = 0 then lines
  else if va = "m" then
    List.replicate (dH / 2) [] ++ lines ++ List.replicate (dH - dH / 2) []
  else if va = "b" then List.replicate dH [] ++ lines
  else lines ++ List.replicate dH []

/-- Splitting on spaces (the only whitespace reachable through the ASCII
hypotheses of the claims below). -/
def split_sp : Str → List Str
  | [] => [[]]
  | c :: rest =>
    if c = ' ' then [] :: split_sp rest
    else
      match split_sp rest with
      | [] => [[c]]
      | l :: ls => (c :: l) :: ls

/-- Hard-breaking one over-long token into pieces of at most `w` characters
(fuel-structural; the fuel is the token length). -/
def chunks_fuel : Nat → Nat → Str → List Str
  | 0, _, word => if word.isEmpty then [] else [word]
  | _ + 1, _, [] => []
  | fuel + 1, w, word => word.take w :: chunks_fuel fuel w (word.drop w)

/-- Modelled from the spec: Python's `textwrap.fill` (standard library, not
part of this repository).  Per spec section 4.4, a line is greedily
word-wrapped to width `w`, breaking on whitespace boundaries, and a single
token longer than `w` is hard-broken.  Only three properties of this model
are used by the claims below: every produced line has length at most `w`
(for `w ≥ 1`), contains no newline, and uses only characters of the input
plus spaces. -/
def fill_lines (line : Str) (w : Nat) : List Str :=
  let words := (split_sp line).filter (fun x => ¬x.isEmpty)
  let chunks := words.flatMap (fun word =>
    if w < word.length then chunks_fuel word.length w word else [word])
  let acc := chunks.foldl
    (fun (acc : List Str × Str) ch =>
      if ch.isEmpty then acc
      else if acc.2.isEmpty then (acc.1, ch)
      else if acc.2.length + 1 + ch.length ≤ w then (acc.1, acc.2 ++ ' ' :: ch)
      else (acc.1 ++ [acc.2], ch))
    ([], [])
  if acc.2.isEmpty then acc.1 else acc.1 ++ [acc.2]

/-- `textwrap.fill` as a string. -/
def py_fill (line : Str) (w : Nat) : Str := List.intercalate ['\n'] (fill_lines line w)

/-- The in-place re-wrapping of one cell at the top of `_stringify_row`:
split on newlines, `textwrap.fill` any line wider than the committed width,
join back.  (`textwrap.fill` raises for widths below 1 in Python; the claims
below exclude that case by hypothesis.) -/
def wrap_cell (w : Int) (v : Str) : Str :=
  List.intercalate ['\n'] ((split_nl v).map (fun line =>
    if str_block_width line > w then py_fill line w.toNat else line))

/-- `_stringify_row` from the source, as the list of physical lines.  Note
the source reads `self.vertical_char` (not the option) for the start and
inter-column separators of data lines, but `options["vertical_char"]` for the
`vrules = FRAME` end-fix. -/
def stringify_row (t : RTable) (o : Options) (row : List Str) (widths : List Int)
    (hrule : Str) : List Str :=
  let pads := get_padding_widths o
  let wrapped := (t.field_names.zip (row.zip widths)).map (fun p => wrap_cell p.2.2 p.2.1)
  let row := wrapped ++ row.drop wrapped.length
  let row_height := row.foldl (fun acc c => max acc (get_size c).2) 0
  let start_bits : List Str :=
    if o.border then
      [if o.vrules = Rules.ALL ∨ o.vrules = Rules.FRAME then t.vertical_char_attr else [' ']]
    else []
  let cols : List (List Str) := (t.field_names.zip (row.zip widths)).map (fun p =>
    (valign_pad (t.valign p.1) row_height (split_nl p.2.1)).map
      (fun l => List.replicate pads.1 ' ' ++ justify l p.2.2 (t.align p.1) ++
        List.replicate pads.2 ' '))
  let line_bits : Nat → List Str := fun y =>
    start_bits ++ (t.field_names.zip cols).flatMap (fun p =>
      if field_skip o p.1 then [] else
      [p.2.getD y []] ++
        (if o.border then [if o.vrules = Rules.ALL then t.vertical_char_attr else [' ']]
         else []))
  let frame_fix : List Str → List Str := fun bits =>
    if o.border ∧ o.vrules = Rules.FRAME then bits.dropLast ++ [o.vertical_char] else bits
  let lines := (List.range row_height).map (fun y => (frame_fix (line_bits y)).flatten)
  if o.border ∧ o.hrules = Rules.ALL then
    match lines with
    | [] => []       -- unreachable for nonempty rows (Python would raise on bits[-1])
    | _ :: _ => lines ++ [hrule]
  else lines

/-- Lexicographic `<=` on Python strings (code-point order). -/
def py_str_le : Str → Str → Bool
  | [], _ => true
  | _ :: _, [] => false
  | a :: as_, b :: bs =>
    if a.toNat < b.toNat then true
    else if b.toNat < a.toNat then false
    else py_str_le as_ bs

/-- Lexicographic `<=` on lists of Python strings: the comparison Python's
default `sort_key = lambda x: x` induces on decorated rows. -/
def py_row_le : List Str → List Str → Bool
  | [], _ => true
  | _ :: _, [] => false
  | a :: as_, b :: bs =>
    if py_str_le a b ∧ ¬py_str_le b a then true
    else if py_str_le b a ∧ ¬py_str_le a b then false
    else py_row_le as_ bs

/-- The row selection of `_prepare_lines` (`_get_rows` followed by the
identity `_format_rows`, cells being strings). -/
def formatted_rows (t : RTable) (o : Options) : List (List Str) :=
  get_rows t.rows t.field_names py_row_le o.sortby o.reversesort o.oldsortslice
    o.start o.end_idx

/-- `_prepare_lines` from the source, as the list of physical lines. -/
def prepare_lines (t : RTable) (o : Options) : List Str :=
  if t.rows.length = 0 ∧ (¬o.print_empty ∨ ¬o.border) then [] else
  let rows := formatted_rows t o
  let widths := compute_widths t o rows
  let hrule := stringify_hrule t o widths
  let title_lines :=
    match o.title with
    | some ti => stringify_title t ti o widths hrule
    | none => []
  let header_lines :=
    if o.header then stringify_header t o widths hrule
    else if o.border ∧ (o.hrules = Rules.ALL ∨ o.hrules = Rules.FRAME) then [hrule] else []
  let row_lines := rows.flatMap (fun r => stringify_row t o r widths hrule)
  let bottom := if o.border ∧ o.hrules = Rules.FRAME then [hrule] else []
  title_lines ++ header_lines ++ row_lines ++ bottom

/-- `get_string` from the source: join the physical lines with newlines. -/
def get_string (t : RTable) (o : Options) : Str :=
  List.intercalate ['\n'] (prepare_lines t o)

/-- The option set produced by `__init__`'s defaults. -/
def default_options : Options :=
  { title := none, start := 0, end_idx := none, fields := none,
    header := true, border := true, hrules := Rules.FRAME, vrules := Rules.ALL,
    sortby := none, reversesort := false, oldsortslice := false,
    header_style := none, min_table_width := none, max_table_width := none,
    padding_width := 1, left_padding_width := none, right_padding_width := none,
    vertical_char := ['|'], horizontal_char := ['-'], junction_char := ['+'],
    print_empty := true }

/-- A table state with default per-column settings. -/
def mk_table (fields : List Str) (rows : List (List Str)) : RTable :=
  { field_names := fields, rows := rows,
    align := fun _ => "c", valign := fun _ => "t",
    max_width_dict := [], min_width_dict := [],
    header_attr := true, header_style_attr := none,
    padding_width_attr := 1, vertical_char_attr := ['|'] }

end PTable

namespace PTable

/-! ## C9: rendering an empty table -/

theorem mem_intersperse_of_mem (sep : Str) :
    ∀ (l : List Str) (x : Str), x ∈ l → x ∈ List.intersperse sep l := by
  intro l
  induction l with
  | nil => intro x hx; cases hx
  | cons y rest ih =>
    intro x hx
    cases rest with
    | nil => simpa using hx
    | cons z rest' =>
      rw [List.intersperse_cons_cons]
      rcases List.mem_cons.mp hx with rfl | hx'
      · exact List.mem_cons_self _ _
      · exact List.mem_cons_of_mem _ (List.mem_cons_of_mem _ (ih x hx'))

theorem intercalate_ne_nil_of_mem {lines : List Str} {x : Str}
    (hmem : x ∈ lines) (hx : x ≠ []) : List.intercalate ['\n'] lines ≠ [] := by
  show (List.intersperse ['\n'] lines).flatten ≠ []
  intro hc
  rw [List.flatten_eq_nil_iff] at hc
  exact hx (hc x (mem_intersperse_of_mem ['\n'] lines x hmem))

theorem flatten_ne_nil_of_mem {l : List Str} {x : Str} (hmem : x ∈ l) (hx : x ≠ []) :
    l.flatten ≠ [] := by
  intro hc
  rw [List.flatten_eq_nil_iff] at hc
  exact hx (hc x hmem)

/-- C9 counterexample: a zero-row table rendered with `print_empty = True` but
`border = False` produces the empty string, not a non-empty skeleton. -/
theorem c9_counterexample :
    ({ default_options with border := false } : Options).print_empty = true ∧
    (mk_table ["f".data] []).rows.length = 0 ∧
    get_string (mk_table ["f".data] []) { default_options with border := false } = [] := by
  refine ⟨by decide, by decide, by decide⟩

/-- With the border on and a nonempty vertical glyph, the header line proper
of `_stringify_header` is a nonempty member of its output. -/
theorem stringify_header_has_line (t : RTable) (o : Options) (widths : List Int)
    (hrule : Str) (hb : o.border = true) (hv : o.vertical_char ≠ []) :
    ∃ x ∈ stringify_header t o widths hrule, x ≠ [] := by
  simp only [stringify_header]
  refine ⟨_, List.mem_append.mpr (Or.inl (List.mem_append.mpr (Or.inr
    (List.mem_singleton.mpr rfl)))), ?_⟩
  by_cases hfr : o.border = true ∧ o.vrules = Rules.FRAME
  · rw [if_pos hfr]
    exact flatten_ne_nil_of_mem
      (List.mem_append.mpr (Or.inr (List.mem_singleton.mpr rfl))) hv
  · rw [if_neg hfr, hb, if_pos rfl]
    refine flatten_ne_nil_of_mem
      (show (if o.vrules = Rules.ALL ∨ o.vrules = Rules.FRAME then o.vertical_char
          else [' ']) ∈ _ from
        List.mem_append.mpr (Or.inl (List.mem_append.mpr (Or.inl
          (List.mem_singleton.mpr rfl))))) ?_
    split
    · exact hv
    · simp

/-- With the border on and nonempty junction/horizontal glyphs,
`_stringify_hrule` is nonempty. -/
theorem stringify_hrule_ne (t : RTable) (o : Options) (widths : List Int)
    (hb : o.border = true) (hj : o.junction_char ≠ []) (hh : o.horizontal_char ≠ []) :
    stringify_hrule t o widths ≠ [] := by
  simp only [stringify_hrule]
  rw [if_neg (by simp [hb])]
  have hfirst : (if o.vrules = Rules.ALL ∨ o.vrules = Rules.FRAME then o.junction_char
      else o.horizontal_char) ≠ [] := by
    split
    · exact hj
    · exact hh
  split
  · intro hc
    exact hfirst (List.append_eq_nil.mp hc).1
  · split
    · exact flatten_ne_nil_of_mem
        (List.mem_append.mpr (Or.inr (List.mem_singleton.mpr rfl))) hj
    · exact flatten_ne_nil_of_mem
        (List.mem_append.mpr (Or.inl (List.mem_singleton.mpr rfl))) hfirst

/-- C9 (amended): for a zero-row table, `get_string` returns the empty string
when `print_empty` is off; it returns a non-empty header/frame skeleton when
`print_empty` is on **and** the border is on and either the header is shown or
`hrules` is `ALL`/`FRAME` (with `border = False`, or with the header off and
`hrules` in `NONE`/`HEADER`, the output is empty as well — see the
counterexample). -/
theorem c9_print_empty (t : RTable) (o : Options) :
    (t.rows.length = 0 → o.print_empty = false → get_string t o = []) ∧
    (t.rows.length = 0 → o.print_empty = true → o.border = true →
      (o.header = true ∨ o.hrules = Rules.ALL ∨ o.hrules = Rules.FRAME) →
      o.vertical_char ≠ [] → o.junction_char ≠ [] → o.horizontal_char ≠ [] →
      get_string t o ≠ []) := by
  constructor
  · intro h0 hpe
    unfold get_string prepare_lines
    rw [if_pos ⟨h0, Or.inl (by simp [hpe])⟩]
    rfl
  · intro h0 hpe hb hskel hv hj hh
    unfold get_string
    simp only [prepare_lines]
    rw [if_neg (by simp [hpe, hb])]
    rcases hskel with hhd | hhr
    · obtain ⟨x, hx, hxne⟩ := stringify_header_has_line t o
        (compute_widths t o (formatted_rows t o))
        (stringify_hrule t o (compute_widths t o (formatted_rows t o))) hb hv
      refine intercalate_ne_nil_of_mem ?_ hxne
      rw [hhd]
      simp only [if_pos rfl]
      exact List.mem_append.mpr (Or.inl (List.mem_append.mpr (Or.inl
        (List.mem_append.mpr (Or.inr (by simpa using hx))))))
    · have hrne := stringify_hrule_ne t o (compute_widths t o (formatted_rows t o)) hb hj hh
      by_cases hhd : o.header = true
      · obtain ⟨x, hx, hxne⟩ := stringify_header_has_line t o
          (compute_widths t o (formatted_rows t o))
          (stringify_hrule t o (compute_widths t o (formatted_rows t o))) hb hv
        refine intercalate_ne_nil_of_mem ?_ hxne
        rw [hhd]
        simp only [if_pos rfl]
        exact List.mem_append.mpr (Or.inl (List.mem_append.mpr (Or.inl
          (List.mem_append.mpr (Or.inr (by simpa using hx))))))
      · refine intercalate_ne_nil_of_mem ?_ hrne
        have hcase : (if o.header = true then
            stringify_header t o (compute_widths t o (formatted_rows t o))
              (stringify_hrule t o (compute_widths t o (formatted_rows t o)))
          else if o.border = true ∧ (o.hrules = Rules.ALL ∨ o.hrules = Rules.FRAME) then
            [stringify_hrule t o (compute_widths t o (formatted_rows t o))]
          else []) = [stringify_hrule t o (compute_widths t o (formatted_rows t o))] := by
          rw [if_neg hhd, if_pos ⟨hb, hhr⟩]
        exact List.mem_append.mpr (Or.inl (List.mem_append.mpr (Or.inl
          (List.mem_append.mpr (Or.inr (by rw [hcase]; exact List.mem_singleton.mpr rfl))))))

/-- C9 witness: both halves at a concrete zero-row table. -/
theorem c9_witness :
    ((mk_table ["f".data] []).rows.length = 0 ∧
      ({ default_options with print_empty := false } : Options).print_empty = false ∧
      get_string (mk_table ["f".data] []) { default_options with print_empty := false } = []) ∧
    ((mk_table ["f".data] []).rows.length = 0 ∧
      (default_options).print_empty = true ∧
      (default_options).border = true ∧
      get_string (mk_table ["f".data] []) default_options ≠ []) :=
  ⟨⟨by decide, by decide,
    (c9_print_empty (mk_table ["f".data] []) { default_options with print_empty := false }).1
      (by decide) (by decide)⟩,
   ⟨by decide, by decide, by decide,
    (c9_print_empty (mk_table ["f".data] []) default_options).2
      (by decide) (by decide) (by decide) (Or.inl (by decide))
      (by decide) (by decide) (by decide)⟩⟩

end PTable

namespace PTable

/-! ## C2: the shrink and grow phases of `_compute_widths` -/

/-- The floor against which the grow phase compares the table width:
`max(title-width-with-padding, min_table_width or 0)`. -/
def grow_floor (o : Options) : Int :=
  max (if truthy_str o.title then
        ((o.title.getD []).length : Int) + (((get_padding_widths o).1 : Nat) : Int) +
          (((get_padding_widths o).2 : Nat) : Int)
      else 0)
    ((o.min_table_width.getD 0 : Nat) : Int)

/-- C2 counterexample: with `max_table_width = 12` and `min_table_width = 14`
on a single 16-wide column, the shrink phase rescales 16 → 8 **and** the grow
phase then rescales 8 → 10 in the same `_compute_widths` call — the two
adjustments are not mutually exclusive.  (Both scale factors, 1/2 and 5/4,
are exact in binary floating point, so the source computes the same.) -/
theorem c2_counterexample :
    base_widths (mk_table ["f".data] [["aaaaaaaaaaaaaaaa".data]])
        { default_options with max_table_width := some 12, min_table_width := some 14 }
        [["aaaaaaaaaaaaaaaa".data]] = [16] ∧
    shrink_widths (mk_table ["f".data] [["aaaaaaaaaaaaaaaa".data]])
        { default_options with max_table_width := some 12, min_table_width := some 14 }
        [["aaaaaaaaaaaaaaaa".data]] [16] = [8] ∧
    grow_widths (mk_table ["f".data] [["aaaaaaaaaaaaaaaa".data]])
        { default_options with max_table_width := some 12, min_table_width := some 14 }
        [8] = [10] ∧
    compute_widths (mk_table ["f".data] [["aaaaaaaaaaaaaaaa".data]])
        { default_options with max_table_width := some 12, min_table_width := some 14 }
        [["aaaaaaaaaaaaaaaa".data]] = [10] ∧
    ([16] : List Int) ≠ [8] ∧ ([8] : List Int) ≠ [10] := by
  refine ⟨by decide, by decide, by decide, by decide, by decide, by decide⟩

/-- C2 (amended): the grow phase performs no rescaling **when** the table
width of the widths it receives (post-shrink) already meets the floor
`max(title width, min_table_width)` — in particular whenever neither a
truthy `min_table_width` nor a truthy `title` is set, in which case
`_compute_widths` is exactly its shrink phase.  A shrink that has rescaled
does *not* by itself prevent the grow phase (see the counterexample). -/
theorem c2_grow_noop_when_floor_met (t : RTable) (o : Options)
    (rows : List (List Str)) (ws : List Int)
    (h : ¬(truthy_nat o.min_table_width ∨ truthy_str o.title) ∨
         grow_floor o ≤ compute_table_width t o ws) :
    grow_widths t o ws = ws ∧
    (¬(truthy_nat o.min_table_width ∨ truthy_str o.title) →
      compute_widths t o rows = shrink_widths t o rows (base_widths t o rows)) := by
  have key : ∀ ws' : List Int,
      (¬(truthy_nat o.min_table_width ∨ truthy_str o.title) ∨
        grow_floor o ≤ compute_table_width t o ws') → grow_widths t o ws' = ws' := by
    intro ws' h'
    simp only [grow_widths]
    rcases h' with hno | hfloor
    · rw [if_neg (by simpa using hno)]
    · by_cases htr : truthy_nat o.min_table_width = true ∨ truthy_str o.title = true
      · rw [if_pos htr]
        have hfloor' : grow_floor o ≤ compute_table_width t o ws' := hfloor
        unfold grow_floor at hfloor'
        split
        · rename_i hti
          rw [if_pos hti] at hfloor'
          split
          · rename_i hlt
            exact absurd hlt (not_lt.mpr hfloor')
          · rfl
        · rename_i hti
          rw [if_neg hti] at hfloor'
          split
          · rename_i hlt
            exact absurd hlt (not_lt.mpr hfloor')
          · rfl
      · rw [if_neg htr]
  refine ⟨key ws h, ?_⟩
  intro hno
  unfold compute_widths
  exact key _ (Or.inl hno)

/-- C2 witness: the amended statement at a concrete table with no
`min_table_width` and no title: the grow phase leaves the (shrunk) widths
unchanged and `_compute_widths` equals its shrink phase. -/
theorem c2_witness :
    (¬(truthy_nat (default_options).min_table_width ∨ truthy_str (default_options).title) ∨
      grow_floor default_options ≤
        compute_table_width (mk_table ["f".data] [["aaaa".data]]) default_options [4]) ∧
    grow_widths (mk_table ["f".data] [["aaaa".data]]) default_options [4] = [4] ∧
    (¬(truthy_nat (default_options).min_table_width ∨ truthy_str (default_options).title) →
      compute_widths (mk_table ["f".data] [["aaaa".data]]) default_options [["aaaa".data]]
        = shrink_widths (mk_table ["f".data] [["aaaa".data]]) default_options [["aaaa".data]]
            (base_widths (mk_table ["f".data] [["aaaa".data]]) default_options [["aaaa".data]])) :=
  ⟨Or.inl (by decide),
    (c2_grow_noop_when_floor_met (mk_table ["f".data] [["aaaa".data]]) default_options
      [["aaaa".data]] [4] (Or.inl (by decide))).1,
    (c2_grow_noop_when_floor_met (mk_table ["f".data] [["aaaa".data]]) default_options
      [["aaaa".data]] [4] (Or.inl (by decide))).2⟩

end PTable

namespace PTable

/-! ## Line-width infrastructure for the physical-line claims

The claims about output geometry are proved for printable-ASCII content:
every character then has display width 1 and the width of a line is its
length.  `char_ok` captures the source's validation `_validate_single_char`
(`_str_block_width(val) == 1`) together with the absence of escapes and
newlines in a border glyph. -/

/-- A printable-ASCII physical line: every character is in `0x20 – 0x7e`. -/
def line_ok (l : Str) : Prop := ∀ c ∈ l, 0x20 ≤ c.toNat ∧ c.toNat ≤ 0x7e

instance (l : Str) : Decidable (line_ok l) := by unfold line_ok; infer_instance

/-- Cell contents: printable ASCII plus embedded newlines. -/
def cell_ok (s : Str) : Prop := ∀ c ∈ s, c = '\n' ∨ (0x20 ≤ c.toNat ∧ c.toNat ≤ 0x7e)

instance (s : Str) : Decidable (cell_ok s) := by unfold cell_ok; infer_instance

/-- A border glyph: display width 1, no escape character, no newline. -/
def char_ok (s : Str) : Prop := str_block_width s = 1 ∧ escChar ∉ s ∧ '\n' ∉ s

instance (s : Str) : Decidable (char_ok s) := by unfold char_ok; infer_instance

theorem raw_width_append (a b : Str) : raw_width (a ++ b) = raw_width a + raw_width b := by
  simp [raw_width]

theorem raw_width_flatten : ∀ ls : List Str, raw_width ls.flatten = (ls.map raw_width).sum
  | [] => rfl
  | a :: ls => by
    simp only [List.flatten_cons, raw_width_append, List.map_cons, List.sum_cons,
      raw_width_flatten ls]

theorem isCombining_eq_false {c : Char} (h : c.toNat ≤ 0x7e) : isCombining c = false := by
  simp only [isCombining]
  rw [decide_eq_false]
  omega

theorem char_block_width_ascii {c : Char} (h1 : 0x20 ≤ c.toNat) (h2 : c.toNat ≤ 0x7e) :
    char_block_width c = 1 := by
  unfold char_block_width
  by_cases hb : 0x0021 ≤ c.toNat ∧ c.toNat ≤ 0x007e
  · rw [if_pos hb]
  · rw [if_neg hb, if_neg (by omega), if_neg (by omega), isCombining_eq_false h2,
      if_neg (by simp), if_neg (by omega), if_neg (by omega), if_neg (by omega),
      if_neg (by omega), if_neg (by omega)]

theorem raw_width_of_line_ok : ∀ {l : Str}, line_ok l → raw_width l = (l.length : Int)
  | [], _ => rfl
  | c :: l, h => by
    have hc := h c (List.mem_cons_self c l)
    have hl : line_ok l := fun d hd => h d (List.mem_cons_of_mem c hd)
    simp only [raw_width, List.map_cons, List.sum_cons, List.length_cons]
    rw [char_block_width_ascii hc.1 hc.2,
      show ((l.map char_block_width).sum = raw_width l) from rfl, raw_width_of_line_ok hl]
    push_cast
    omega

theorem escChar_toNat : escChar.toNat = 27 := by decide

theorem line_ok_no_esc {l : Str} (h : line_ok l) : escChar ∉ l := by
  intro hmem
  have := h escChar hmem
  rw [escChar_toNat] at this
  omega

theorem line_ok_no_nl {l : Str} (h : line_ok l) : '\n' ∉ l := by
  intro hmem
  have := h '\n' hmem
  have hn : ('\n').toNat = 10 := by decide
  omega

theorem sbw_eq_raw_of_no_esc {l : Str} (h : escChar ∉ l) : str_block_width l = raw_width l := by
  rw [str_block_width, strip_ansi_of_not_esc h]

theorem sbw_of_line_ok {l : Str} (h : line_ok l) : str_block_width l = (l.length : Int) := by
  rw [sbw_eq_raw_of_no_esc (line_ok_no_esc h), raw_width_of_line_ok h]

theorem line_ok_replicate_space (k : Nat) : line_ok (List.replicate k ' ') := by
  intro c hc
  rw [List.eq_of_mem_replicate hc]
  decide

theorem raw_width_replicate_space (k : Nat) :
    raw_width (List.replicate k ' ') = (k : Int) := by
  rw [raw_width_of_line_ok (line_ok_replicate_space k), List.length_replicate]

theorem raw_width_spaces (k : Int) : raw_width (spaces k) = (k.toNat : Int) := by
  rw [spaces, raw_width_replicate_space]

theorem char_ok_raw {s : Str} (h : char_ok s) : raw_width s = 1 := by
  rw [← sbw_eq_raw_of_no_esc h.2.1]
  exact h.1

end PTable

namespace PTable

theorem justify_width {text : Str} {w : Int} (a : String)
    (hesc : escChar ∉ text) (hfit : str_block_width text ≤ w) :
    raw_width (justify text w a) = w := by
  have hs := sbw_eq_raw_of_no_esc hesc
  simp only [justify]
  rw [hs] at hfit ⊢
  by_cases hl : a = "l"
  · rw [if_pos hl, raw_width_append, raw_width_spaces]
    omega
  · rw [if_neg hl]
    by_cases hr : a = "r"
    · rw [if_pos hr, raw_width_append, raw_width_spaces]
      omega
    · rw [if_neg hr]
      have h2 : (0 : Int) ≤ 2 := by norm_num
      have hmod : ∀ a b : Int, a.emod b = a % b := fun _ _ => rfl
      by_cases he : (w - raw_width text).emod 2 ≠ 0
      · rw [if_pos he]
        rw [hmod] at he
        by_cases ht : (raw_width text).emod 2 ≠ 0
        · rw [if_pos ht, raw_width_append, raw_width_append, raw_width_spaces,
            raw_width_spaces, Int.fdiv_eq_ediv _ h2]
          omega
        · rw [if_neg ht, raw_width_append, raw_width_append, raw_width_spaces,
            raw_width_spaces, Int.fdiv_eq_ediv _ h2]
          omega
      · rw [if_neg he, raw_width_append, raw_width_append, raw_width_spaces,
          Int.fdiv_eq_ediv _ h2]
        rw [hmod] at he
        omega

theorem justify_mem {text : Str} {w : Int} {a : String} {c : Char}
    (h : c ∈ justify text w a) : c ∈ text ∨ c = ' ' := by
  have hsp : ∀ {k : Int}, c ∈ spaces k → c = ' ' := fun hk => List.eq_of_mem_replicate hk
  simp only [justify] at h
  by_cases hl : a = "l"
  · rw [if_pos hl] at h
    rcases List.mem_append.mp h with h | h
    · exact Or.inl h
    · exact Or.inr (hsp h)
  · rw [if_neg hl] at h
    by_cases hr : a = "r"
    · rw [if_pos hr] at h
      rcases List.mem_append.mp h with h | h
      · exact Or.inr (hsp h)
      · exact Or.inl h
    · rw [if_neg hr] at h
      have core : ∀ {x y : Int},
          c ∈ spaces x ++ text ++ spaces y → c ∈ text ∨ c = ' ' := by
        intro x y hm
        rcases List.mem_append.mp hm with hm | hm
        · rcases List.mem_append.mp hm with hm | hm
          · exact Or.inr (hsp hm)
          · exact Or.inl hm
        · exact Or.inr (hsp hm)
      by_cases he : (w - str_block_width text).emod 2 ≠ 0
      · rw [if_pos he] at h
        by_cases ht : (str_block_width text).emod 2 ≠ 0
        · rw [if_pos ht] at h; exact core h
        · rw [if_neg ht] at h; exact core h
      · rw [if_neg he] at h; exact core h

theorem split_nl_ne_nil : ∀ s : Str, split_nl s ≠ []
  | [] => by simp [split_nl]
  | c :: rest => by
    simp only [split_nl]
    by_cases hc : c = '\n'
    · rw [if_pos hc]; simp
    · rw [if_neg hc]
      cases h : split_nl rest <;> simp

theorem split_nl_append_nl : ∀ x t : Str, split_nl (x ++ '\n' :: t) = split_nl x ++ split_nl t
  | [], t => by simp [split_nl]
  | c :: x, t => by
    rw [List.cons_append]
    simp only [split_nl]
    by_cases hc : c = '\n'
    · rw [if_pos hc, if_pos hc, split_nl_append_nl x t]
      simp
    · rw [if_neg hc, if_neg hc, split_nl_append_nl x t]
      cases h : split_nl x with
      | nil => exact absurd h (split_nl_ne_nil x)
      | cons l ls => simp

theorem split_nl_of_no_nl : ∀ {s : Str}, '\n' ∉ s → split_nl s = [s]
  | [], _ => rfl
  | c :: s, h => by
    have hc : c ≠ '\n' := fun hcc => h (hcc ▸ List.mem_cons_self c s)
    have hs : '\n' ∉ s := fun hmem => h (List.mem_cons_of_mem c hmem)
    simp only [split_nl, if_neg hc, split_nl_of_no_nl hs]

theorem split_nl_mem_props : ∀ {s : Str} {p : Str}, p ∈ split_nl s →
    ('\n' ∉ p ∧ ∀ c ∈ p, c ∈ s)
  | [], p, hp => by
    simp [split_nl] at hp
    subst hp
    simp
  | c :: s, p, hp => by
    simp only [split_nl] at hp
    by_cases hc : c = '\n'
    · rw [if_pos hc] at hp
      rcases List.mem_cons.mp hp with h | h
      · subst h; simp
      · have := split_nl_mem_props h
        exact ⟨this.1, fun d hd => List.mem_cons_of_mem c (this.2 d hd)⟩
    · rw [if_neg hc] at hp
      cases hrest : split_nl s with
      | nil => exact absurd hrest (split_nl_ne_nil s)
      | cons l ls =>
        rw [hrest] at hp
        rcases List.mem_cons.mp hp with h | h
        · subst h
          have hl : l ∈ split_nl s := by rw [hrest]; exact List.mem_cons_self l ls
          have := split_nl_mem_props hl
          refine ⟨?_, ?_⟩
          · intro hmem
            rcases List.mem_cons.mp hmem with h | h
            · exact hc h.symm
            · exact this.1 h
          · intro d hd
            rcases List.mem_cons.mp hd with h | h
            · exact h ▸ List.mem_cons_self c s
            · exact List.mem_cons_of_mem c (this.2 d h)
        · have hl : p ∈ split_nl s := by rw [hrest]; exact List.mem_cons_of_mem l h
          have := split_nl_mem_props hl
          exact ⟨this.1, fun d hd => List.mem_cons_of_mem c (this.2 d hd)⟩

theorem split_nl_intercalate : ∀ {parts : List Str}, parts ≠ [] →
    split_nl (List.intercalate ['\n'] parts) = parts.flatMap split_nl
  | [], h => absurd rfl h
  | [p], _ => by simp [List.intercalate, List.intersperse]
  | p :: q :: parts, _ => by
    have hstep : List.intercalate ['\n'] (p :: q :: parts) =
        p ++ '\n' :: List.intercalate ['\n'] (q :: parts) := by
      simp [List.intercalate, List.intersperse]
    rw [hstep, split_nl_append_nl, split_nl_intercalate (by simp : q :: parts ≠ [])]
    simp

end PTable

namespace PTable

theorem chunks_fuel_le {w : Nat} (hw : 1 ≤ w) :
    ∀ (fuel : Nat) (word : Str), word.length ≤ fuel →
      ∀ p ∈ chunks_fuel fuel w word, p.length ≤ w
  | 0, word, hlen, p, hp => by
    have : word = [] := List.eq_nil_of_length_eq_zero (Nat.le_zero.mp hlen)
    subst this
    simp [chunks_fuel] at hp
  | fuel + 1, [], _, p, hp => by simp [chunks_fuel] at hp
  | fuel + 1, c :: word, hlen, p, hp => by
    simp only [chunks_fuel] at hp
    rcases List.mem_cons.mp hp with h | h
    · subst h
      simpa using List.length_take_le w (c :: word)
    · exact chunks_fuel_le hw fuel ((c :: word).drop w)
        (by simp only [List.length_drop]; simp at hlen ⊢; omega) p h

theorem chunks_fuel_subset :
    ∀ (fuel w : Nat) (word : Str), ∀ p ∈ chunks_fuel fuel w word, ∀ c ∈ p, c ∈ word
  | 0, w, word, p, hp, c, hc => by
    simp only [chunks_fuel] at hp
    by_cases hh : word.isEmpty
    · simp [hh] at hp
    · rw [if_neg hh] at hp
      rcases List.mem_cons.mp hp with h | h
      · exact h ▸ hc
      · simp at h
  | fuel + 1, w, [], p, hp, c, hc => by simp [chunks_fuel] at hp
  | fuel + 1, w, d :: word, p, hp, c, hc => by
    simp only [chunks_fuel] at hp
    rcases List.mem_cons.mp hp with h | h
    · exact List.mem_of_mem_take (h ▸ hc)
    · exact List.mem_of_mem_drop (chunks_fuel_subset fuel w ((d :: word).drop w) p h c hc)

theorem split_sp_mem_subset : ∀ {s : Str} {p : Str}, p ∈ split_sp s → ∀ c ∈ p, c ∈ s
  | [], p, hp => by
    simp [split_sp] at hp
    subst hp
    simp
  | d :: s, p, hp => by
    simp only [split_sp] at hp
    by_cases hd : d = ' '
    · rw [if_pos hd] at hp
      rcases List.mem_cons.mp hp with h | h
      · subst h; simp
      · exact fun c hc => List.mem_cons_of_mem d (split_sp_mem_subset h c hc)
    · rw [if_neg hd] at hp
      cases hrest : split_sp s with
      | nil =>
        rw [hrest] at hp
        simp at hp
        subst hp
        intro c hc
        simp at hc
        exact hc ▸ List.mem_cons_self d s
      | cons l ls =>
        rw [hrest] at hp
        rcases List.mem_cons.mp hp with h | h
        · subst h
          intro c hc
          rcases List.mem_cons.mp hc with h | h
          · exact h ▸ List.mem_cons_self d s
          · have hl : l ∈ split_sp s := by rw [hrest]; exact List.mem_cons_self l ls
            exact List.mem_cons_of_mem d (split_sp_mem_subset hl c h)
        · have hl : p ∈ split_sp s := by rw [hrest]; exact List.mem_cons_of_mem l h
          exact fun c hc => List.mem_cons_of_mem d (split_sp_mem_subset hl c hc)

theorem fill_fold_le {w : Nat} :
    ∀ (chunks : List Str) (acc : List Str × Str),
      (∀ p ∈ acc.1, p.length ≤ w) → acc.2.length ≤ w → (∀ ch ∈ chunks, ch.length ≤ w) →
      (∀ p ∈ (chunks.foldl
        (fun (acc : List Str × Str) ch =>
          if ch.isEmpty then acc
          else if acc.2.isEmpty then (acc.1, ch)
          else if acc.2.length + 1 + ch.length ≤ w then (acc.1, acc.2 ++ ' ' :: ch)
          else (acc.1 ++ [acc.2], ch)) acc).1, p.length ≤ w) ∧
      (chunks.foldl
        (fun (acc : List Str × Str) ch =>
          if ch.isEmpty then acc
          else if acc.2.isEmpty then (acc.1, ch)
          else if acc.2.length + 1 + ch.length ≤ w then (acc.1, acc.2 ++ ' ' :: ch)
          else (acc.1 ++ [acc.2], ch)) acc).2.length ≤ w
  | [], acc, h1, h2, _ => ⟨h1, h2⟩
  | ch :: chunks, acc, h1, h2, h3 => by
    rw [List.foldl_cons]
    have hch := h3 ch (List.mem_cons_self ch chunks)
    have h3' : ∀ c ∈ chunks, c.length ≤ w := fun c hc => h3 c (List.mem_cons_of_mem ch hc)
    by_cases hemp : ch.isEmpty
    · rw [if_pos hemp]
      exact fill_fold_le chunks acc h1 h2 h3'
    · rw [if_neg hemp]
      by_cases hacc : acc.2.isEmpty
      · rw [if_pos hacc]
        exact fill_fold_le chunks (acc.1, ch) h1 hch h3'
      · rw [if_neg hacc]
        by_cases hfit : acc.2.length + 1 + ch.length ≤ w
        · rw [if_pos hfit]
          exact fill_fold_le chunks (acc.1, acc.2 ++ ' ' :: ch) h1 (by simp; omega) h3'
        · rw [if_neg hfit]
          refine fill_fold_le chunks (acc.1 ++ [acc.2], ch) ?_ hch h3'
          intro p hp
          rcases List.mem_append.mp hp with h | h
          · exact h1 p h
          · simp at h
            exact h ▸ h2

theorem fill_fold_mem {w : Nat} (P : Char → Prop) (hsp : P ' ') :
    ∀ (chunks : List Str) (acc : List Str × Str),
      (∀ p ∈ acc.1, ∀ c ∈ p, P c) → (∀ c ∈ acc.2, P c) →
      (∀ ch ∈ chunks, ∀ c ∈ ch, P c) →
      (∀ p ∈ (chunks.foldl
        (fun (acc : List Str × Str) ch =>
          if ch.isEmpty then acc
          else if acc.2.isEmpty then (acc.1, ch)
          else if acc.2.length + 1 + ch.length ≤ w then (acc.1, acc.2 ++ ' ' :: ch)
          else (acc.1 ++ [acc.2], ch)) acc).1, ∀ c ∈ p, P c) ∧
      (∀ c ∈ (chunks.foldl
        (fun (acc : List Str × Str) ch =>
          if ch.isEmpty then acc
          else if acc.2.isEmpty then (acc.1, ch)
          else if acc.2.length + 1 + ch.length ≤ w then (acc.1, acc.2 ++ ' ' :: ch)
          else (acc.1 ++ [acc.2], ch)) acc).2, P c)
  | [], acc, h1, h2, _ => ⟨h1, h2⟩
  | ch :: chunks, acc, h1, h2, h3 => by
    rw [List.foldl_cons]
    have hch := h3 ch (List.mem_cons_self ch chunks)
    have h3' : ∀ c ∈ chunks, ∀ d ∈ c, P d := fun c hc => h3 c (List.mem_cons_of_mem ch hc)
    by_cases hemp : ch.isEmpty
    · rw [if_pos hemp]
      exact fill_fold_mem P hsp chunks acc h1 h2 h3'
    · rw [if_neg hemp]
      by_cases hacc : acc.2.isEmpty
      · rw [if_pos hacc]
        exact fill_fold_mem P hsp chunks (acc.1, ch) h1 hch h3'
      · rw [if_neg hacc]
        by_cases hfit : acc.2.length + 1 + ch.length ≤ w
        · rw [if_pos hfit]
          refine fill_fold_mem P hsp chunks (acc.1, acc.2 ++ ' ' :: ch) h1 ?_ h3'
          intro c hc
          rcases List.mem_append.mp hc with h | h
          · exact h2 c h
          · rcases List.mem_cons.mp h with h | h
            · exact h ▸ hsp
            · exact hch c h
        · rw [if_neg hfit]
          refine fill_fold_mem P hsp chunks (acc.1 ++ [acc.2], ch) ?_ hch h3'
          intro p hp
          rcases List.mem_append.mp hp with h | h
          · exact h1 p h
          · simp at h
            exact h ▸ h2

theorem fill_lines_le {line : Str} {w : Nat} (hw : 1 ≤ w) :
    ∀ p ∈ fill_lines line w, p.length ≤ w := by
  intro p hp
  simp only [fill_lines] at hp
  have hchunks : ∀ ch ∈ ((split_sp line).filter (fun x => ¬x.isEmpty)).flatMap
      (fun word => if w < word.length then chunks_fuel word.length w word else [word]),
      ch.length ≤ w := by
    intro ch hch
    rcases List.mem_flatMap.mp hch with ⟨word, _, hmem⟩
    by_cases hlong : w < word.length
    · rw [if_pos hlong] at hmem
      exact chunks_fuel_le hw word.length word le_rfl ch hmem
    · rw [if_neg hlong] at hmem
      simp at hmem
      subst hmem
      omega
  have := @fill_fold_le w _ ([], []) (by simp) (by simp) hchunks
  split at hp
  · exact this.1 p hp
  · rcases List.mem_append.mp hp with h | h
    · exact this.1 p h
    · rw [List.mem_singleton] at h
      exact h ▸ this.2

theorem fill_lines_mem {line : Str} {w : Nat} :
    ∀ p ∈ fill_lines line w, ∀ c ∈ p, c ∈ line ∨ c = ' ' := by
  intro p hp
  simp only [fill_lines] at hp
  have hchunks : ∀ ch ∈ ((split_sp line).filter (fun x => ¬x.isEmpty)).flatMap
      (fun word => if w < word.length then chunks_fuel word.length w word else [word]),
      ∀ c ∈ ch, c ∈ line ∨ c = ' ' := by
    intro ch hch c hc
    rcases List.mem_flatMap.mp hch with ⟨word, hword, hmem⟩
    have hws : ∀ d ∈ word, d ∈ line := fun d hd =>
      split_sp_mem_subset (List.mem_of_mem_filter hword) d hd
    by_cases hlong : w < word.length
    · rw [if_pos hlong] at hmem
      exact Or.inl (hws c (chunks_fuel_subset word.length w word ch hmem c hc))
    · rw [if_neg hlong] at hmem
      simp at hmem
      exact Or.inl (hws c (hmem ▸ hc))
  have := @fill_fold_mem w (fun c => c ∈ line ∨ c = ' ') (Or.inr rfl) _ ([], [])
    (by simp) (by simp) hchunks
  split at hp
  · exact this.1 p hp
  · rcases List.mem_append.mp hp with h | h
    · exact this.1 p h
    · rw [List.mem_singleton] at h
      exact fun c hc => this.2 c (h ▸ hc)

end PTable

namespace PTable

/-- The physical lines a wrapped cell splits back into: each line of the cell
is replaced by its `textwrap.fill` pieces when it is wider than the committed
column width (an all-whitespace line filling to the empty string contributes
one empty physical line). -/
def wrap_cell_lines (w : Int) (v : Str) : List Str :=
  (split_nl v).flatMap (fun line =>
    if str_block_width line > w then
      if fill_lines line w.toNat = [] then [[]] else fill_lines line w.toNat
    else [line])

theorem flatMap_congr_mem {α β : Type _} {f g : α → List β} :
    ∀ {L : List α}, (∀ x ∈ L, f x = g x) → L.flatMap f = L.flatMap g
  | [], _ => rfl
  | a :: L, h => by
    rw [List.flatMap_cons, List.flatMap_cons, h a (List.mem_cons_self a L),
      flatMap_congr_mem (fun x hx => h x (List.mem_cons_of_mem a hx))]

theorem flatMap_split_nl_id : ∀ {L : List Str}, (∀ q ∈ L, '\n' ∉ q) →
    L.flatMap split_nl = L
  | [], _ => rfl
  | a :: L, h => by
    rw [List.flatMap_cons, split_nl_of_no_nl (h a (List.mem_cons_self a L)),
      flatMap_split_nl_id (fun q hq => h q (List.mem_cons_of_mem a hq))]
    rfl

theorem split_nl_wrapped_line {line : Str} (hline : '\n' ∉ line) (w : Int) :
    split_nl (if str_block_width line > w then py_fill line w.toNat else line) =
      if str_block_width line > w then
        (if fill_lines line w.toNat = [] then [[]] else fill_lines line w.toNat)
      else [line] := by
  by_cases hw : str_block_width line > w
  · rw [if_pos hw, if_pos hw, py_fill]
    cases hfl : fill_lines line w.toNat with
    | nil => simp [List.intercalate, split_nl]
    | cons p ps =>
      rw [if_neg (by simp)]
      rw [split_nl_intercalate (by simp)]
      apply flatMap_split_nl_id
      intro q hq hnl
      rcases fill_lines_mem q (hfl ▸ hq) '\n' hnl with h | h
      · exact hline h
      · exact absurd h (by decide)
  · rw [if_neg hw, if_neg hw]
    exact split_nl_of_no_nl hline

theorem split_nl_wrap_cell (w : Int) (v : Str) :
    split_nl (wrap_cell w v) = wrap_cell_lines w v := by
  rw [wrap_cell, split_nl_intercalate
      (fun h => split_nl_ne_nil v (List.map_eq_nil_iff.mp h)),
    List.flatMap_map, wrap_cell_lines]
  exact flatMap_congr_mem (fun line hline =>
    split_nl_wrapped_line (split_nl_mem_props hline).1 w)

theorem wrap_cell_lines_ok {w : Int} {v : Str} (hv : cell_ok v) (hw0 : 0 ≤ w)
    (hwr : ∀ line ∈ split_nl v, str_block_width line > w → 1 ≤ w) :
    ∀ p ∈ split_nl (wrap_cell w v), line_ok p ∧ (p.length : Int) ≤ w := by
  rw [split_nl_wrap_cell]
  intro p hp
  rcases List.mem_flatMap.mp hp with ⟨line, hline, hmem⟩
  have hprops := split_nl_mem_props hline
  have hlok : line_ok line := by
    intro c hc
    rcases hv c (hprops.2 c hc) with h | h
    · exact absurd (h ▸ hc) hprops.1
    · exact h
  by_cases hwide : str_block_width line > w
  · rw [if_pos hwide] at hmem
    have hw1 : 1 ≤ w := hwr line hline hwide
    have hw1' : 1 ≤ w.toNat := by omega
    by_cases hfl : fill_lines line w.toNat = []
    · rw [if_pos hfl, List.mem_singleton] at hmem
      subst hmem
      refine ⟨?_, ?_⟩
      · intro c hc
        cases hc
      · simp
        omega
    · rw [if_neg hfl] at hmem
      have hle := fill_lines_le hw1' p hmem
      refine ⟨?_, by omega⟩
      intro c hc
      rcases fill_lines_mem p hmem c hc with h | h
      · exact hlok c h
      · subst h; decide
  · rw [if_neg hwide, List.mem_singleton] at hmem
    subst hmem
    refine ⟨hlok, ?_⟩
    have hsw := sbw_of_line_ok hlok
    rw [hsw] at hwide
    omega

theorem valign_pad_length (va : String) (h : Nat) (lines : List Str)
    (hle : lines.length ≤ h) : (valign_pad va h lines).length = h := by
  simp only [valign_pad]
  by_cases h0 : h - lines.length = 0
  · rw [if_pos h0]; omega
  · rw [if_neg h0]
    by_cases hm : va = "m"
    · rw [if_pos hm]; simp; omega
    · rw [if_neg hm]
      by_cases hb : va = "b"
      · rw [if_pos hb]; simp; omega
      · rw [if_neg hb]; simp; omega

theorem valign_pad_mem {va : String} {h : Nat} {lines : List Str} {x : Str}
    (hx : x ∈ valign_pad va h lines) : x ∈ lines ∨ x = [] := by
  simp only [valign_pad] at hx
  split at hx
  · exact Or.inl hx
  · split at hx
    · rcases List.mem_append.mp hx with h1 | h1
      · rcases List.mem_append.mp h1 with h2 | h2
        · exact Or.inr (List.eq_of_mem_replicate h2)
        · exact Or.inl h2
      · exact Or.inr (List.eq_of_mem_replicate h1)
    · split at hx
      · rcases List.mem_append.mp hx with h1 | h1
        · exact Or.inr (List.eq_of_mem_replicate h1)
        · exact Or.inl h1
      · rcases List.mem_append.mp hx with h1 | h1
        · exact Or.inl h1
        · exact Or.inr (List.eq_of_mem_replicate h1)

theorem le_foldl_max {α : Type _} (f : α → Nat) :
    ∀ (l : List α) (a : Nat), (a ≤ l.foldl (fun acc c => max acc (f c)) a) ∧
      (∀ x ∈ l, f x ≤ l.foldl (fun acc c => max acc (f c)) a)
  | [], a => ⟨le_rfl, by simp⟩
  | c :: l, a => by
    rw [List.foldl_cons]
    have ih := le_foldl_max f l (max a (f c))
    refine ⟨le_trans (le_max_left a (f c)) ih.1, ?_⟩
    intro x hx
    rcases List.mem_cons.mp hx with h | h
    · exact le_trans (h ▸ le_max_right a (f c)) ih.1
    · exact ih.2 x h

theorem zip_self_map {α β γ : Type _} (g : α × β → γ) :
    ∀ (as_ : List α) (bs : List β),
      as_.zip ((as_.zip bs).map g) = (as_.zip bs).map (fun p => (p.1, g p))
  | [], _ => rfl
  | _ :: _, [] => rfl
  | a :: as_, b :: bs => by
    simp only [List.zip_cons_cons, List.map_cons]
    rw [zip_self_map g as_ bs]

theorem zip_map_zip {α β γ δ : Type _} (g : α × β × γ → δ) :
    ∀ (as_ : List α) (bs : List β) (cs : List γ),
      bs.length = as_.length → cs.length = as_.length →
      as_.zip (((as_.zip (bs.zip cs)).map g).zip cs) =
        (as_.zip (bs.zip cs)).map (fun p => (p.1, (g p, p.2.2))) := by
  intro as_
  induction as_ with
  | nil => intro bs cs h1 h2; simp
  | cons a as_ ih =>
    intro bs cs h1 h2
    cases bs with
    | nil => simp at h1
    | cons b bs =>
      cases cs with
      | nil => simp at h2
      | cons c cs =>
        simp only [List.zip_cons_cons, List.map_cons]
        rw [ih bs cs (by simpa using h1) (by simpa using h2)]

theorem flatten_two_seg_width {γ : Type _} (a b : γ → Str) :
    ∀ L : List γ, (∀ p ∈ L, raw_width (b p) = 1) →
      raw_width (L.flatMap (fun p => [a p, b p])).flatten =
        (L.map (fun p => raw_width (a p))).sum + L.length
  | [], _ => rfl
  | x :: L, h => by
    rw [List.flatMap_cons, List.flatten_append, raw_width_append,
      flatten_two_seg_width a b L (fun p hp => h p (List.mem_cons_of_mem x hp))]
    have hx := h x (List.mem_cons_self x L)
    simp only [List.flatten, List.map_cons, List.sum_cons, List.length_cons,
      raw_width_append]
    rw [show raw_width [] = 0 from rfl, hx]
    push_cast
    ring

theorem flatten_one_seg_width {γ : Type _} (a : γ → Str) :
    ∀ L : List γ, raw_width (L.flatMap (fun p => [a p])).flatten =
      (L.map (fun p => raw_width (a p))).sum
  | [] => rfl
  | x :: L => by
    rw [List.flatMap_cons, List.flatten_append, raw_width_append,
      flatten_one_seg_width a L]
    simp only [List.flatten, List.map_cons, List.sum_cons, raw_width_append]
    rw [show raw_width [] = 0 from rfl]
    ring

theorem getLast?_flatMap_two {γ : Type _} (a b : γ → Str) :
    ∀ (L : List γ) (hL : L ≠ []),
      (L.flatMap (fun p => [a p, b p])).getLast? = some (b (L.getLast hL))
  | [], hL => absurd rfl hL
  | [x], _ => by simp
  | x :: y :: L, _ => by
    rw [List.flatMap_cons, List.getLast?_append,
      getLast?_flatMap_two a b (y :: L) (by simp)]
    simp [List.getLast_cons]

theorem dropLast_append_width (bits : List Str) (v : Str) (hne : bits ≠ [])
    (hlast : raw_width (bits.getLast hne) = 1) (hv : raw_width v = 1) :
    raw_width (bits.dropLast ++ [v]).flatten = raw_width bits.flatten := by
  conv_rhs => rw [← List.dropLast_append_getLast hne]
  rw [List.flatten_append, List.flatten_append, raw_width_append, raw_width_append]
  simp only [List.flatten, raw_width_append]
  rw [show raw_width [] = 0 from rfl, hlast, hv]

theorem not_esc_flatten {bits : List Str} (h : ∀ b ∈ bits, escChar ∉ b) :
    escChar ∉ bits.flatten := by
  intro hmem
  rcases List.mem_flatten.mp hmem with ⟨b, hb, hc⟩
  exact h b hb hc

end PTable

namespace PTable

theorem raw_width_flatten_replicate (s : Str) : ∀ m : Nat,
    raw_width (List.replicate m s).flatten = (m : Int) * raw_width s
  | 0 => by simp [raw_width]
  | m + 1 => by
    rw [List.replicate_succ, List.flatten_cons, raw_width_append,
      raw_width_flatten_replicate s m]
    push_cast
    ring

theorem str_repeat_width {s : Str} {k : Int} (hk : 0 ≤ k) (hs : raw_width s = 1) :
    raw_width (str_repeat s k) = k := by
  rw [str_repeat, raw_width_flatten_replicate, hs, mul_one, Int.toNat_of_nonneg hk]

theorem mem_str_repeat {s : Str} {k : Int} {c : Char} (h : c ∈ str_repeat s k) : c ∈ s := by
  rw [str_repeat] at h
  rcases List.mem_flatten.mp h with ⟨b, hb, hc⟩
  rw [List.eq_of_mem_replicate hb] at hc
  exact hc

theorem field_skip_none {o : Options} (h : o.fields = none) (f : Str) :
    field_skip o f = false := by simp [field_skip, h]

theorem zip_sum_width (fn : List Str) (ws : List Int) (P Q : Int)
    (hlen : ws.length = fn.length) :
    ((fn.zip ws).map (fun p => p.2 + P + Q)).sum = (ws.map (fun w => w + P + Q)).sum := by
  rw [show (fun p : Str × Int => p.2 + P + Q) = ((fun w => w + P + Q) ∘ Prod.snd) from rfl,
    ← List.map_map, List.map_snd_zip fn ws (le_of_eq hlen)]

theorem zip_ne_nil {fn : List Str} {ws : List Int} (hfe : fn ≠ [])
    (hlen : ws.length = fn.length) : fn.zip ws ≠ [] := by
  intro h
  have hl := congrArg List.length h
  rw [List.length_zip, hlen, Nat.min_self, List.length_nil] at hl
  exact hfe (List.eq_nil_of_length_eq_zero hl)

/-- The common display width of a physical line of a table rendered with
column widths `ws`: one bar per border/interior separator (when the border is
on) plus, per column, the committed width and the two padding widths. -/
def table_line_width (t : RTable) (o : Options) (ws : List Int) : Int :=
  (if o.border then (t.field_names.length : Int) + 1 else 0) +
    (ws.map (fun w => w + ((get_padding_widths o).1 : Int) +
      ((get_padding_widths o).2 : Int))).sum

theorem bits_core_width (t : RTable) (o : Options) (ws : List Int) (first sep : Str)
    (A : Str × Int → Str)
    (hlen : ws.length = t.field_names.length)
    (hfirst : raw_width first = 1) (hsep : raw_width sep = 1)
    (hA : ∀ p ∈ t.field_names.zip ws,
      raw_width (A p) = p.2 + ((get_padding_widths o).1 : Int) +
        ((get_padding_widths o).2 : Int)) :
    raw_width (([first] ++ (t.field_names.zip ws).flatMap (fun p => [A p, sep])).flatten) =
      (t.field_names.length : Int) + 1 +
        (ws.map (fun w => w + ((get_padding_widths o).1 : Int) +
          ((get_padding_widths o).2 : Int))).sum := by
  rw [List.flatten_append, raw_width_append]
  have h2 := flatten_two_seg_width A (fun _ => sep) (t.field_names.zip ws)
    (fun p _ => hsep)
  simp only at h2
  rw [h2, List.map_congr_left hA, zip_sum_width _ _ _ _ hlen, List.length_zip, hlen,
    Nat.min_self]
  have hfl : raw_width ([first].flatten) = 1 := by
    simp only [List.flatten, raw_width_append]
    rw [show raw_width [] = 0 from rfl, hfirst]
    omega
  rw [hfl]
  omega

theorem bits_core_width_nb (t : RTable) (o : Options) (ws : List Int)
    (A : Str × Int → Str)
    (hlen : ws.length = t.field_names.length)
    (hA : ∀ p ∈ t.field_names.zip ws,
      raw_width (A p) = p.2 + ((get_padding_widths o).1 : Int) +
        ((get_padding_widths o).2 : Int)) :
    raw_width (((t.field_names.zip ws).flatMap (fun p => [A p])).flatten) =
      (ws.map (fun w => w + ((get_padding_widths o).1 : Int) +
        ((get_padding_widths o).2 : Int))).sum := by
  rw [flatten_one_seg_width A, List.map_congr_left hA, zip_sum_width _ _ _ _ hlen]

theorem getLast_first_flatMap {first sep : Str} {A : Str × Int → Str}
    {L : List (Str × Int)} (hL : L ≠ [])
    (hne : ([first] ++ L.flatMap (fun p => [A p, sep])) ≠ []) :
    ([first] ++ L.flatMap (fun p => [A p, sep])).getLast hne = sep := by
  have h1 := getLast?_flatMap_two A (fun _ => sep) L hL
  simp only at h1
  have h2 : ([first] ++ L.flatMap (fun p => [A p, sep])).getLast? = some sep := by
    rw [List.getLast?_append, h1]
    rfl
  rw [List.getLast?_eq_getLast _ hne] at h2
  exact Option.some.inj h2

end PTable

namespace PTable

theorem mem_first_flatMap_two {γ : Type _} {first sep : Str} {A : γ → Str} {L : List γ}
    {b : Str} (hb : b ∈ [first] ++ L.flatMap (fun p => [A p, sep])) :
    b = first ∨ b = sep ∨ ∃ p ∈ L, b = A p := by
  rcases List.mem_append.mp hb with h | h
  · exact Or.inl (List.mem_singleton.mp h)
  · rcases List.mem_flatMap.mp h with ⟨p, hp, hmm⟩
    rcases List.mem_cons.mp hmm with h1 | h1
    · exact Or.inr (Or.inr ⟨p, hp, h1⟩)
    · rw [List.mem_singleton] at h1
      exact Or.inr (Or.inl h1)

theorem stringify_hrule_width (t : RTable) (o : Options) (ws : List Int)
    (hfe : t.field_names ≠ []) (hb : o.border = true) (hfields : o.fields = none)
    (hlen : ws.length = t.field_names.length) (hwnn : ∀ w ∈ ws, 0 ≤ w)
    (hh : char_ok o.horizontal_char) (hj : char_ok o.junction_char) :
    raw_width (stringify_hrule t o ws) = table_line_width t o ws ∧
      escChar ∉ stringify_hrule t o ws := by
  have hskip := field_skip_none hfields
  have hA : ∀ p ∈ t.field_names.zip ws,
      raw_width (str_repeat o.horizontal_char
        (p.2 + ((get_padding_widths o).1 : Int) + ((get_padding_widths o).2 : Int))) =
        p.2 + ((get_padding_widths o).1 : Int) + ((get_padding_widths o).2 : Int) := by
    intro p hp
    rcases p with ⟨f, wv⟩
    have hw := hwnn wv (List.of_mem_zip hp).2
    exact str_repeat_width (by simp only; omega) (char_ok_raw hh)
  have hAesc : ∀ p : Str × Int, escChar ∉ str_repeat o.horizontal_char
      (p.2 + ((get_padding_widths o).1 : Int) + ((get_padding_widths o).2 : Int)) :=
    fun p hmem => hh.2.1 (mem_str_repeat hmem)
  have hLne : t.field_names.zip ws ≠ [] := zip_ne_nil hfe hlen
  have htlw : table_line_width t o ws =
      (t.field_names.length : Int) + 1 + (ws.map (fun w =>
        w + ((get_padding_widths o).1 : Int) + ((get_padding_widths o).2 : Int))).sum := by
    rw [table_line_width, hb]
    simp
  simp only [stringify_hrule, hskip, Bool.false_eq_true, if_false]
  rw [if_neg (by simp [hb]), if_neg (by simp [List.isEmpty_iff, hfe])]
  cases hvr : o.vrules with
  | ALL =>
    rw [if_neg (show ¬(Rules.ALL = Rules.FRAME) from by decide),
      if_pos (show Rules.ALL = Rules.ALL ∨ Rules.ALL = Rules.FRAME from by decide),
      if_pos (show Rules.ALL = Rules.ALL from rfl)]
    constructor
    · rw [htlw]
      exact bits_core_width t o ws o.junction_char o.junction_char _ hlen
        (char_ok_raw hj) (char_ok_raw hj) hA
    · apply not_esc_flatten
      intro b hbm
      rcases mem_first_flatMap_two hbm with h | h | ⟨p, _, h⟩
      · exact h ▸ hj.2.1
      · exact h ▸ hj.2.1
      · exact h ▸ hAesc p
  | FRAME =>
    rw [if_pos (show Rules.FRAME = Rules.FRAME from rfl),
      if_pos (show Rules.FRAME = Rules.ALL ∨ Rules.FRAME = Rules.FRAME from by decide),
      if_neg (show ¬(Rules.FRAME = Rules.ALL) from by decide)]
    have hne : ([o.junction_char] ++ (t.field_names.zip ws).flatMap (fun p =>
        [str_repeat o.horizontal_char (p.2 + ((get_padding_widths o).1 : Int) +
          ((get_padding_widths o).2 : Int)), o.horizontal_char])) ≠ [] := by simp
    have hlast := @getLast_first_flatMap o.junction_char o.horizontal_char _ _ hLne hne
    constructor
    · rw [dropLast_append_width _ _ hne (by rw [hlast]; exact char_ok_raw hh)
        (char_ok_raw hj), htlw]
      exact bits_core_width t o ws o.junction_char o.horizontal_char _ hlen
        (char_ok_raw hj) (char_ok_raw hh) hA
    · apply not_esc_flatten
      intro b hbm
      rcases List.mem_append.mp hbm with h | h
      · rcases mem_first_flatMap_two ((List.dropLast_sublist _).subset h) with
          h1 | h1 | ⟨p, _, h1⟩
        · exact h1 ▸ hj.2.1
        · exact h1 ▸ hh.2.1
        · exact h1 ▸ hAesc p
      · rw [List.mem_singleton] at h
        exact h ▸ hj.2.1
  | HEADER =>
    rw [if_neg (show ¬(Rules.HEADER = Rules.FRAME) from by decide),
      if_neg (show ¬(Rules.HEADER = Rules.ALL ∨ Rules.HEADER = Rules.FRAME) from by decide),
      if_neg (show ¬(Rules.HEADER = Rules.ALL) from by decide)]
    constructor
    · rw [htlw]
      exact bits_core_width t o ws o.horizontal_char o.horizontal_char _ hlen
        (char_ok_raw hh) (char_ok_raw hh) hA
    · apply not_esc_flatten
      intro b hbm
      rcases mem_first_flatMap_two hbm with h | h | ⟨p, _, h⟩
      · exact h ▸ hh.2.1
      · exact h ▸ hh.2.1
      · exact h ▸ hAesc p
  | NONE =>
    rw [if_neg (show ¬(Rules.NONE = Rules.FRAME) from by decide),
      if_neg (show ¬(Rules.NONE = Rules.ALL ∨ Rules.NONE = Rules.FRAME) from by decide),
      if_neg (show ¬(Rules.NONE = Rules.ALL) from by decide)]
    constructor
    · rw [htlw]
      exact bits_core_width t o ws o.horizontal_char o.horizontal_char _ hlen
        (char_ok_raw hh) (char_ok_raw hh) hA
    · apply not_esc_flatten
      intro b hbm
      rcases mem_first_flatMap_two hbm with h | h | ⟨p, _, h⟩
      · exact h ▸ hh.2.1
      · exact h ▸ hh.2.1
      · exact h ▸ hAesc p

end PTable

namespace PTable

theorem raw_width_space_single : raw_width [' '] = 1 := by decide

theorem esc_not_space : escChar ≠ ' ' := by decide

theorem bits_core_width_cons (t : RTable) (o : Options) (ws : List Int) (first sep : Str)
    (A : Str × Int → Str)
    (hlen : ws.length = t.field_names.length)
    (hfirst : raw_width first = 1) (hsep : raw_width sep = 1)
    (hA : ∀ p ∈ t.field_names.zip ws,
      raw_width (A p) = p.2 + ((get_padding_widths o).1 : Int) +
        ((get_padding_widths o).2 : Int)) :
    raw_width ((first :: (t.field_names.zip ws).flatMap (fun p => [A p, sep])).flatten) =
      (t.field_names.length : Int) + 1 +
        (ws.map (fun w => w + ((get_padding_widths o).1 : Int) +
          ((get_padding_widths o).2 : Int))).sum :=
  bits_core_width t o ws first sep A hlen hfirst hsep hA

theorem getLast_cons_flatMap {first sep : Str} {A : Str × Int → Str}
    {L : List (Str × Int)} (hL : L ≠ [])
    (hne : (first :: L.flatMap (fun p => [A p, sep])) ≠ []) :
    (first :: L.flatMap (fun p => [A p, sep])).getLast hne = sep :=
  getLast_first_flatMap hL hne

theorem mem_cons_flatMap_two {γ : Type _} {first sep : Str} {A : γ → Str} {L : List γ}
    {b : Str} (hb : b ∈ first :: L.flatMap (fun p => [A p, sep])) :
    b = first ∨ b = sep ∨ ∃ p ∈ L, b = A p :=
  mem_first_flatMap_two hb

theorem stringify_header_line_width (t : RTable) (o : Options) (ws : List Int)
    (hrule : Str)
    (hfe : t.field_names ≠ []) (hfields : o.fields = none)
    (hstyle : t.header_style_attr = none)
    (hlen : ws.length = t.field_names.length)
    (hfok : ∀ f ∈ t.field_names, line_ok f)
    (hfit : ∀ p ∈ t.field_names.zip ws, str_block_width p.1 ≤ p.2)
    (hv : char_ok o.vertical_char) :
    ∀ l ∈ stringify_header t o ws hrule,
      (o.border = true ∧ l = hrule) ∨
        (raw_width l = table_line_width t o ws ∧ escChar ∉ l) := by
  have hskip := field_skip_none hfields
  have hLne : t.field_names.zip ws ≠ [] := zip_ne_nil hfe hlen
  have hA : ∀ p ∈ t.field_names.zip ws,
      raw_width (List.replicate (get_padding_widths o).1 ' ' ++
        justify p.1 p.2 (t.align p.1) ++ List.replicate (get_padding_widths o).2 ' ') =
        p.2 + ((get_padding_widths o).1 : Int) + ((get_padding_widths o).2 : Int) := by
    intro p hp
    rcases p with ⟨f, wv⟩
    have hf := hfok f (List.of_mem_zip hp).1
    rw [raw_width_append, raw_width_append, raw_width_replicate_space,
      raw_width_replicate_space,
      justify_width (t.align f) (line_ok_no_esc hf) (hfit ⟨f, wv⟩ hp)]
    ring
  have hAesc : ∀ p ∈ t.field_names.zip ws,
      escChar ∉ (List.replicate (get_padding_widths o).1 ' ' ++
        justify p.1 p.2 (t.align p.1) ++ List.replicate (get_padding_widths o).2 ' ') := by
    intro p hp hmem
    rcases p with ⟨f, wv⟩
    have hf := hfok f (List.of_mem_zip hp).1
    rcases List.mem_append.mp hmem with h | h
    · rcases List.mem_append.mp h with h2 | h2
      · exact esc_not_space (List.eq_of_mem_replicate h2)
      · rcases justify_mem h2 with h3 | h3
        · exact line_ok_no_esc hf h3
        · exact esc_not_space h3
    · exact esc_not_space (List.eq_of_mem_replicate h)
  intro l hl
  simp only [stringify_header, hskip, hstyle, header_transform, Bool.false_eq_true,
    if_false] at hl
  rw [if_neg (show ¬(t.field_names.isEmpty = true) from by
    simp [List.isEmpty_iff, hfe])] at hl
  simp only [List.append_nil] at hl
  rcases List.mem_append.mp hl with hmid | hpost
  · rcases List.mem_append.mp hmid with hpre | hmid
    · by_cases hp : o.border = true ∧ (o.hrules = Rules.ALL ∨ o.hrules = Rules.FRAME)
      · rw [if_pos hp, List.mem_singleton] at hpre
        exact Or.inl ⟨hp.1, hpre⟩
      · rw [if_neg hp] at hpre
        cases hpre
    · rw [List.mem_singleton] at hmid
      subst hmid
      refine Or.inr ?_
      by_cases hbor : o.border = true
      · have htlw : table_line_width t o ws =
            (t.field_names.length : Int) + 1 + (ws.map (fun w =>
              w + ((get_padding_widths o).1 : Int) +
                ((get_padding_widths o).2 : Int))).sum := by
          rw [table_line_width, hbor]
          simp
        simp only [hbor, eq_self_iff_true, if_true, true_and, List.singleton_append]
        cases hvr : o.vrules with
        | ALL =>
          rw [if_neg (show ¬(Rules.ALL = Rules.FRAME) from by decide),
            if_pos (show Rules.ALL = Rules.ALL ∨ Rules.ALL = Rules.FRAME from by decide),
            if_pos (show Rules.ALL = Rules.ALL from rfl)]
          constructor
          · rw [htlw]
            exact bits_core_width_cons t o ws o.vertical_char o.vertical_char _ hlen
              (char_ok_raw hv) (char_ok_raw hv) hA
          · apply not_esc_flatten
            intro b hbm
            rcases mem_cons_flatMap_two hbm with h | h | ⟨p, hp, h⟩
            · exact h ▸ hv.2.1
            · exact h ▸ hv.2.1
            · exact h ▸ hAesc p hp
        | FRAME =>
          rw [if_pos (show Rules.FRAME = Rules.FRAME from rfl),
            if_pos (show Rules.FRAME = Rules.ALL ∨ Rules.FRAME = Rules.FRAME
              from by decide),
            if_neg (show ¬(Rules.FRAME = Rules.ALL) from by decide)]
          have hne : (o.vertical_char :: (t.field_names.zip ws).flatMap (fun p =>
              [List.replicate (get_padding_widths o).1 ' ' ++
                justify p.1 p.2 (t.align p.1) ++
                List.replicate (get_padding_widths o).2 ' ', [' ']])) ≠ [] := by simp
          have hlast := @getLast_cons_flatMap o.vertical_char [' '] _ _ hLne hne
          constructor
          · rw [dropLast_append_width _ _ hne (by rw [hlast]; exact raw_width_space_single)
              (char_ok_raw hv), htlw]
            exact bits_core_width_cons t o ws o.vertical_char [' '] _ hlen
              (char_ok_raw hv) raw_width_space_single hA
          · apply not_esc_flatten
            intro b hbm
            rcases List.mem_append.mp hbm with h | h
            · rcases mem_cons_flatMap_two ((List.dropLast_sublist _).subset h) with
                h1 | h1 | ⟨p, hp, h1⟩
              · exact h1 ▸ hv.2.1
              · subst h1
                exact fun hc => esc_not_space (List.mem_singleton.mp hc)
              · exact h1 ▸ hAesc p hp
            · rw [List.mem_singleton] at h
              exact h ▸ hv.2.1
        | HEADER =>
          rw [if_neg (show ¬(Rules.HEADER = Rules.FRAME) from by decide),
            if_neg (show ¬(Rules.HEADER = Rules.ALL ∨ Rules.HEADER = Rules.FRAME)
              from by decide),
            if_neg (show ¬(Rules.HEADER = Rules.ALL) from by decide)]
          constructor
          · rw [htlw]
            exact bits_core_width_cons t o ws [' '] [' '] _ hlen
              raw_width_space_single raw_width_space_single hA
          · apply not_esc_flatten
            intro b hbm
            rcases mem_cons_flatMap_two hbm with h | h | ⟨p, hp, h⟩
            · subst h
              exact fun hc => esc_not_space (List.mem_singleton.mp hc)
            · subst h
              exact fun hc => esc_not_space (List.mem_singleton.mp hc)
            · exact h ▸ hAesc p hp
        | NONE =>
          rw [if_neg (show ¬(Rules.NONE = Rules.FRAME) from by decide),
            if_neg (show ¬(Rules.NONE = Rules.ALL ∨ Rules.NONE = Rules.FRAME)
              from by decide),
            if_neg (show ¬(Rules.NONE = Rules.ALL) from by decide)]
          constructor
          · rw [htlw]
            exact bits_core_width_cons t o ws [' '] [' '] _ hlen
              raw_width_space_single raw_width_space_single hA
          · apply not_esc_flatten
            intro b hbm
            rcases mem_cons_flatMap_two hbm with h | h | ⟨p, hp, h⟩
            · subst h
              exact fun hc => esc_not_space (List.mem_singleton.mp hc)
            · subst h
              exact fun hc => esc_not_space (List.mem_singleton.mp hc)
            · exact h ▸ hAesc p hp
      · have hbf : o.border = false := by
          cases hob : o.border
          · rfl
          · exact absurd hob hbor
        have htlw : table_line_width t o ws =
            (ws.map (fun w => w + ((get_padding_widths o).1 : Int) +
              ((get_padding_widths o).2 : Int))).sum := by
          rw [table_line_width, hbf]
          simp
        simp only [hbf, Bool.false_eq_true, if_false, false_and, List.nil_append,
          List.append_nil]
        constructor
        · rw [htlw]
          exact bits_core_width_nb t o ws _ hlen hA
        · apply not_esc_flatten
          intro b hbm
          rcases List.mem_flatMap.mp hbm with ⟨p, hp, hmm⟩
          rw [List.mem_singleton] at hmm
          exact hmm ▸ hAesc p hp
  · by_cases hp : o.border = true ∧ o.hrules ≠ Rules.NONE
    · rw [if_pos hp, List.mem_singleton] at hpost
      exact Or.inl ⟨hp.1, hpost⟩
    · rw [if_neg hp] at hpost
      cases hpost

end PTable

namespace PTable

theorem zip3_sum_width (fn : List Str) (row : List Str) (ws : List Int) (P Q : Int)
    (hlen : ws.length = fn.length) (hrlen : row.length = fn.length) :
    ((fn.zip (row.zip ws)).map (fun p => p.2.2 + P + Q)).sum =
      (ws.map (fun w => w + P + Q)).sum := by
  have h1 : ((fn.zip (row.zip ws)).map (fun p => p.2.2 + P + Q)) =
      ((fn.zip (row.zip ws)).map Prod.snd).map (fun q : Str × Int => q.2 + P + Q) := by
    rw [List.map_map]
    rfl
  rw [h1, List.map_snd_zip fn (row.zip ws)
    (by rw [List.length_zip, hrlen, hlen, Nat.min_self])]
  have h2 : ((row.zip ws).map (fun q : Str × Int => q.2 + P + Q)) =
      ((row.zip ws).map Prod.snd).map (fun w : Int => w + P + Q) := by
    rw [List.map_map]
    rfl
  rw [h2, List.map_snd_zip row ws (le_of_eq (hlen.trans hrlen.symm))]

theorem getLast_cons_flatMap3 {γ : Type _} {first sep : Str} {A : γ → Str} {L : List γ}
    (hL : L ≠ []) (hne : (first :: L.flatMap (fun p => [A p, sep])) ≠ []) :
    (first :: L.flatMap (fun p => [A p, sep])).getLast hne = sep := by
  have h1 := getLast?_flatMap_two A (fun _ => sep) L hL
  simp only at h1
  have h2 : (first :: L.flatMap (fun p => [A p, sep])).getLast? = some sep := by
    rw [show (first :: L.flatMap (fun p => [A p, sep])) =
      [first] ++ L.flatMap (fun p => [A p, sep]) from rfl, List.getLast?_append, h1]
    rfl
  rw [List.getLast?_eq_getLast _ hne] at h2
  exact Option.some.inj h2

theorem bits_core_width3 (t : RTable) (o : Options) (row : List Str) (ws : List Int)
    (first sep : Str) (A : Str × Str × Int → Str)
    (hlen : ws.length = t.field_names.length)
    (hrlen : row.length = t.field_names.length)
    (hfirst : raw_width first = 1) (hsep : raw_width sep = 1)
    (hA : ∀ p ∈ t.field_names.zip (row.zip ws),
      raw_width (A p) = p.2.2 + ((get_padding_widths o).1 : Int) +
        ((get_padding_widths o).2 : Int)) :
    raw_width ((first :: (t.field_names.zip (row.zip ws)).flatMap
        (fun p => [A p, sep])).flatten) =
      (t.field_names.length : Int) + 1 +
        (ws.map (fun w => w + ((get_padding_widths o).1 : Int) +
          ((get_padding_widths o).2 : Int))).sum := by
  rw [show (first :: (t.field_names.zip (row.zip ws)).flatMap (fun p => [A p, sep])) =
    [first] ++ (t.field_names.zip (row.zip ws)).flatMap (fun p => [A p, sep]) from rfl]
  rw [List.flatten_append, raw_width_append]
  have h2 := flatten_two_seg_width A (fun _ => sep) (t.field_names.zip (row.zip ws))
    (fun p _ => hsep)
  simp only at h2
  rw [h2, List.map_congr_left hA, zip3_sum_width t.field_names row ws _ _ hlen hrlen,
    List.length_zip, List.length_zip, hrlen, hlen, Nat.min_self, Nat.min_self]
  have hfl : raw_width ([first].flatten) = 1 := by
    simp only [List.flatten, raw_width_append]
    rw [show raw_width [] = 0 from rfl, hfirst]
    omega
  rw [hfl]
  omega

theorem bits_core_width3_nb (t : RTable) (o : Options) (row : List Str) (ws : List Int)
    (A : Str × Str × Int → Str)
    (hlen : ws.length = t.field_names.length)
    (hrlen : row.length = t.field_names.length)
    (hA : ∀ p ∈ t.field_names.zip (row.zip ws),
      raw_width (A p) = p.2.2 + ((get_padding_widths o).1 : Int) +
        ((get_padding_widths o).2 : Int)) :
    raw_width (((t.field_names.zip (row.zip ws)).flatMap (fun p => [A p])).flatten) =
      (ws.map (fun w => w + ((get_padding_widths o).1 : Int) +
        ((get_padding_widths o).2 : Int))).sum := by
  rw [flatten_one_seg_width A, List.map_congr_left hA,
    zip3_sum_width t.field_names row ws _ _ hlen hrlen]

end PTable

namespace PTable

theorem row_body_width (t : RTable) (o : Options) (row : List Str) (ws : List Int)
    (RH y : Nat)
    (hfe : t.field_names ≠ []) (hfields : o.fields = none)
    (hlen : ws.length = t.field_names.length)
    (hrlen : row.length = t.field_names.length)
    (hwnn : ∀ w ∈ ws, 0 ≤ w)
    (hcells : ∀ c ∈ row, cell_ok c)
    (hwr : ∀ p ∈ row.zip ws, ∀ line ∈ split_nl p.1,
      str_block_width line > p.2 → 1 ≤ p.2)
    (hva : char_ok t.vertical_char_attr) (hvo : char_ok o.vertical_char)
    (hy : y < RH)
    (hRHb : ∀ p ∈ t.field_names.zip (row.zip ws),
      (split_nl (wrap_cell p.2.2 p.2.1)).length ≤ RH) :
    let seg : Str × Str × Int → Str := fun p =>
      ((valign_pad (t.valign p.1) RH (split_nl (wrap_cell p.2.2 p.2.1))).map
        (fun l2 => List.replicate (get_padding_widths o).1 ' ' ++
          justify l2 p.2.2 (t.align p.1) ++
          List.replicate (get_padding_widths o).2 ' ')).getD y []
    let bits :=
      (if o.border = true then
        [if o.vrules = Rules.ALL ∨ o.vrules = Rules.FRAME then t.vertical_char_attr
         else [' ']] else []) ++
        (t.field_names.zip (row.zip ws)).flatMap (fun p =>
          [seg p] ++ (if o.border = true then
            [if o.vrules = Rules.ALL then t.vertical_char_attr else [' ']] else []))
    let line := (if o.border = true ∧ o.vrules = Rules.FRAME then
        bits.dropLast ++ [o.vertical_char] else bits).flatten
    raw_width line = table_line_width t o ws ∧ escChar ∉ line := by
  have hLne : t.field_names.zip (row.zip ws) ≠ [] := by
    intro h
    have hlz := congrArg List.length h
    rw [List.length_zip, List.length_zip, hrlen, hlen, Nat.min_self, Nat.min_self,
      List.length_nil] at hlz
    exact hfe (List.eq_nil_of_length_eq_zero hlz)
  have hkey : ∀ p ∈ t.field_names.zip (row.zip ws),
      raw_width (((valign_pad (t.valign p.1) RH (split_nl (wrap_cell p.2.2 p.2.1))).map
        (fun l2 => List.replicate (get_padding_widths o).1 ' ' ++
          justify l2 p.2.2 (t.align p.1) ++
          List.replicate (get_padding_widths o).2 ' ')).getD y []) =
          p.2.2 + ((get_padding_widths o).1 : Int) + ((get_padding_widths o).2 : Int) ∧
      escChar ∉ (((valign_pad (t.valign p.1) RH (split_nl (wrap_cell p.2.2 p.2.1))).map
        (fun l2 => List.replicate (get_padding_widths o).1 ' ' ++
          justify l2 p.2.2 (t.align p.1) ++
          List.replicate (get_padding_widths o).2 ' ')).getD y []) := by
    intro p hp
    obtain ⟨f, v, wv⟩ := p
    obtain ⟨hfmem, hvw⟩ := List.of_mem_zip hp
    obtain ⟨hvmem, hwmem⟩ := List.of_mem_zip hvw
    dsimp only
    have hcv : cell_ok v := hcells v hvmem
    have hw0 : 0 ≤ wv := hwnn wv hwmem
    have hwrap := wrap_cell_lines_ok hcv hw0 (hwr (v, wv) hvw)
    have hle : (split_nl (wrap_cell wv v)).length ≤ RH := hRHb (f, v, wv) hp
    have hplen : (valign_pad (t.valign f) RH (split_nl (wrap_cell wv v))).length = RH :=
      valign_pad_length _ _ _ hle
    have hmlen : y < ((valign_pad (t.valign f) RH (split_nl (wrap_cell wv v))).map
        (fun l2 => List.replicate (get_padding_widths o).1 ' ' ++
          justify l2 wv (t.align f) ++
          List.replicate (get_padding_widths o).2 ' ')).length := by
      rw [List.length_map, hplen]
      exact hy
    rw [List.getD_eq_getElem?_getD, List.getElem?_eq_getElem hmlen]
    simp only [Option.getD_some, List.getElem_map]
    have hyp : y < (valign_pad (t.valign f) RH (split_nl (wrap_cell wv v))).length := by
      rw [hplen]
      exact hy
    have hel := List.getElem_mem hyp
    rcases valign_pad_mem hel with hmem | hmem
    · have hq := hwrap _ hmem
      constructor
      · rw [raw_width_append, raw_width_append, raw_width_replicate_space,
          raw_width_replicate_space,
          justify_width (t.align f) (line_ok_no_esc hq.1)
            (by rw [sbw_of_line_ok hq.1]; exact hq.2)]
        ring
      · intro hcc
        rcases List.mem_append.mp hcc with h | h
        · rcases List.mem_append.mp h with h2 | h2
          · exact esc_not_space (List.eq_of_mem_replicate h2)
          · rcases justify_mem h2 with h3 | h3
            · exact line_ok_no_esc hq.1 h3
            · exact esc_not_space h3
        · exact esc_not_space (List.eq_of_mem_replicate h)
    · rw [hmem]
      constructor
      · rw [raw_width_append, raw_width_append, raw_width_replicate_space,
          raw_width_replicate_space,
          justify_width (t.align f) (by simp)
            (by rw [show str_block_width [] = 0 from rfl]; exact hw0)]
        ring
      · intro hcc
        rcases List.mem_append.mp hcc with h | h
        · rcases List.mem_append.mp h with h2 | h2
          · exact esc_not_space (List.eq_of_mem_replicate h2)
          · rcases justify_mem h2 with h3 | h3
            · cases h3
            · exact esc_not_space h3
        · exact esc_not_space (List.eq_of_mem_replicate h)
  have hkA := fun p hp => (hkey p hp).1
  have hkE := fun p hp => (hkey p hp).2
  dsimp only
  by_cases hbor : o.border = true
  · have htlw : table_line_width t o ws =
        (t.field_names.length : Int) + 1 + (ws.map (fun w =>
          w + ((get_padding_widths o).1 : Int) +
            ((get_padding_widths o).2 : Int))).sum := by
      rw [table_line_width, hbor]
      simp
    simp only [hbor, eq_self_iff_true, if_true, true_and, List.singleton_append]
    cases hvr : o.vrules with
    | ALL =>
      rw [if_neg (show ¬(Rules.ALL = Rules.FRAME) from by decide),
        if_pos (show Rules.ALL = Rules.ALL ∨ Rules.ALL = Rules.FRAME from by decide),
        if_pos (show Rules.ALL = Rules.ALL from rfl)]
      constructor
      · rw [htlw]
        exact bits_core_width3 t o row ws t.vertical_char_attr t.vertical_char_attr _
          hlen hrlen (char_ok_raw hva) (char_ok_raw hva) hkA
      · apply not_esc_flatten
        intro b hbm
        rcases mem_cons_flatMap_two hbm with h | h | ⟨p, hp, h⟩
        · exact h ▸ hva.2.1
        · exact h ▸ hva.2.1
        · exact h ▸ hkE p hp
    | FRAME =>
      rw [if_pos (show Rules.FRAME = Rules.FRAME from rfl),
        if_pos (show Rules.FRAME = Rules.ALL ∨ Rules.FRAME = Rules.FRAME from by decide),
        if_neg (show ¬(Rules.FRAME = Rules.ALL) from by decide)]
      have hne : (t.vertical_char_attr :: (t.field_names.zip (row.zip ws)).flatMap
          (fun p => [((valign_pad (t.valign p.1) RH
              (split_nl (wrap_cell p.2.2 p.2.1))).map
            (fun l2 => List.replicate (get_padding_widths o).1 ' ' ++
              justify l2 p.2.2 (t.align p.1) ++
              List.replicate (get_padding_widths o).2 ' ')).getD y [], [' ']])) ≠ [] := by
        simp
      have hlast := @getLast_cons_flatMap3 _ t.vertical_char_attr [' '] _ _ hLne hne
      constructor
      · rw [dropLast_append_width _ _ hne (by rw [hlast]; exact raw_width_space_single)
          (char_ok_raw hvo), htlw]
        exact bits_core_width3 t o row ws t.vertical_char_attr [' '] _
          hlen hrlen (char_ok_raw hva) raw_width_space_single hkA
      · apply not_esc_flatten
        intro b hbm
        rcases List.mem_append.mp hbm with h | h
        · rcases mem_cons_flatMap_two ((List.dropLast_sublist _).subset h) with
            h1 | h1 | ⟨p, hp, h1⟩
          · exact h1 ▸ hva.2.1
          · subst h1
            exact fun hc => esc_not_space (List.mem_singleton.mp hc)
          · exact h1 ▸ hkE p hp
        · rw [List.mem_singleton] at h
          exact h ▸ hvo.2.1
    | HEADER =>
      rw [if_neg (show ¬(Rules.HEADER = Rules.FRAME) from by decide),
        if_neg (show ¬(Rules.HEADER = Rules.ALL ∨ Rules.HEADER = Rules.FRAME)
          from by decide),
        if_neg (show ¬(Rules.HEADER = Rules.ALL) from by decide)]
      constructor
      · rw [htlw]
        exact bits_core_width3 t o row ws [' '] [' '] _ hlen hrlen
          raw_width_space_single raw_width_space_single hkA
      · apply not_esc_flatten
        intro b hbm
        rcases mem_cons_flatMap_two hbm with h | h | ⟨p, hp, h⟩
        · subst h
          exact fun hc => esc_not_space (List.mem_singleton.mp hc)
        · subst h
          exact fun hc => esc_not_space (List.mem_singleton.mp hc)
        · exact h ▸ hkE p hp
    | NONE =>
      rw [if_neg (show ¬(Rules.NONE = Rules.FRAME) from by decide),
        if_neg (show ¬(Rules.NONE = Rules.ALL ∨ Rules.NONE = Rules.FRAME)
          from by decide),
        if_neg (show ¬(Rules.NONE = Rules.ALL) from by decide)]
      constructor
      · rw [htlw]
        exact bits_core_width3 t o row ws [' '] [' '] _ hlen hrlen
          raw_width_space_single raw_width_space_single hkA
      · apply not_esc_flatten
        intro b hbm
        rcases mem_cons_flatMap_two hbm with h | h | ⟨p, hp, h⟩
        · subst h
          exact fun hc => esc_not_space (List.mem_singleton.mp hc)
        · subst h
          exact fun hc => esc_not_space (List.mem_singleton.mp hc)
        · exact h ▸ hkE p hp
  · have hbf : o.border = false := by
      cases hob : o.border
      · rfl
      · exact absurd hob hbor
    have htlw : table_line_width t o ws =
        (ws.map (fun w => w + ((get_padding_widths o).1 : Int) +
          ((get_padding_widths o).2 : Int))).sum := by
      rw [table_line_width, hbf]
      simp
    simp only [hbf, Bool.false_eq_true, if_false, false_and, List.nil_append,
      List.append_nil]
    constructor
    · rw [htlw]
      exact bits_core_width3_nb t o row ws _ hlen hrlen hkA
    · apply not_esc_flatten
      intro b hbm
      rcases List.mem_flatMap.mp hbm with ⟨p, hp, hmm⟩
      rw [List.mem_singleton] at hmm
      exact hmm ▸ hkE p hp

end PTable

namespace PTable

theorem stringify_row_width (t : RTable) (o : Options) (row : List Str) (ws : List Int)
    (hrule : Str)
    (hfe : t.field_names ≠ []) (hfields : o.fields = none)
    (hlen : ws.length = t.field_names.length)
    (hrlen : row.length = t.field_names.length)
    (hwnn : ∀ w ∈ ws, 0 ≤ w)
    (hcells : ∀ c ∈ row, cell_ok c)
    (hwr : ∀ p ∈ row.zip ws, ∀ line ∈ split_nl p.1,
      str_block_width line > p.2 → 1 ≤ p.2)
    (hva : char_ok t.vertical_char_attr) (hvo : char_ok o.vertical_char) :
    ∀ l ∈ stringify_row t o row ws hrule,
      (o.border = true ∧ l = hrule) ∨
        (raw_width l = table_line_width t o ws ∧ escChar ∉ l) := by
  have hskip := field_skip_none hfields
  have hdrop : row.drop ((t.field_names.zip (row.zip ws)).map
      (fun p => wrap_cell p.2.2 p.2.1)).length = [] := by
    rw [List.length_map, List.length_zip, List.length_zip, hrlen, hlen, Nat.min_self,
      Nat.min_self, ← hrlen, List.drop_length]
  have hzz := zip_map_zip (fun p : Str × Str × Int => wrap_cell p.2.2 p.2.1)
    t.field_names row ws hrlen hlen
  have hRHb : ∀ p ∈ t.field_names.zip (row.zip ws),
      (split_nl (wrap_cell p.2.2 p.2.1)).length ≤
        ((t.field_names.zip (row.zip ws)).map
          (fun p => wrap_cell p.2.2 p.2.1)).foldl
            (fun acc c => max acc (get_size c).2) 0 := by
    intro p hp
    exact (le_foldl_max (fun c => (get_size c).2)
      ((t.field_names.zip (row.zip ws)).map (fun p => wrap_cell p.2.2 p.2.1)) 0).2
      (wrap_cell p.2.2 p.2.1) (List.mem_map_of_mem _ hp)
  intro l hl
  simp only [stringify_row, hskip, Bool.false_eq_true, if_false] at hl
  simp only [hdrop, List.append_nil] at hl
  simp only [hzz, List.map_map, zip_self_map, List.flatMap_map, Function.comp] at hl
  by_cases hba : o.border = true ∧ o.hrules = Rules.ALL
  · rw [if_pos hba] at hl
    split at hl
    · cases hl
    · rcases List.mem_append.mp hl with h | h
      · rcases List.mem_map.mp h with ⟨y, hy, rfl⟩
        exact Or.inr (row_body_width t o row ws _ y hfe hfields hlen hrlen hwnn hcells
          hwr hva hvo (List.mem_range.mp hy) hRHb)
      · rw [List.mem_singleton] at h
        exact Or.inl ⟨hba.1, h⟩
  · rw [if_neg hba] at hl
    rcases List.mem_map.mp hl with ⟨y, hy, rfl⟩
    exact Or.inr (row_body_width t o row ws _ y hfe hfields hlen hrlen hwnn hcells
      hwr hva hvo (List.mem_range.mp hy) hRHb)

end PTable

namespace PTable

theorem set_getD_mono (ws : List Int) (i : Nat) (w2 : Int) (hw2 : ws.getD i 0 ≤ w2)
    (j : Nat) : ws.getD j 0 ≤ (ws.set i w2).getD j 0 := by
  rcases eq_or_ne i j with h | h
  · subst h
    by_cases hi : i < ws.length
    · rw [List.getD_eq_getElem?_getD (ws.set i w2), List.getElem?_set_self hi]
      exact hw2
    · rw [List.set_eq_of_length_le (Nat.le_of_not_lt hi)]
  · rw [List.getD_eq_getElem?_getD (ws.set i w2), List.getElem?_set_ne h,
      ← List.getD_eq_getElem?_getD]

theorem upd_cell_width_getD_mono (t : RTable) (ws : List Int) (i : Nat) (v : Str)
    (j : Nat) : ws.getD j 0 ≤ (upd_cell_width t ws i v).getD j 0 := by
  simp only [upd_cell_width]
  apply set_getD_mono
  have h1 : ws.getD i 0 ≤ (match t.max_width_dict.lookup (t.field_names.getD i []) with
      | some m => max (ws.getD i 0) (min ((get_size v).1) ((m : Nat) : Int))
      | none => max (ws.getD i 0) ((get_size v).1)) := by
    cases t.max_width_dict.lookup (t.field_names.getD i []) with
    | none => exact le_max_left _ _
    | some m => exact le_max_left _ _
  cases hm : (min_width_prop t).lookup (t.field_names.getD i []) with
  | none => exact h1
  | some m => exact le_trans h1 (le_max_left _ _)

theorem upd_cell_width_length (t : RTable) (ws : List Int) (i : Nat) (v : Str) :
    (upd_cell_width t ws i v).length = ws.length := by
  simp [upd_cell_width]

theorem inner_fold_length (t : RTable) :
    ∀ (ps : List (Nat × Str)) (ws : List Int),
      (ps.foldl (fun ws p => upd_cell_width t ws p.1 p.2) ws).length = ws.length
  | [], _ => rfl
  | p :: ps, ws => by
    rw [List.foldl_cons, inner_fold_length t ps, upd_cell_width_length]

theorem outer_fold_length (t : RTable) :
    ∀ (rows : List (List Str)) (ws : List Int),
      (rows.foldl (fun ws row => row.enum.foldl
        (fun ws p => upd_cell_width t ws p.1 p.2) ws) ws).length = ws.length
  | [], _ => rfl
  | r :: rows, ws => by
    rw [List.foldl_cons, outer_fold_length t rows, inner_fold_length t]

theorem inner_fold_getD_mono (t : RTable) :
    ∀ (ps : List (Nat × Str)) (ws : List Int) (j : Nat),
      ws.getD j 0 ≤ (ps.foldl (fun ws p => upd_cell_width t ws p.1 p.2) ws).getD j 0
  | [], _, _ => le_rfl
  | p :: ps, ws, j => by
    rw [List.foldl_cons]
    exact le_trans (upd_cell_width_getD_mono t ws p.1 p.2 j)
      (inner_fold_getD_mono t ps _ j)

theorem outer_fold_getD_mono (t : RTable) :
    ∀ (rows : List (List Str)) (ws : List Int) (j : Nat),
      ws.getD j 0 ≤ (rows.foldl (fun ws row => row.enum.foldl
        (fun ws p => upd_cell_width t ws p.1 p.2) ws) ws).getD j 0
  | [], _, _ => le_rfl
  | r :: rows, ws, j => by
    rw [List.foldl_cons]
    exact le_trans (inner_fold_getD_mono t r.enum ws j)
      (outer_fold_getD_mono t rows _ j)

theorem base_widths_length (t : RTable) (o : Options) (rows : List (List Str)) :
    (base_widths t o rows).length = t.field_names.length := by
  rw [base_widths, outer_fold_length]
  split
  · rw [List.length_map]
  · rw [List.length_replicate]

theorem base_widths_getD_mono (t : RTable) (o : Options) (rows : List (List Str))
    (j : Nat) :
    (if o.header = true then t.field_names.map (fun f => (get_size f).1)
     else List.replicate t.field_names.length 0).getD j 0 ≤
      (base_widths t o rows).getD j 0 := by
  rw [base_widths]
  exact outer_fold_getD_mono t rows _ j

theorem get_size_fst_no_nl {f : Str} (h : '\n' ∉ f) :
    (get_size f).1 = str_block_width f := by
  simp only [get_size, split_nl_of_no_nl h, List.map_cons, List.map_nil, list_max,
    List.foldl_nil]

theorem base_widths_nonneg (t : RTable) (o : Options) (rows : List (List Str))
    (hfok : ∀ f ∈ t.field_names, line_ok f) :
    ∀ w ∈ base_widths t o rows, 0 ≤ w := by
  intro w hw
  rcases List.mem_iff_getElem.mp hw with ⟨j, hj, heq⟩
  have hjn : j < t.field_names.length := by
    rw [← base_widths_length t o rows]
    exact hj
  have hmono := base_widths_getD_mono t o rows j
  have hinit : 0 ≤ (if o.header = true then t.field_names.map (fun f => (get_size f).1)
      else List.replicate t.field_names.length 0).getD j 0 := by
    split
    · rw [List.getD_eq_getElem?_getD,
        List.getElem?_eq_getElem (by rw [List.length_map]; exact hjn),
        Option.getD_some, List.getElem_map]
      have hf := hfok (t.field_names[j]) (List.getElem_mem hjn)
      rw [get_size_fst_no_nl (line_ok_no_nl hf), sbw_of_line_ok hf]
      exact Int.natCast_nonneg _
    · rw [List.getD_eq_getElem?_getD,
        List.getElem?_eq_getElem (by rw [List.length_replicate]; exact hjn),
        Option.getD_some, List.getElem_replicate]
  have hgd : (base_widths t o rows).getD j 0 = w := by
    rw [List.getD_eq_getElem?_getD, List.getElem?_eq_getElem hj, Option.getD_some, heq]
  rw [← hgd]
  exact le_trans hinit hmono

theorem base_widths_header_fit (t : RTable) (o : Options) (rows : List (List Str))
    (hh : o.header = true) (hfok : ∀ f ∈ t.field_names, line_ok f) :
    ∀ p ∈ t.field_names.zip (base_widths t o rows), str_block_width p.1 ≤ p.2 := by
  intro p hp
  rcases List.mem_iff_getElem.mp hp with ⟨j, hj, heq⟩
  rw [List.getElem_zip] at heq
  subst heq
  have hjn : j < t.field_names.length := by
    rw [List.length_zip, base_widths_length] at hj
    omega
  have hjb : j < (base_widths t o rows).length := by
    rw [base_widths_length]
    exact hjn
  have hmono := base_widths_getD_mono t o rows j
  rw [if_pos hh] at hmono
  have hinit : (t.field_names.map (fun f => (get_size f).1)).getD j 0 =
      str_block_width (t.field_names[j]) := by
    rw [List.getD_eq_getElem?_getD,
      List.getElem?_eq_getElem (by rw [List.length_map]; exact hjn),
      Option.getD_some, List.getElem_map,
      get_size_fst_no_nl (line_ok_no_nl (hfok _ (List.getElem_mem hjn)))]
  rw [hinit] at hmono
  have hgd : (base_widths t o rows).getD j 0 = (base_widths t o rows)[j] := by
    rw [List.getD_eq_getElem?_getD, List.getElem?_eq_getElem hjb, Option.getD_some]
  rw [hgd] at hmono
  exact hmono

theorem mem_py_slice {α : Type _} {l : List α} {s : Nat} {e : Option Nat} {x : α}
    (hx : x ∈ py_slice l s e) : x ∈ l := by
  rcases e with _ | e
  · exact List.mem_of_mem_drop hx
  · exact List.mem_of_mem_take (List.mem_of_mem_drop hx)

theorem mem_get_rows {α : Type _} [Inhabited α] {rows : List (List α)}
    {fns : List Str} {cmp : List α → List α → Bool} {sortby : Option Str}
    {rev old : Bool} {start : Nat} {end_ : Option Nat} {r : List α}
    (hr : r ∈ get_rows rows fns cmp sortby rev old start end_) : r ∈ rows := by
  simp only [get_rows] at hr
  have hsub0 : ∀ x : List α,
      x ∈ (if old = true then py_slice rows start end_ else rows) → x ∈ rows := by
    intro x hx
    split at hx
    · exact mem_py_slice hx
    · exact hx
  have hsub1 : ∀ rows₀ : List (List α), (∀ x ∈ rows₀, x ∈ rows) → ∀ x : List α,
      x ∈ (match sortby with
      | some sb =>
        if sb ≠ [] then
          ((isort (fun a b => if rev = true then cmp b a else cmp a b)
            (decorate_rows rows₀ fns sb)).map (fun r : List α => r.drop 1))
        else rows₀
      | none => rows₀) →
      x ∈ rows := by
    intro rows₀ hr0 x hx
    rcases sortby with _ | sb
    · exact hr0 x hx
    · simp only at hx
      split at hx
      · rcases List.mem_map.mp hx with ⟨d, hd, rfl⟩
        have hd2 := (isort_perm _ _).mem_iff.mp hd
        have hd3 : d ∈ rows₀.map
            (fun r : List α => r.getD (fns.indexOf sb) default :: r) := by
          simpa [decorate_rows] using hd2
        rcases List.mem_map.mp hd3 with ⟨r₀, hr₀, heq⟩
        subst heq
        exact hr0 r₀ hr₀
      · exact hr0 x hx
  split at hr
  · exact hsub1 rows (fun x hx => hx) r (mem_py_slice hr)
  · rename_i hcond
    rw [if_pos (not_not.mp hcond)] at hr
    exact hsub1 (py_slice rows start end_) (fun x hx => mem_py_slice hx) r hr

theorem compute_widths_no_limits (t : RTable) (o : Options) (rows : List (List Str))
    (hmax : o.max_table_width = none) (hmin : o.min_table_width = none)
    (htitle : o.title = none) :
    compute_widths t o rows = base_widths t o rows := by
  simp [compute_widths, shrink_widths, grow_widths, hmax, hmin, htitle,
    truthy_nat, truthy_str]

end PTable

namespace PTable

/-- C1 (counterexample to the original claim): with `max_table_width = 8` on a
table whose single header name is 8 characters wide, the shrink phase commits
column width 4, the rules and data lines come out 8 columns wide, but the
header line is justified to the full header text and comes out 12 columns
wide: not all physical lines of one render have equal display width. -/
theorem c1_counterexample :
    str_block_width ((prepare_lines (mk_table ["abcdefgh".data] [["x".data]])
      { default_options with max_table_width := some 8 }).getD 0 []) = 8 ∧
    str_block_width ((prepare_lines (mk_table ["abcdefgh".data] [["x".data]])
      { default_options with max_table_width := some 8 }).getD 1 []) = 12 := by
  constructor
  · decide
  · decide

/-- C1 (amended): for every table with at least one field whose field names
and cells are printable ASCII (cells may contain newlines), whose border
glyphs are single-width/escape-free/newline-free, with no `fields` filter, no
title, no `max_table_width`/`min_table_width`, default header style, rows of
the right arity, and committed widths that are at least 1 whenever a cell
line needs wrapping (`textwrap.fill` requires a positive width), all physical
lines of `_prepare_lines` have the same display width. -/
theorem c1_equal_line_widths (t : RTable) (o : Options)
    (hfe : t.field_names ≠ [])
    (hfields : o.fields = none) (htitle : o.title = none)
    (hmax : o.max_table_width = none) (hmin : o.min_table_width = none)
    (hstyle : t.header_style_attr = none)
    (harity : ∀ r ∈ t.rows, r.length = t.field_names.length)
    (hcells : ∀ r ∈ t.rows, ∀ c ∈ r, cell_ok c)
    (hfok : ∀ f ∈ t.field_names, line_ok f)
    (hvo : char_ok o.vertical_char) (hh : char_ok o.horizontal_char)
    (hj : char_ok o.junction_char) (hva : char_ok t.vertical_char_attr)
    (hwrap : ∀ r ∈ t.rows, ∀ p ∈ r.zip (compute_widths t o (formatted_rows t o)),
      ∀ line ∈ split_nl p.1, str_block_width line > p.2 → 1 ≤ p.2) :
    ∀ l₁ ∈ prepare_lines t o, ∀ l₂ ∈ prepare_lines t o,
      str_block_width l₁ = str_block_width l₂ := by
  suffices hmain : ∀ l ∈ prepare_lines t o,
      str_block_width l = table_line_width t o (compute_widths t o (formatted_rows t o)) by
    intro l₁ h₁ l₂ h₂
    rw [hmain l₁ h₁, hmain l₂ h₂]
  have hcw := compute_widths_no_limits t o (formatted_rows t o) hmax hmin htitle
  have hlen : (compute_widths t o (formatted_rows t o)).length = t.field_names.length := by
    rw [hcw, base_widths_length]
  have hwnn : ∀ w ∈ compute_widths t o (formatted_rows t o), 0 ≤ w := by
    rw [hcw]
    exact base_widths_nonneg t o _ hfok
  have hhr : o.border = true →
      raw_width (stringify_hrule t o (compute_widths t o (formatted_rows t o))) =
        table_line_width t o (compute_widths t o (formatted_rows t o)) ∧
      escChar ∉ stringify_hrule t o (compute_widths t o (formatted_rows t o)) :=
    fun hb => stringify_hrule_width t o _ hfe hb hfields hlen hwnn hh hj
  intro l hl
  simp only [prepare_lines, htitle, List.nil_append] at hl
  split at hl
  · cases hl
  · rcases List.mem_append.mp hl with h1 | hbot
    · rcases List.mem_append.mp h1 with hhead | hrow
      · by_cases hhdr : o.header = true
        · rw [if_pos hhdr] at hhead
          have hfit : ∀ p ∈ t.field_names.zip (compute_widths t o (formatted_rows t o)),
              str_block_width p.1 ≤ p.2 := by
            rw [hcw]
            exact base_widths_header_fit t o _ hhdr hfok
          rcases stringify_header_line_width t o _ _ hfe hfields hstyle hlen hfok hfit
              hvo l hhead with ⟨hb, rfl⟩ | ⟨hwid, hesc⟩
          · rw [sbw_eq_raw_of_no_esc (hhr hb).2, (hhr hb).1]
          · rw [sbw_eq_raw_of_no_esc hesc, hwid]
        · rw [if_neg hhdr] at hhead
          by_cases hbf : o.border = true ∧ (o.hrules = Rules.ALL ∨ o.hrules = Rules.FRAME)
          · rw [if_pos hbf, List.mem_singleton] at hhead
            subst hhead
            rw [sbw_eq_raw_of_no_esc (hhr hbf.1).2, (hhr hbf.1).1]
          · rw [if_neg hbf] at hhead
            cases hhead
      · rcases List.mem_flatMap.mp hrow with ⟨r, hrmem, hlr⟩
        have hrt : r ∈ t.rows := by
          simp only [formatted_rows] at hrmem
          exact mem_get_rows hrmem
        rcases stringify_row_width t o r _ _ hfe hfields hlen (harity r hrt) hwnn
            (hcells r hrt) (hwrap r hrt) hva hvo l hlr with ⟨hb, rfl⟩ | ⟨hwid, hesc⟩
        · rw [sbw_eq_raw_of_no_esc (hhr hb).2, (hhr hb).1]
        · rw [sbw_eq_raw_of_no_esc hesc, hwid]
    · by_cases hbf : o.border = true ∧ o.hrules = Rules.FRAME
      · rw [if_pos hbf, List.mem_singleton] at hbot
        subst hbot
        rw [sbw_eq_raw_of_no_esc (hhr hbf.1).2, (hhr hbf.1).1]
      · rw [if_neg hbf] at hbot
        cases hbot

end PTable

namespace PTable

/-- C1 witness: the amended equal-width theorem applied to a concrete default
render (rule line versus a wrapped data row line). -/
theorem c1_witness :
    str_block_width ((prepare_lines (mk_table ["ab".data]
        [["x".data], ["hello\nworld".data]]) default_options).getD 1 []) =
      str_block_width ((prepare_lines (mk_table ["ab".data]
        [["x".data], ["hello\nworld".data]]) default_options).getD 4 []) :=
  c1_equal_line_widths (mk_table ["ab".data] [["x".data], ["hello\nworld".data]])
    default_options (by decide) rfl rfl rfl rfl rfl (by decide) (by decide)
    (by decide) (by decide) (by decide) (by decide) (by decide) (by decide)
    _ (by decide) _ (by decide)

end PTable

namespace PTable

theorem foldl_add_sum (P Q : Int) : ∀ (L : List (Str × Int)) (base : Int),
    L.foldl (fun acc p => acc + p.2 + P + Q) base =
      base + (L.map (fun p => p.2 + P + Q)).sum
  | [], base => by simp
  | p :: L, base => by
    rw [List.foldl_cons, foldl_add_sum P Q L, List.map_cons, List.sum_cons]
    ring

theorem sum_map_add2 (P Q : Int) : ∀ l : List Int,
    (l.map (fun w => w + P + Q)).sum = l.sum + l.length * (P + Q)
  | [] => by simp
  | x :: l => by
    rw [List.map_cons, List.sum_cons, List.sum_cons, sum_map_add2 P Q l,
      List.length_cons]
    push_cast
    ring

theorem compute_table_width_eq (t : RTable) (o : Options) (ws : List Int)
    (hfields : o.fields = none) (htitle : o.title = none) (hvr : o.vrules = Rules.ALL)
    (hlen : ws.length = t.field_names.length) (hwnn : ∀ w ∈ ws, 0 ≤ w) :
    compute_table_width t o ws = vrules_count t o +
      (ws.map (fun w => w + ((get_padding_widths o).1 : Int) +
        ((get_padding_widths o).2 : Int))).sum := by
  have hskip := field_skip_none hfields
  have hsum0 : 0 ≤ (ws.map (fun w => w + ((get_padding_widths o).1 : Int) +
      ((get_padding_widths o).2 : Int))).sum := by
    apply List.sum_nonneg
    intro x hx
    rcases List.mem_map.mp hx with ⟨w, hw, rfl⟩
    have h1 := hwnn w hw
    have h2 : (0 : Int) ≤ ((get_padding_widths o).1 : Int) := Int.natCast_nonneg _
    have h3 : (0 : Int) ≤ ((get_padding_widths o).2 : Int) := Int.natCast_nonneg _
    omega
  simp only [compute_table_width, hskip, Bool.false_eq_true, if_false, htitle,
    truthy_str, hvr]
  rw [foldl_add_sum, zip_sum_width _ _ _ _ hlen, vrules_count, hvr]
  have hmx : 0 ≤ max ((t.field_names.length : Int) - 1) 0 * 1 := by
    have := le_max_right ((t.field_names.length : Int) - 1) 0
    omega
  simp only [eq_self_iff_true, or_true, true_or, if_true]
  omega

end PTable

namespace PTable

theorem sum_map_mul_right_id : ∀ (l : List Int) (r : Int),
    (l.map (fun w => w * r)).sum = l.sum * r
  | [], r => by simp
  | x :: l, r => by
    rw [List.map_cons, List.sum_cons, List.sum_cons, sum_map_mul_right_id l r]
    ring

theorem map_int_mul_frac_one (l : List Int) :
    l.map (fun w => int_mul_frac w Frac.one) = l := by
  have h : ∀ w ∈ l, int_mul_frac w Frac.one = w := fun w _ => by
    simp [int_mul_frac, Frac.one, Int.tdiv_one]
  rw [List.map_congr_left h]
  exact List.map_id l

theorem frac_min_one_nonneg_den {num den : Int} (hden : 0 ≤ den) :
    frac_min_one ⟨num, den⟩ = if num ≤ den then (⟨num, den⟩ : Frac) else Frac.one := by
  have hc : (if 0 ≤ den then num ≤ den else den ≤ num) = (num ≤ den) := if_pos hden
  simp only [frac_min_one, hc]

theorem shrink_facts (t : RTable) (o : Options) (FRrows : List (List Str)) (W : Nat)
    (hmax : o.max_table_width = some W) (hW : 1 ≤ W)
    (htitle : o.title = none) (hfields : o.fields = none) (hvr : o.vrules = Rules.ALL)
    (hlp : o.left_padding_width = none) (hrp : o.right_padding_width = none)
    (hpw : t.padding_width_attr = o.padding_width)
    (hfe : t.field_names ≠ [])
    (hfok : ∀ f ∈ t.field_names, line_ok f) :
    (shrink_widths t o FRrows (base_widths t o FRrows)).length = t.field_names.length ∧
    (∀ w ∈ shrink_widths t o FRrows (base_widths t o FRrows), 0 ≤ w) ∧
    vrules_count t o + (((shrink_widths t o FRrows (base_widths t o FRrows)).map
      (fun w => w + ((get_padding_widths o).1 : Int) +
        ((get_padding_widths o).2 : Int))).sum) ≤
      (if vrules_count t o + padding_est t o ≤ (W : Int) then (W : Int)
       else vrules_count t o + padding_est t o + (FRrows.length : Int)) := by
  have hBlen := base_widths_length t o FRrows
  have hBnn := base_widths_nonneg t o FRrows hfok
  have hBsum0 : 0 ≤ (base_widths t o FRrows).sum := List.sum_nonneg hBnn
  have hlen0 : (0 : Int) ≤ (FRrows.length : Int) := Int.natCast_nonneg _
  have hpads : get_padding_widths o = (o.padding_width, o.padding_width) := by
    rw [get_padding_widths, hlp, hrp]
    rfl
  have hpe : padding_est t o =
      (o.padding_width : Int) * (t.field_names.length : Int) * 2 := by
    rw [padding_est, hpw, hvr]
    simp
  have hsum_pe : ∀ ws : List Int, ws.length = t.field_names.length →
      ((ws.map (fun w => w + ((get_padding_widths o).1 : Int) +
        ((get_padding_widths o).2 : Int))).sum) = ws.sum + padding_est t o := by
    intro ws hws
    rw [sum_map_add2, hws, hpe, hpads]
    push_cast
    ring
  have hctwB := compute_table_width_eq t o (base_widths t o FRrows) hfields htitle hvr
    hBlen hBnn
  rw [hsum_pe _ hBlen] at hctwB
  have hWt : truthy_nat (some W) = true := by
    simp [truthy_nat]
    omega
  simp only [shrink_widths, hmax, hWt, eq_self_iff_true, if_true, Option.getD_some]
  by_cases hsh : compute_table_width t o (base_widths t o FRrows) > (W : Int)
  · rw [if_pos hsh]
    have hdw : compute_table_width t o (base_widths t o FRrows) - padding_est t o -
        vrules_count t o = (base_widths t o FRrows).sum := by
      rw [hctwB]
      ring
    simp only [hdw]
    by_cases hD : (base_widths t o FRrows).sum = 0
    · rw [if_pos hD, map_int_mul_frac_one]
      refine ⟨hBlen, hBnn, ?_⟩
      rw [hsum_pe _ hBlen]
      by_cases hb : vrules_count t o + padding_est t o ≤ (W : Int)
      · rw [if_pos hb]
        omega
      · rw [if_neg hb]
        omega
    · rw [if_neg hD]
      have hDpos : 0 < (base_widths t o FRrows).sum := lt_of_le_of_ne hBsum0 (Ne.symm hD)
      have hscale : ∀ B' : Int, 0 ≤ B' →
          ((base_widths t o FRrows).map (fun w =>
            int_mul_frac w (frac_min_one ⟨B', (base_widths t o FRrows).sum⟩))).length =
              t.field_names.length ∧
          (∀ w ∈ (base_widths t o FRrows).map (fun w =>
            int_mul_frac w (frac_min_one ⟨B', (base_widths t o FRrows).sum⟩)), 0 ≤ w) ∧
          ((base_widths t o FRrows).map (fun w =>
            int_mul_frac w (frac_min_one ⟨B', (base_widths t o FRrows).sum⟩))).sum ≤ B' := by
        intro B' hB'
        rw [frac_min_one_nonneg_den hBsum0]
        by_cases hle : B' ≤ (base_widths t o FRrows).sum
        · rw [if_pos hle]
          have hconv : ((base_widths t o FRrows).map (fun w =>
              int_mul_frac w ⟨B', (base_widths t o FRrows).sum⟩)) =
              ((base_widths t o FRrows).map (fun w =>
                (w * B') / (base_widths t o FRrows).sum)) :=
            List.map_congr_left (fun w hw => by
              rw [int_mul_frac]
              exact Int.tdiv_eq_ediv (mul_nonneg (hBnn w hw) hB') hBsum0)
          rw [hconv]
          refine ⟨by rw [List.length_map, hBlen], ?_, ?_⟩
          · intro w hw
            rcases List.mem_map.mp hw with ⟨w0, hw0, rfl⟩
            exact Int.ediv_nonneg (mul_nonneg (hBnn w0 hw0) hB') hBsum0
          · have hstep : ∀ w ∈ base_widths t o FRrows,
                (w * B') / (base_widths t o FRrows).sum *
                  (base_widths t o FRrows).sum ≤ w * B' :=
              fun w _ => Int.ediv_mul_le _ (ne_of_gt hDpos)
            have hsum := List.sum_le_sum hstep
            rw [List.sum_map_mul_right] at hsum
            have hR : ((base_widths t o FRrows).map (fun w => w * B')).sum =
                (base_widths t o FRrows).sum * B' := sum_map_mul_right_id _ _
            rw [hR] at hsum
            have hsum2 : ((base_widths t o FRrows).map (fun w =>
                (w * B') / (base_widths t o FRrows).sum)).sum *
                (base_widths t o FRrows).sum ≤ B' * (base_widths t o FRrows).sum := by
              rw [mul_comm B' ((base_widths t o FRrows).sum)]
              exact hsum
            exact le_of_mul_le_mul_right hsum2 hDpos
        · rw [if_neg hle, map_int_mul_frac_one]
          exact ⟨hBlen, hBnn, by omega⟩
      by_cases hrelax : (W : Int) < vrules_count t o + padding_est t o
      · rw [if_pos hrelax]
        obtain ⟨l1, l2, l3⟩ := hscale (vrules_count t o + padding_est t o +
          (FRrows.length : Int) - padding_est t o - vrules_count t o) (by omega)
        refine ⟨l1, l2, ?_⟩
        rw [hsum_pe _ l1, if_neg (by omega)]
        omega
      · rw [if_neg hrelax]
        obtain ⟨l1, l2, l3⟩ := hscale ((W : Int) - padding_est t o - vrules_count t o)
          (by omega)
        refine ⟨l1, l2, ?_⟩
        rw [hsum_pe _ l1, if_pos (by omega)]
        omega
  · rw [if_neg hsh]
    refine ⟨hBlen, hBnn, ?_⟩
    rw [hsum_pe _ hBlen]
    rw [if_pos (by omega)]
    omega

end PTable

namespace PTable

/-- C3 (counterexample to the original claim): with `max_table_width = 8` and
one 8-character header name, the rule-plus-padding overhead (4) is below the
requested maximum, so no relaxation is permitted, yet the rendered header
line is 12 columns wide: a line exceeds `max_table_width` outside the claimed
exception. -/
theorem c3_counterexample :
    vrules_count (mk_table ["abcdefgh".data] [["x".data]])
        { default_options with max_table_width := some 8 } +
      padding_est (mk_table ["abcdefgh".data] [["x".data]])
        { default_options with max_table_width := some 8 } ≤ 8 ∧
    8 < str_block_width ((prepare_lines (mk_table ["abcdefgh".data] [["x".data]])
      { default_options with max_table_width := some 8 }).getD 1 []) := by
  constructor
  · decide
  · decide

/-- C3 (amended): for every table rendered with `max_table_width = W ≥ 1`,
header row hidden, `vrules = ALL`, default paddings, no title/minimum
width/fields filter, printable-ASCII content, single-width border glyphs,
correct arity, and wrappable committed widths, every line of the output has
display width at most `W` when `W` is at least the rule-plus-padding
overhead, and at most that overhead plus the number of rendered rows
otherwise.  (With the header shown the bound fails: header text is never
wrapped, see the counterexample.) -/
theorem c3_max_table_width_bound (t : RTable) (o : Options) (W : Nat)
    (hmax : o.max_table_width = some W) (hW : 1 ≤ W)
    (hmin : o.min_table_width = none) (htitle : o.title = none)
    (hfields : o.fields = none) (hheader : o.header = false)
    (hvr : o.vrules = Rules.ALL)
    (hlp : o.left_padding_width = none) (hrp : o.right_padding_width = none)
    (hpw : t.padding_width_attr = o.padding_width)
    (hfe : t.field_names ≠ [])
    (harity : ∀ r ∈ t.rows, r.length = t.field_names.length)
    (hcells : ∀ r ∈ t.rows, ∀ c ∈ r, cell_ok c)
    (hfok : ∀ f ∈ t.field_names, line_ok f)
    (hvo : char_ok o.vertical_char) (hh : char_ok o.horizontal_char)
    (hj : char_ok o.junction_char) (hva : char_ok t.vertical_char_attr)
    (hwrap : ∀ r ∈ t.rows, ∀ p ∈ r.zip (compute_widths t o (formatted_rows t o)),
      ∀ line ∈ split_nl p.1, str_block_width line > p.2 → 1 ≤ p.2) :
    ∀ l ∈ prepare_lines t o,
      str_block_width l ≤
        (if vrules_count t o + padding_est t o ≤ (W : Int) then (W : Int)
         else vrules_count t o + padding_est t o + ((formatted_rows t o).length : Int)) := by
  have hgrow : ∀ X : List Int, grow_widths t o X = X := fun X => by
    simp [grow_widths, hmin, htitle, truthy_nat, truthy_str]
  have hCW : compute_widths t o (formatted_rows t o) =
      shrink_widths t o (formatted_rows t o) (base_widths t o (formatted_rows t o)) := by
    rw [compute_widths, hgrow]
  obtain ⟨hlen', hwnn', hbound⟩ := shrink_facts t o (formatted_rows t o) W hmax hW
    htitle hfields hvr hlp hrp hpw hfe hfok
  have hlen : (compute_widths t o (formatted_rows t o)).length = t.field_names.length := by
    rw [hCW]
    exact hlen'
  have hwnn : ∀ w ∈ compute_widths t o (formatted_rows t o), 0 ≤ w := by
    rw [hCW]
    exact hwnn'
  have hkey : vrules_count t o + (((compute_widths t o (formatted_rows t o)).map
      (fun w => w + ((get_padding_widths o).1 : Int) +
        ((get_padding_widths o).2 : Int))).sum) ≤
      (if vrules_count t o + padding_est t o ≤ (W : Int) then (W : Int)
       else vrules_count t o + padding_est t o + ((formatted_rows t o).length : Int)) := by
    rw [hCW]
    exact hbound
  have hvc : vrules_count t o = (t.field_names.length : Int) + 1 := by
    rw [vrules_count, hvr]
    have hn1 : 0 < t.field_names.length := List.length_pos.mpr hfe
    have hmx : max ((t.field_names.length : Int) - 1) 0 =
        (t.field_names.length : Int) - 1 := max_eq_left (by omega)
    simp only [hmx, eq_self_iff_true, or_true, true_or, if_true]
    omega
  have hb0 : (if o.border = true then (t.field_names.length : Int) + 1 else 0) ≤
      vrules_count t o := by
    rw [hvc]
    split
    · exact le_rfl
    · have := Int.natCast_nonneg t.field_names.length
      omega
  have htlw_le : table_line_width t o (compute_widths t o (formatted_rows t o)) ≤
      (if vrules_count t o + padding_est t o ≤ (W : Int) then (W : Int)
       else vrules_count t o + padding_est t o + ((formatted_rows t o).length : Int)) := by
    rw [table_line_width]
    omega
  have hhr : o.border = true →
      raw_width (stringify_hrule t o (compute_widths t o (formatted_rows t o))) =
        table_line_width t o (compute_widths t o (formatted_rows t o)) ∧
      escChar ∉ stringify_hrule t o (compute_widths t o (formatted_rows t o)) :=
    fun hb => stringify_hrule_width t o _ hfe hb hfields hlen hwnn hh hj
  intro l hl
  simp only [prepare_lines, htitle, List.nil_append] at hl
  split at hl
  · cases hl
  · rcases List.mem_append.mp hl with h1 | hbot
    · rcases List.mem_append.mp h1 with hhead | hrow
      · rw [if_neg (by simp [hheader])] at hhead
        by_cases hbf : o.border = true ∧ (o.hrules = Rules.ALL ∨ o.hrules = Rules.FRAME)
        · rw [if_pos hbf, List.mem_singleton] at hhead
          subst hhead
          rw [sbw_eq_raw_of_no_esc (hhr hbf.1).2, (hhr hbf.1).1]
          exact htlw_le
        · rw [if_neg hbf] at hhead
          cases hhead
      · rcases List.mem_flatMap.mp hrow with ⟨r, hrmem, hlr⟩
        have hrt : r ∈ t.rows := by
          simp only [formatted_rows] at hrmem
          exact mem_get_rows hrmem
        rcases stringify_row_width t o r _ _ hfe hfields hlen (harity r hrt) hwnn
            (hcells r hrt) (hwrap r hrt) hva hvo l hlr with ⟨hb, rfl⟩ | ⟨hwid, hesc⟩
        · rw [sbw_eq_raw_of_no_esc (hhr hb).2, (hhr hb).1]
          exact htlw_le
        · rw [sbw_eq_raw_of_no_esc hesc, hwid]
          exact htlw_le
    · by_cases hbf : o.border = true ∧ o.hrules = Rules.FRAME
      · rw [if_pos hbf, List.mem_singleton] at hbot
        subst hbot
        rw [sbw_eq_raw_of_no_esc (hhr hbf.1).2, (hhr hbf.1).1]
        exact htlw_le
      · rw [if_neg hbf] at hbot
        cases hbot

end PTable

namespace PTable

/-- C3 witness: the amended bound applied to a concrete shrunk render (one
column shrunk from width 6 to width 2, wrapped over three physical rows). -/
theorem c3_witness :
    str_block_width ((prepare_lines (mk_table ["ab".data] [["abcdef".data]])
        { default_options with header := false, max_table_width := some 6 }).getD 1 []) ≤
      (if vrules_count (mk_table ["ab".data] [["abcdef".data]])
            { default_options with header := false, max_table_width := some 6 } +
          padding_est (mk_table ["ab".data] [["abcdef".data]])
            { default_options with header := false, max_table_width := some 6 } ≤
          ((6 : Nat) : Int)
       then ((6 : Nat) : Int)
       else vrules_count (mk_table ["ab".data] [["abcdef".data]])
            { default_options with header := false, max_table_width := some 6 } +
          padding_est (mk_table ["ab".data] [["abcdef".data]])
            { default_options with header := false, max_table_width := some 6 } +
          ((formatted_rows (mk_table ["ab".data] [["abcdef".data]])
            { default_options with header := false, max_table_width := some 6 }).length :
              Int)) :=
  c3_max_table_width_bound (mk_table ["ab".data] [["abcdef".data]])
    { default_options with header := false, max_table_width := some 6 } 6
    rfl (by decide) rfl rfl rfl rfl rfl rfl rfl rfl (by decide) (by decide) (by decide)
    (by decide) (by decide) (by decide) (by decide) (by decide) (by decide)
    _ (by decide)

end PTable
